import Mathlib

/-!
Verification development for the `tsl::ordered_map` / `ordered_set` core
(`src/ordered_map.h`, class `detail_ordered_hash::ordered_hash`) and the
chunked serialization layer (`include/tsl/ordered_hash_chunked_serialization.h`).

The C++ template is shallowly embedded as executable Lean functions:
  * keys are `ℕ`, the key-equality functor is `=` on `ℕ`, and the hasher is an
    explicit function parameter `H : ℕ → ℕ` (passed wherever the source calls
    `hash_key`); mapped values are a type parameter `α`;
  * `bucket_entry` stores a 32-bit index (`std::uint_least32_t`, modelled as a
    natural number reduced mod `2^32` exactly where the source performs the
    `index_type(index)` cast) and a 32-bit truncated hash;
  * `float` quantities are modelled as exact rationals.  The two constants of
    the source, `0.9f` and `0.15f`, are the exact binary values of those
    literals (`7549747/2^23` and `20132659/2^27`).  The load-threshold
    computation `size_type(float(bucket_count())*m_max_load_factor)` is exact
    in `float` whenever `bucket_count` is a power of two, which it always is,
    so the rational model agrees with the C++ bitwise;
  * the unbounded C++ loops are given explicit fuel.  Fuel bounds are chosen
    so that exhaustion corresponds exactly to genuine non-termination of the
    C++ loop (in which case the embedded operation returns a divergence
    marker);
  * C++ exceptions (`std::length_error` on capacity) become `Except`-style
    result constructors.
-/

set_option maxHeartbeats 1000000

namespace OrderedMapSpec

/-- Width of `bucket_entry::index_type` (`std::uint_least32_t`): 32 bits. -/
def INDEX_WIDTH : ℕ := 32

/-- `bucket_entry::EMPTY_MARKER_INDEX = std::numeric_limits<index_type>::max()`. -/
def EMPTY_MARKER_INDEX : ℕ := 2 ^ 32 - 1

/-- `bucket_entry::NB_RESERVED_INDEXES`. -/
def NB_RESERVED_INDEXES : ℕ := 1

/-- One cell of the bucket array: a 32-bit index into `m_values`
(or the empty marker) and a 32-bit truncated hash. -/
structure BucketEntry where
  m_index : ℕ
  m_hash : ℕ
deriving DecidableEq, Repr

/-- Default-constructed bucket entry: `m_index(EMPTY_MARKER_INDEX), m_hash(0)`. -/
def BucketEntry.mk0 : BucketEntry := ⟨EMPTY_MARKER_INDEX, 0⟩

/-- `bucket_entry::empty()`. -/
def BucketEntry.empty (b : BucketEntry) : Bool := b.m_index = EMPTY_MARKER_INDEX

/-- `bucket_entry::clear()` (sets only the index; the stored hash is kept). -/
def BucketEntry.clear (b : BucketEntry) : BucketEntry := ⟨EMPTY_MARKER_INDEX, b.m_hash⟩

/-- `bucket_entry::set_index`: stores `index_type(index)`, i.e. the value
reduced mod `2^32` (the source asserts `index <= max_size()` in debug builds;
the release-mode cast is what we model). -/
def BucketEntry.set_index (b : BucketEntry) (index : ℕ) : BucketEntry :=
  ⟨index % 2 ^ 32, b.m_hash⟩

/-- `bucket_entry::truncate_hash`: truncation to the 32-bit hash type. -/
def truncate_hash (hash : ℕ) : ℕ := hash % 2 ^ 32

/-- `bucket_entry::set_hash`. -/
def BucketEntry.set_hash (b : BucketEntry) (hash : ℕ) : BucketEntry :=
  ⟨b.m_index, truncate_hash hash⟩

/-- `bucket_entry::max_size() = numeric_limits<index_type>::max() - NB_RESERVED_INDEXES`. -/
def BucketEntry.max_size : ℕ := (2 ^ 32 - 1) - NB_RESERVED_INDEXES

/-- Platform parameter: `m_values.max_size()` of the values container.  Any
value above `BucketEntry.max_size` gives the same `ordered_hash::max_size`. -/
def VALUES_MAX_SIZE : ℕ := 2 ^ 61

/-- Platform parameter: `m_buckets.max_size()`, the allocator bound on the
bucket array (`ordered_hash::max_bucket_count`).  Implementation-defined in
C++; we model a build capped at `2^32` buckets, the largest bucket count for
which the stored 32-bit truncated hashes determine initial buckets exactly. -/
def MAX_BUCKET_COUNT : ℕ := 2 ^ 32

/-- `ordered_hash::DEFAULT_INIT_BUCKETS_SIZE`. -/
def DEFAULT_INIT_BUCKETS_SIZE : ℕ := 16

/-- `ordered_hash::DEFAULT_MAX_LOAD_FACTOR = 0.9f`, as the exact value of the
float literal: `0.9f = 7549747 * 2^-23`.  Built as a raw `Rat` structure so
that kernel evaluation is never blocked by the `irreducible` `Rat`
operations. -/
def DEFAULT_MAX_LOAD_FACTOR : ℚ := ⟨7549747, 8388608, by norm_num, by norm_num⟩

/-- `ordered_hash::REHASH_ON_HIGH_NB_PROBES__NPROBES`. -/
def REHASH_ON_HIGH_NB_PROBES__NPROBES : ℕ := 128

/-- `ordered_hash::REHASH_ON_HIGH_NB_PROBES__MIN_LOAD_FACTOR = 0.15f`, as the
exact value of the float literal: `0.15f = 20132659 * 2^-27`. -/
def REHASH_ON_HIGH_NB_PROBES__MIN_LOAD_FACTOR : ℚ :=
  ⟨20132659, 134217728, by norm_num, by norm_num⟩

/-- `size_type(float(n) * q)` for a nonnegative rational `q`: the exact floor
of `n * q`, computed on the raw numerator and denominator so that kernel
evaluation works.  For the power-of-two `n` and float-literal `q` the source
uses, the float computation is exact and agrees with this. -/
def ratFloorMul (n : ℕ) (q : ℚ) : ℕ :=
  ((n : ℤ) * q.num).fdiv (q.den : ℤ) |>.toNat

/-- `size_type(std::ceil(float(n) / q))`: the exact ceiling of `n / q` for a
positive rational `q` (`0` for `q ≤ 0`, where the C++ float division has no
defined integral result). -/
def ratCeilDiv (n : ℕ) (q : ℚ) : ℕ :=
  if q.num ≤ 0 then 0 else (n * q.den + (q.num.toNat - 1)) / q.num.toNat

/-- The state of `ordered_hash` (value type `ValueType = (Key, α)` as for a
map; a set is the degenerate case where `α` carries no information). -/
structure OrderedHash (α : Type) where
  m_buckets : List BucketEntry
  m_mask : ℕ
  m_values : List (ℕ × α)
  m_grow_on_next_insert : Bool
  m_max_load_factor : ℚ
  m_load_threshold : ℕ
  m_min_load_factor_rehash_threshold : ℕ
deriving DecidableEq, Repr

namespace OrderedHash

variable {α : Type}

/-- `ordered_hash::size()`. -/
def size (s : OrderedHash α) : ℕ := s.m_values.length

/-- `ordered_hash::bucket_count()`. -/
def bucket_count (s : OrderedHash α) : ℕ := s.m_buckets.length

/-- `ordered_hash::max_bucket_count()` (see `MAX_BUCKET_COUNT`). -/
def max_bucket_count (_s : OrderedHash α) : ℕ := MAX_BUCKET_COUNT

/-- `ordered_hash::max_size() = min(bucket_entry::max_size(), m_values.max_size())`. -/
def max_size (_s : OrderedHash α) : ℕ := min BucketEntry.max_size VALUES_MAX_SIZE

/-- Bucket access `m_buckets[i]`.  Out-of-range access is undefined behaviour
in C++; the embedding totalizes it with a default empty cell (never reached
on the states our theorems quantify over). -/
def bucketAt (s : OrderedHash α) (i : ℕ) : BucketEntry := s.m_buckets.getD i BucketEntry.mk0

/-- Key of `m_values[i]` (`KeySelect()(m_values[i])`), `none` when out of range. -/
def keyAt (s : OrderedHash α) (i : ℕ) : Option ℕ := (s.m_values.get? i).map Prod.fst

/-- `ordered_hash::bucket_for_hash(hash) = hash & m_mask`. -/
def bucket_for_hash (s : OrderedHash α) (hash : ℕ) : ℕ := hash &&& s.m_mask

/-- `ordered_hash::next_bucket`. -/
def next_bucket (s : OrderedHash α) (index : ℕ) : ℕ :=
  if index + 1 < s.m_buckets.length then index + 1 else 0

/-- `ordered_hash::dist_from_initial_bucket(ibucket)`. -/
def dist_from_initial_bucket (s : OrderedHash α) (ibucket : ℕ) : ℕ :=
  let initial_bucket := s.bucket_for_hash (s.bucketAt ibucket).m_hash
  if ibucket ≥ initial_bucket then ibucket - initial_bucket
  else (s.bucket_count + ibucket) - initial_bucket

/-- One probe test of `ordered_hash::find_key`: does the cell at `ibucket`
match key `key` with full hash `hash`?  (`truncated_hash` comparison then
`compare_keys` on the stored value.) -/
def matchesAt (s : OrderedHash α) (key : ℕ) (hash : ℕ) (ibucket : ℕ) : Bool :=
  (s.bucketAt ibucket).m_hash = truncate_hash hash ∧
    s.keyAt (s.bucketAt ibucket).m_index = some key

/-- Loop of `ordered_hash::find_key` (returns the bucket-array index of the
cell holding `key`, or `none`).  The C++ loop provably exits within
`bucket_count + 1` iterations whenever `m_mask = bucket_count - 1` and the
array is non-empty, so the fuel given by `find_key` below never runs out on
such states; fuel exhaustion also returns `none`. -/
def find_keyLoop (s : OrderedHash α) (key : ℕ) (hash : ℕ) :
    ℕ → ℕ → ℕ → Option ℕ
  | _, _, 0 => none
  | ibucket, dist_from_init_bucket, fuel + 1 =>
    if (s.bucketAt ibucket).empty then none
    else if s.matchesAt key hash ibucket then some ibucket
    else if dist_from_init_bucket > s.dist_from_initial_bucket ibucket then none
    else find_keyLoop s key hash (s.next_bucket ibucket) (dist_from_init_bucket + 1) fuel

/-- `ordered_hash::find_key(key, hash)`. -/
def find_key (s : OrderedHash α) (key : ℕ) (hash : ℕ) : Option ℕ :=
  find_keyLoop s key hash (s.bucket_for_hash hash) 0 (s.bucket_count + 1)

/-- Write `m_buckets[i] = b`. -/
def setBucket (s : OrderedHash α) (i : ℕ) (b : BucketEntry) : OrderedHash α :=
  { s with m_buckets := s.m_buckets.set i b }

/-- Loop of `ordered_hash::backward_shift`: swap the empty bucket with the
bucket on its right while that one is non-empty with positive probe
distance.  Every iteration decreases the total probe distance of the
non-empty cells by one, and each cell's distance is below
`2 * bucket_count`, so the fuel supplied by `backward_shift` never runs
out; exhaustion returns the state unchanged. -/
def backward_shiftLoop : OrderedHash α → ℕ → ℕ → OrderedHash α
  | s, _, 0 => s
  | s, previous_ibucket, fuel + 1 =>
    let current_ibucket := s.next_bucket previous_ibucket
    if ¬(s.bucketAt current_ibucket).empty ∧
        s.dist_from_initial_bucket current_ibucket > 0 then
      let swapped := setBucket (setBucket s current_ibucket (s.bucketAt previous_ibucket))
        previous_ibucket (s.bucketAt current_ibucket)
      backward_shiftLoop swapped current_ibucket fuel
    else s

/-- `ordered_hash::backward_shift(empty_ibucket)`. -/
def backward_shift (s : OrderedHash α) (empty_ibucket : ℕ) : OrderedHash α :=
  backward_shiftLoop s empty_ibucket (2 * s.bucket_count * s.bucket_count + 1)

/-- Inner `while` of `ordered_hash::shift_indexes_left_in_buckets`: walk from
`ibucket` to the first bucket whose raw index field equals `target`.  The walk
visits every slot within `bucket_count + 1` steps; if no bucket carries
`target` the C++ loop never terminates, which the embedding reports as
`none`. -/
def findIndexLoop (s : OrderedHash α) (target : ℕ) : ℕ → ℕ → Option ℕ
  | _, 0 => none
  | ibucket, fuel + 1 =>
    if (s.bucketAt ibucket).m_index = target then some ibucket
    else findIndexLoop s target (s.next_bucket ibucket) fuel

/-- Loop of `ordered_hash::shift_indexes_left_in_buckets` over
`ivalue ∈ [from_ivalue, m_values.size())`.  The `index() - delta` update is
the unsigned 32-bit subtraction performed by the source. -/
def shift_indexes_leftLoop (H : ℕ → ℕ) (delta : ℕ) :
    OrderedHash α → ℕ → ℕ → Option (OrderedHash α)
  | s, _, 0 => some s
  | s, ivalue, fuel + 1 =>
    match s.m_values.get? ivalue with
    | none => some s
    | some kv =>
      match findIndexLoop s (ivalue + delta) (s.bucket_for_hash (H kv.1))
          (s.bucket_count + 1) with
      | none => none
      | some ibucket =>
        shift_indexes_leftLoop H delta
          (setBucket s ibucket ((s.bucketAt ibucket).set_index
            (((s.bucketAt ibucket).m_index + 2 ^ 32) - delta)))
          (ivalue + 1) fuel

/-- `ordered_hash::shift_indexes_left_in_buckets(from_ivalue, delta)`. -/
def shift_indexes_left_in_buckets (H : ℕ → ℕ) (s : OrderedHash α)
    (from_ivalue delta : ℕ) : Option (OrderedHash α) :=
  shift_indexes_leftLoop H delta s from_ivalue (s.m_values.length + 1)

/-- `ordered_hash::erase_value_from_bucket(it_bucket)`, with `ibucket` the
bucket-array position of the iterator. -/
def erase_value_from_bucket (H : ℕ → ℕ) (s : OrderedHash α) (ibucket : ℕ) :
    Option (OrderedHash α) :=
  let p := (s.bucketAt ibucket).m_index
  let s1 : OrderedHash α := { s with m_values := s.m_values.eraseIdx p }
  let afterShift : Option (OrderedHash α) :=
    if p ≠ s1.m_values.length then shift_indexes_left_in_buckets H s1 p 1 else some s1
  match afterShift with
  | none => none
  | some s2 =>
    let s3 := setBucket s2 ibucket ((s2.bucketAt ibucket).clear)
    some (backward_shift s3 ibucket)

/-- `ordered_hash::erase_impl(key, hash)`; returns the erased count and the
new state (`none` only on the states where the C++ inner loops diverge). -/
def erase_impl (H : ℕ → ℕ) (s : OrderedHash α) (key hash : ℕ) :
    Option (ℕ × OrderedHash α) :=
  match s.find_key key hash with
  | some ibucket =>
    (erase_value_from_bucket H s ibucket).map (fun s2 => (1, s2))
  | none => some (0, s)

/-- `ordered_hash::erase(key)` (`erase(key, hash_key(key))`). -/
def eraseOp (H : ℕ → ℕ) (s : OrderedHash α) (key : ℕ) : Option (ℕ × OrderedHash α) :=
  erase_impl H s key (H key)

/-- `ordered_hash::unordered_erase(key)`.  When the key is not the last store
entry the value is swapped with the last entry and the two buckets swap their
index fields, then the (now last) value is erased through
`erase_value_from_bucket`. -/
def unordered_eraseOp (H : ℕ → ℕ) (s : OrderedHash α) (key : ℕ) :
    Option (ℕ × OrderedHash α) :=
  let hash := H key
  match s.find_key key hash with
  | none => some (0, s)
  | some ibucket =>
    match s.m_values.getLast? with
    | none => none
    | some back =>
      if key = back.1 then
        (erase_value_from_bucket H s ibucket).map (fun s2 => (1, s2))
      else
        match s.find_key back.1 (H back.1) with
        | none => none
        | some ibucketLast =>
          let p := (s.bucketAt ibucket).m_index
          let q := (s.bucketAt ibucketLast).m_index
          match s.m_values.get? p, s.m_values.get? q with
          | some vp, some vq =>
            let s1 : OrderedHash α :=
              { s with m_values := (s.m_values.set p vq).set q vp }
            let s2 := setBucket s1 ibucket ⟨q, (s1.bucketAt ibucket).m_hash⟩
            let s3 := setBucket s2 ibucketLast ⟨p, (s2.bucketAt ibucketLast).m_hash⟩
            (erase_value_from_bucket H s3 ibucket).map (fun s4 => (1, s4))
          | _, _ => none

/-- `ordered_hash::is_power_of_two`. -/
def is_power_of_two (value : ℕ) : Bool :=
  value ≠ 0 ∧ value &&& (value - 1) = 0

/-- The `for(i = 1; i < 64; i *= 2) value |= value >> i` bit-smearing loop of
`round_up_to_power_of_two`, unrolled (the loop runs `i = 1, 2, 4, 8, 16, 32`
for a 64-bit `size_t`). -/
def smear64 (v0 : ℕ) : ℕ :=
  let v1 := v0 ||| (v0 >>> 1)
  let v2 := v1 ||| (v1 >>> 2)
  let v3 := v2 ||| (v2 >>> 4)
  let v4 := v3 ||| (v3 >>> 8)
  let v5 := v4 ||| (v4 >>> 16)
  v5 ||| (v5 >>> 32)

/-- `ordered_hash::round_up_to_power_of_two`. -/
def round_up_to_power_of_two (value : ℕ) : ℕ :=
  if is_power_of_two value then value
  else if value = 0 then 1
  else smear64 (value - 1) + 1

/-- `ordered_hash::max_load_factor(ml)` (the setter, lines 681-687 of
`ordered_map.h`): stores `ml` unconditionally and recomputes both thresholds.
The float products are exact because `bucket_count` is a power of two. -/
def max_load_factorOp (s : OrderedHash α) (ml : ℚ) : OrderedHash α :=
  { s with
    m_max_load_factor := ml,
    m_load_threshold := ratFloorMul s.bucket_count ml,
    m_min_load_factor_rehash_threshold :=
      ratFloorMul s.bucket_count REHASH_ON_HIGH_NB_PROBES__MIN_LOAD_FACTOR }

/-- Robin Hood placement loop shared by `ordered_hash::insert_index` and the
(syntactically identical, flag-free) inner loop of
`ordered_hash::rehash_impl`; `withFlagLogic` selects whether the
`REHASH_ON_HIGH_NB_PROBES` deferred-grow flag may be set.  The loop
terminates exactly when it reaches an empty bucket; fuel `bucket_count + 1`
suffices whenever one exists (the walk visits every slot once). -/
def insert_indexLoop (withFlagLogic : Bool) :
    OrderedHash α → ℕ → ℕ → ℕ → ℕ → ℕ → Option (OrderedHash α)
  | _, _, _, _, _, 0 => none
  | s, ibucket, dist_from_init_bucket, index_insert, hash_insert, fuel + 1 =>
    if ¬(s.bucketAt ibucket).empty then
      let distance := s.dist_from_initial_bucket ibucket
      let doSwap := dist_from_init_bucket > distance
      let b := s.bucketAt ibucket
      let s1 := if doSwap then setBucket s ibucket ⟨index_insert, hash_insert⟩ else s
      let index1 := if doSwap then b.m_index else index_insert
      let hash1 := if doSwap then b.m_hash else hash_insert
      let dist1 := if doSwap then distance else dist_from_init_bucket
      let ibucket2 := s1.next_bucket ibucket
      let dist2 := dist1 + 1
      let s2 :=
        if withFlagLogic ∧ dist2 > REHASH_ON_HIGH_NB_PROBES__NPROBES ∧
            s1.size ≥ s1.m_min_load_factor_rehash_threshold then
          { s1 with m_grow_on_next_insert := true }
        else s1
      insert_indexLoop withFlagLogic s2 ibucket2 dist2 index1 hash1 fuel
    else
      some (setBucket s ibucket
        (((s.bucketAt ibucket).set_index index_insert).set_hash hash_insert))

/-- `ordered_hash::insert_index(ibucket, dist, index_insert, hash_insert)`. -/
def insert_index (s : OrderedHash α) (ibucket dist_from_init_bucket index_insert hash_insert : ℕ) :
    Option (OrderedHash α) :=
  insert_indexLoop true s ibucket dist_from_init_bucket index_insert hash_insert
    (s.bucket_count + 1)

/-- Result of an operation that can throw `std::length_error`
(`rehash_impl`) or hit a state where a C++ loop does not terminate. -/
inductive OpResult (α : Type) where
  | ok (s : OrderedHash α)
  | lengthError
  | diverged
deriving DecidableEq, Repr

/-- Re-insertion fold of `ordered_hash::rehash_impl` over the old bucket
array: every non-empty old cell is placed into the new array by the Robin
Hood swap protocol, starting at the initial bucket recomputed from the
stored truncated hash (the hasher is never consulted). -/
def rehashFold : List BucketEntry → OrderedHash α → Option (OrderedHash α)
  | [], s => some s
  | old_bucket :: rest, s =>
    if old_bucket.empty then rehashFold rest s
    else
      match insert_indexLoop false s (s.bucket_for_hash old_bucket.m_hash) 0
          old_bucket.m_index old_bucket.m_hash (s.bucket_count + 1) with
      | none => none
      | some s2 => rehashFold rest s2

/-- `ordered_hash::rehash_impl(bucket_count)`. -/
def rehash_impl (s : OrderedHash α) (count : ℕ) : OpResult α :=
  let bc := round_up_to_power_of_two count
  if bc = s.bucket_count then .ok s
  else if bc > s.max_bucket_count then .lengthError
  else
    let s1 : OrderedHash α :=
      { s with m_buckets := List.replicate bc BucketEntry.mk0, m_mask := bc - 1 }
    let s2 := { max_load_factorOp s1 s.m_max_load_factor with m_grow_on_next_insert := false }
    match rehashFold s.m_buckets s2 with
    | none => .diverged
    | some s3 => .ok s3

/-- `ordered_hash::rehash(count)`: `count` is first raised to
`ceil(size() / max_load_factor())`.  The division is modelled exactly over
`ℚ`; the `float` evaluation of the source can differ from the exact value by
at most one unit in the argument of `rehash_impl`, which no claim observes. -/
def rehashOp (s : OrderedHash α) (count : ℕ) : OpResult α :=
  rehash_impl s (max count (ratCeilDiv s.size s.m_max_load_factor))

/-- `ordered_hash::reserve(count)`.  `reserve_space_for_values` is a no-op
for the default (deque-like) values container. -/
def reserveOp (s : OrderedHash α) (count : ℕ) : OpResult α :=
  rehashOp s (ratCeilDiv count s.m_max_load_factor)

/-- Result of `ordered_hash::insert_impl`: the new state, the store position
of the key and the `inserted` flag; or the `std::length_error` raised at
capacity (`capacityError`, thrown before anything is modified), the
`std::length_error` propagated out of a growing rehash (`lengthError`), or
divergence of a C++ loop. -/
inductive InsertResult (α : Type) where
  | ok (s : OrderedHash α) (pos : ℕ) (inserted : Bool)
  | capacityError
  | lengthError
  | diverged
deriving DecidableEq, Repr

/-- Probe loop of `ordered_hash::insert_impl`: while the bucket is non-empty
and `dist <= dist_from_initial_bucket`, test for an equal key; on exit report
the bucket and distance at which the probe stopped. -/
def insertProbeLoop (s : OrderedHash α) (key hash : ℕ) :
    ℕ → ℕ → ℕ → Option (Sum ℕ (ℕ × ℕ))
  | _, _, 0 => none
  | ibucket, dist_from_init_bucket, fuel + 1 =>
    if ¬(s.bucketAt ibucket).empty ∧
        dist_from_init_bucket ≤ s.dist_from_initial_bucket ibucket then
      if s.matchesAt key hash ibucket then some (Sum.inl (s.bucketAt ibucket).m_index)
      else insertProbeLoop s key hash (s.next_bucket ibucket) (dist_from_init_bucket + 1) fuel
    else some (Sum.inr (ibucket, dist_from_init_bucket))

/-- Tail of `ordered_hash::insert_impl` after the capacity check and the
`grow_on_high_load` step: append the value and place its index cell. -/
def finishInsert (s : OrderedHash α) (ibucket dist : ℕ) (key : ℕ) (v : α) (hash : ℕ) :
    InsertResult α :=
  let s4 : OrderedHash α := { s with m_values := s.m_values ++ [(key, v)] }
  match insert_index s4 ibucket dist ((s4.m_values.length - 1) % 2 ^ 32)
      (truncate_hash hash) with
  | none => .diverged
  | some s5 => .ok s5 (s5.m_values.length - 1) true

/-- `ordered_hash::insert_impl(key, value...)`, with the `grow_on_high_load`
call inlined (grow when the deferred flag is set or `size()` reached the
load threshold; after a grow the probe restarts at the initial bucket). -/
def insert_impl (H : ℕ → ℕ) (s : OrderedHash α) (key : ℕ) (v : α) : InsertResult α :=
  let hash := H key
  match insertProbeLoop s key hash (s.bucket_for_hash hash) 0 (s.bucket_count + 1) with
  | none => .diverged
  | some (Sum.inl pos) => .ok s pos false
  | some (Sum.inr pr) =>
    if s.size ≥ s.max_size then .capacityError
    else if s.m_grow_on_next_insert ∨ s.size ≥ s.m_load_threshold then
      match rehash_impl s (s.bucket_count * 2) with
      | .lengthError => .lengthError
      | .diverged => .diverged
      | .ok s2 =>
        let s3 := { s2 with m_grow_on_next_insert := false }
        finishInsert s3 (s3.bucket_for_hash hash) 0 key v hash
    else finishInsert s pr.1 pr.2 key v hash

/-- `ordered_hash::insert(value)` (also `try_emplace`): `insert_impl` on the
selected key. -/
def insertOp (H : ℕ → ℕ) (s : OrderedHash α) (key : ℕ) (v : α) : InsertResult α :=
  insert_impl H s key v

/-- `ordered_hash::insert_or_assign(key, value)`: `try_emplace`, and on a hit
overwrite the mapped part of the stored entry. -/
def insert_or_assignOp (H : ℕ → ℕ) (s : OrderedHash α) (key : ℕ) (v : α) : InsertResult α :=
  match insert_impl H s key v with
  | .ok s2 pos inserted =>
    if inserted then .ok s2 pos true
    else
      match s2.m_values.get? pos with
      | some kv => .ok { s2 with m_values := s2.m_values.set pos (kv.1, v) } pos false
      | none => .ok s2 pos false
  | .capacityError => .capacityError
  | .lengthError => .lengthError
  | .diverged => .diverged

/-- `ordered_hash::clear()`: every bucket is cleared (keeping its stale hash
field, as `bucket_entry::clear` does) and the store is emptied. -/
def clearOp (s : OrderedHash α) : OrderedHash α :=
  { s with m_buckets := s.m_buckets.map BucketEntry.clear, m_values := [] }

/-- The `ordered_hash` constructor with the given bucket count and maximum
load factor: rounds the count up to a power of two, throws past
`max_bucket_count` (`none`), and initializes thresholds through
`max_load_factor`. -/
def mkTable (bucket_count : ℕ) (ml : ℚ) : Option (OrderedHash α) :=
  let bc := round_up_to_power_of_two bucket_count
  if bc > MAX_BUCKET_COUNT then none
  else some (max_load_factorOp ⟨List.replicate bc BucketEntry.mk0, bc - 1, [], false, ml, 0, 0⟩ ml)

/-- `ordered_hash::nth(index)` (dereferenced). -/
def nthOp (s : OrderedHash α) (index : ℕ) : Option (ℕ × α) :=
  s.m_values.get? index

/-- `operator==(ordered_hash, ordered_hash)`: equality of the two value
stores as sequences; no other member participates. -/
def tableEq [DecidableEq α] (lhs rhs : OrderedHash α) : Bool :=
  decide (lhs.m_values = rhs.m_values)

end OrderedHash

/-!
Chunked serialization (`include/tsl/ordered_hash_chunked_serialization.h`).

The user-supplied serializer/deserializer pair is a typed channel
(`operator()(const T&)` / `T operator()()`), modelled as a stream of typed
atoms; reading a value whose type differs from what was written is a stream
misinterpretation and is reported as an error.

The `ordered_hash` base class this header builds on (`m_buckets_data`,
`slz_size_type`, `SERIALIZATION_PROTOCOL_VERSION`,
`MAX_LOAD_FACTOR__MINIMUM/MAXIMUM`, `numeric_cast`) is not part of the
sources; those pieces are modelled from the spec where indicated.
-/

namespace Chunked

/-- `detail_ordered_hash_chunked::chunk_type` values. -/
def CHUNK_HEADER : ℕ := 1
/-- `chunk_type::DATA_ELEMENTS`. -/
def CHUNK_DATA_ELEMENTS : ℕ := 2
/-- `chunk_type::DATA_BUCKETS`. -/
def CHUNK_DATA_BUCKETS : ℕ := 3
/-- `chunk_type::END`. -/
def CHUNK_END : ℕ := 4

/-- Modelled from the spec: the protocol version constant
`SERIALIZATION_PROTOCOL_VERSION` of the serialization-capable `ordered_hash`
base class, which is not among the sources ("Protocol version is a
monotonically increasing integer"); the first version is 1. -/
def SERIALIZATION_PROTOCOL_VERSION : ℕ := 1

/-- Modelled from the spec: lower bound `MAX_LOAD_FACTOR__MINIMUM` of the
missing base class; the spec documents the bounds as 0.1 and 0.95. -/
def MAX_LOAD_FACTOR__MINIMUM : ℚ := ⟨1, 10, by norm_num, by norm_num⟩

/-- Modelled from the spec: upper bound `MAX_LOAD_FACTOR__MAXIMUM` of the
missing base class. -/
def MAX_LOAD_FACTOR__MAXIMUM : ℚ := ⟨19, 20, by norm_num, by norm_num⟩

/-- Comparison of two rationals on raw numerator/denominator (kernel
computable; agrees with `<` on `ℚ` since denominators are positive). -/
def ratLtB (q r : ℚ) : Bool := decide (q.num * (r.den : ℤ) < r.num * (q.den : ℤ))

/-- One value on the serialization channel, tagged with the C++ type it was
written as. -/
inductive Atom (α : Type) where
  | u32 (n : ℕ)
  | u64 (n : ℕ)
  | f32 (q : ℚ)
  | elem (kv : ℕ × α)
deriving DecidableEq, Repr

/-- Modelled from the spec: `sizeof(value_type)` used only for the chunk-size
bookkeeping (which has no observable effect on the stream). -/
def ELEMENT_SIZE : ℕ := 16

/-- Byte size charged by `chunked_serializer::serialize_value`. -/
def atomSize {α : Type} : Atom α → ℕ
  | .u32 _ => 4
  | .u64 _ => 8
  | .f32 _ => 4
  | .elem _ => ELEMENT_SIZE

/-- `chunked_serializer` state: atoms written so far and
`m_current_chunk_size`.  `start_chunk` and `end_chunk` only reset the
counter; `serialize_chunk_header` is never called by `serialize_chunked`, so
no `(kind, byte-length)` frame is ever written. -/
def serValue {α : Type} (st : List (Atom α) × ℕ) (a : Atom α) : List (Atom α) × ℕ :=
  (st.1 ++ [a], st.2 + atomSize a)

/-- `chunked_serializer::start_new_chunk_if_needed`: ends/starts a chunk
(resetting the byte counter) once `chunk_size` bytes were written; emits
nothing. -/
def startNewChunkIfNeeded {α : Type} (chunk_size : ℕ) (st : List (Atom α) × ℕ) :
    List (Atom α) × ℕ :=
  if st.2 ≥ chunk_size then (st.1, 0) else st

/-- Element section of `ordered_hash_chunked::serialize_chunked`. -/
def serElems {α : Type} (chunk_size : ℕ) :
    List (ℕ × α) → List (Atom α) × ℕ → List (Atom α) × ℕ
  | [], st => st
  | kv :: rest, st =>
    serElems chunk_size rest (serValue (startNewChunkIfNeeded chunk_size st) (.elem kv))

/-- Bucket section of `ordered_hash_chunked::serialize_chunked`: each bucket
record is written as two `slz_size_type` values (index, truncated hash). -/
def serBuckets {α : Type} (chunk_size : ℕ) :
    List BucketEntry → List (Atom α) × ℕ → List (Atom α) × ℕ
  | [], st => st
  | b :: rest, st =>
    let st1 := startNewChunkIfNeeded chunk_size st
    serBuckets chunk_size rest (serValue (serValue st1 (.u64 b.m_index)) (.u64 b.m_hash))

/-- `ordered_hash_chunked::serialize_chunked(serializer, chunk_size)`. -/
def serialize_chunked {α : Type} (s : OrderedHash α) (chunk_size : ℕ := 4096) :
    List (Atom α) :=
  let st0 : List (Atom α) × ℕ := ([], 0)
  let st1 := serValue st0 (.u64 SERIALIZATION_PROTOCOL_VERSION)
  let st2 := serValue st1 (.u64 s.m_values.length)
  let st3 := serValue st2 (.u64 s.m_buckets.length)
  let st4 := serValue st3 (.f32 s.m_max_load_factor)
  let st5 := serElems chunk_size s.m_values (st4.1, 0)
  let st6 := serBuckets chunk_size s.m_buckets (st5.1, 0)
  st6.1

/-- Errors of the chunked deserializer: C++ `std::runtime_error` throws, the
`numeric_cast` throw, and stream misinterpretation (reading a different type
than was written, or reading past the end). -/
inductive DeError where
  | protocolMismatch
  | invalidMaxLoadFactor
  | unknownChunkType
  | castError
  | typeMismatch
  | endOfStream
deriving DecidableEq, Repr

/-- Receiver state rebuilt by `deserialize_chunked`: the store, the bucket
vector `m_buckets_data`, `m_hash_mask` and the max load factor of the
serialization-capable base class (modelled from the spec where the base is
missing from the sources). -/
structure DeTable (α : Type) where
  values : List (ℕ × α)
  bucketsData : List BucketEntry
  mask : ℕ
  maxLoadFactor : ℚ
deriving DecidableEq, Repr

/-- The default-constructed receiver (empty store, empty bucket vector). -/
def DeTable.mk0 {α : Type} : DeTable α := ⟨[], [], 0, 0⟩

/-- Read one `std::uint32_t` from the channel. -/
def readU32 {α : Type} : List (Atom α) → Except DeError (ℕ × List (Atom α))
  | .u32 n :: rest => .ok (n, rest)
  | [] => .error .endOfStream
  | _ :: _ => .error .typeMismatch

/-- Read one `slz_size_type` from the channel. -/
def readU64 {α : Type} : List (Atom α) → Except DeError (ℕ × List (Atom α))
  | .u64 n :: rest => .ok (n, rest)
  | [] => .error .endOfStream
  | _ :: _ => .error .typeMismatch

/-- Read one `float` from the channel. -/
def readF32 {α : Type} : List (Atom α) → Except DeError (ℚ × List (Atom α))
  | .f32 q :: rest => .ok (q, rest)
  | [] => .error .endOfStream
  | _ :: _ => .error .typeMismatch

/-- Read one `value_type` from the channel. -/
def readElem {α : Type} : List (Atom α) → Except DeError ((ℕ × α) × List (Atom α))
  | .elem kv :: rest => .ok (kv, rest)
  | [] => .error .endOfStream
  | _ :: _ => .error .typeMismatch

/-- `chunked_deserializer::deserialize_value` bookkeeping: the byte counter
is an unsigned 64-bit subtraction (the debug assert `remaining >= sizeof(T)`
is absent in release builds, and underflow wraps). -/
def spendBytes (remaining size : ℕ) : ℕ :=
  ((remaining + 2 ^ 64) - size) % 2 ^ 64

/-- Modelled from the spec: `ordered_hash::insert` of the serialization-aware
base class, as used by the rehash-on-load path ("call
`reserve(element_count)`, then insert each element"); inserting appends a
not-yet-present key to the store, leaves a present key alone.  The bucket
side of that base class is elided: no claim observes it on this path. -/
def specInsert {α : Type} (t : DeTable α) (kv : ℕ × α) : DeTable α :=
  if (t.values.map Prod.fst).contains kv.1 then t else { t with values := t.values ++ [kv] }

/-- `DATA_ELEMENTS` inner loop of `deserialize_chunked`. -/
def deElemsLoop {α : Type} (hash_compatible : Bool) :
    List (Atom α) → DeTable α → ℕ → ℕ → Except DeError (List (Atom α) × DeTable α × ℕ)
  | stream, t, remaining, 0 => .ok (stream, t, remaining)
  | stream, t, remaining, fuel + 1 =>
    if remaining = 0 then .ok (stream, t, remaining)
    else
      match readElem stream with
      | .error e => .error e
      | .ok (kv, stream1) =>
        let t1 := if hash_compatible then { t with values := t.values ++ [kv] }
                  else specInsert t kv
        deElemsLoop hash_compatible stream1 t1 (spendBytes remaining ELEMENT_SIZE) fuel

/-- `DATA_BUCKETS` inner loop of `deserialize_chunked`; in hash-compatible
mode each `(index, hash)` record passes `numeric_cast` down to the 32-bit
bucket fields and is appended to `m_buckets_data`, otherwise the records are
read and dropped. -/
def deBucketsLoop {α : Type} (hash_compatible : Bool) :
    List (Atom α) → DeTable α → ℕ → ℕ → Except DeError (List (Atom α) × DeTable α × ℕ)
  | stream, t, remaining, 0 => .ok (stream, t, remaining)
  | stream, t, remaining, fuel + 1 =>
    if remaining = 0 then .ok (stream, t, remaining)
    else
      match readU64 stream with
      | .error e => .error e
      | .ok (index, stream1) =>
        match readU64 stream1 with
        | .error e => .error e
        | .ok (hash, stream2) =>
          let remaining2 := spendBytes (spendBytes remaining 8) 8
          if hash_compatible then
            if index ≥ 2 ^ 32 ∨ hash ≥ 2 ^ 32 then .error .castError
            else
              deBucketsLoop hash_compatible stream2
                { t with bucketsData := t.bucketsData ++ [⟨index, hash⟩] } remaining2 fuel
          else deBucketsLoop hash_compatible stream2 t remaining2 fuel

/-- `HEADER` chunk processing of `deserialize_chunked` (non-resuming case):
validate the protocol version, read the counts, validate and restore the max
load factor, then either `reserve` (rehash mode, modelled from the spec) or
pre-shape the bucket vector and `m_hash_mask` (hash-compatible mode). -/
def deHeader {α : Type} (hash_compatible : Bool) (stream : List (Atom α))
    (t : DeTable α) (remaining : ℕ) :
    Except DeError (List (Atom α) × DeTable α × ℕ) :=
  match readU64 stream with
  | .error e => .error e
  | .ok (version, stream1) =>
    if version ≠ SERIALIZATION_PROTOCOL_VERSION then .error .protocolMismatch
    else
      match readU64 stream1 with
      | .error e => .error e
      | .ok (nb_elements, stream2) =>
        match readU64 stream2 with
        | .error e => .error e
        | .ok (bucket_count_ds, stream3) =>
          match readF32 stream3 with
          | .error e => .error e
          | .ok (max_load_factor, stream4) =>
            let remaining4 := spendBytes (spendBytes (spendBytes (spendBytes remaining 8) 8) 8) 4
            if ratLtB max_load_factor MAX_LOAD_FACTOR__MINIMUM ∨
                ratLtB MAX_LOAD_FACTOR__MAXIMUM max_load_factor then
              .error .invalidMaxLoadFactor
            else
              let t1 := { t with maxLoadFactor := max_load_factor }
              if ¬hash_compatible then
                let rb := OrderedHash.round_up_to_power_of_two
                  (ratCeilDiv nb_elements max_load_factor)
                .ok (stream4,
                  { t1 with bucketsData := List.replicate rb BucketEntry.mk0, mask := rb - 1 },
                  remaining4)
              else
                .ok (stream4, { t1 with mask := bucket_count_ds - 1 }, remaining4)

/-- `HEADER` chunk processing when resuming (receiver already non-empty):
the four header fields are read and discarded. -/
def deHeaderSkip {α : Type} (stream : List (Atom α)) (t : DeTable α) (remaining : ℕ) :
    Except DeError (List (Atom α) × DeTable α × ℕ) :=
  match readU64 stream with
  | .error e => .error e
  | .ok (_, stream1) =>
    match readU64 stream1 with
    | .error e => .error e
    | .ok (_, stream2) =>
      match readU64 stream2 with
      | .error e => .error e
      | .ok (_, stream3) =>
        match readF32 stream3 with
        | .error e => .error e
        | .ok (_, stream4) =>
          .ok (stream4, t,
            spendBytes (spendBytes (spendBytes (spendBytes remaining 8) 8) 8) 4)

/-- Outer `while (true)` loop of `deserialize_chunked`: read a chunk header
whenever the previous chunk is exhausted (stopping at `END`), then dispatch
on the current chunk type. -/
def deLoop {α : Type} (hash_compatible resuming : Bool) :
    List (Atom α) → DeTable α → ℕ → ℕ → ℕ → Except DeError (DeTable α)
  | _, _, _, _, 0 => .error .endOfStream
  | stream, t, chunkType, remaining, fuel + 1 =>
    let header : Except DeError (Option (List (Atom α) × ℕ × ℕ)) :=
      if remaining = 0 then
        match readU32 stream with
        | .error e => .error e
        | .ok (ty, stream1) =>
          match readU32 stream1 with
          | .error e => .error e
          | .ok (sz, stream2) =>
            if ty = CHUNK_END then .ok none else .ok (some (stream2, ty, sz))
      else .ok (some (stream, chunkType, remaining))
    match header with
    | .error e => .error e
    | .ok none => .ok t
    | .ok (some (stream1, ct, rem)) =>
      let body : Except DeError (List (Atom α) × DeTable α × ℕ) :=
        if ct = CHUNK_HEADER then
          if resuming then deHeaderSkip stream1 t rem
          else deHeader hash_compatible stream1 t rem
        else if ct = CHUNK_DATA_ELEMENTS then
          deElemsLoop hash_compatible stream1 t rem (stream1.length + 1)
        else if ct = CHUNK_DATA_BUCKETS then
          deBucketsLoop hash_compatible stream1 t rem (stream1.length + 1)
        else .error .unknownChunkType
      match body with
      | .error e => .error e
      | .ok (stream2, t2, rem2) => deLoop hash_compatible resuming stream2 t2 ct rem2 fuel

/-- `ordered_hash_chunked::deserialize_chunked(deserializer, hash_compatible)`
run on a receiver table `t` (`deserialize_chunked` of the map/set facade
starts from a default-constructed, empty receiver). -/
def deserialize_chunkedFrom {α : Type} (t : DeTable α) (stream : List (Atom α))
    (hash_compatible : Bool) : Except DeError (DeTable α) :=
  deLoop hash_compatible (¬t.values.isEmpty) stream t CHUNK_HEADER 0 (stream.length + 1)

/-- `ordered_map_chunked::deserialize_chunked` (static): deserialize into a
fresh empty table. -/
def deserialize_chunked {α : Type} (stream : List (Atom α)) (hash_compatible : Bool) :
    Except DeError (DeTable α) :=
  deserialize_chunkedFrom DeTable.mk0 stream hash_compatible

end Chunked

namespace OrderedHash

variable {α : Type}

/-- The non-empty cells of the bucket array. -/
def nonEmptyCells (s : OrderedHash α) : List BucketEntry :=
  s.m_buckets.filter (fun b => b.empty = false)

/-- One bucket cell is consistent with the store: its position indexes an
existing store entry and its truncated hash is the truncated hash of that
entry's key. -/
def cellOK (H : ℕ → ℕ) (s : OrderedHash α) (b : BucketEntry) : Prop :=
  match s.m_values.get? b.m_index with
  | some kv => b.m_hash = truncate_hash (H kv.1)
  | none => False

instance (H : ℕ → ℕ) (s : OrderedHash α) (b : BucketEntry) : Decidable (cellOK H s b) := by
  unfold cellOK
  cases s.m_values.get? b.m_index with
  | none => exact inferInstanceAs (Decidable False)
  | some kv => exact inferInstanceAs (Decidable (_ = _))

/-- Claim C2, first invariant: every non-empty bucket is consistent with the
store. -/
def storeConsistent (H : ℕ → ℕ) (s : OrderedHash α) : Prop :=
  ∀ b ∈ s.m_buckets, b.empty = false → cellOK H s b

instance (H : ℕ → ℕ) (s : OrderedHash α) : Decidable (storeConsistent H s) :=
  inferInstanceAs (Decidable (∀ b ∈ s.m_buckets, _))

/-- Claim C2, second invariant: the positions held by the non-empty buckets
form exactly the multiset `{0, …, size−1}`. -/
def positionsExact (s : OrderedHash α) : Prop :=
  (Multiset.ofList (s.nonEmptyCells.map BucketEntry.m_index)) =
    Multiset.ofList (List.range s.m_values.length)

instance (s : OrderedHash α) : Decidable (positionsExact s) :=
  inferInstanceAs (Decidable (_ = _))

/-- Claim C2, third invariant, as literally stated: along any probe chain —
the buckets `b, b+1, …` (wrapping) scanned from a starting bucket while they
stay non-empty — the probe distance is non-decreasing until the chain ends
at an empty bucket. -/
def probeChainsNonDecreasing (s : OrderedHash α) : Prop :=
  ∀ b < s.bucket_count, ∀ t < s.bucket_count, t + 1 < s.bucket_count →
    (∀ u ≤ t + 1, (s.bucketAt ((b + u) % s.bucket_count)).empty = false) →
    s.dist_from_initial_bucket ((b + t) % s.bucket_count) ≤
      s.dist_from_initial_bucket ((b + t + 1) % s.bucket_count)

instance (s : OrderedHash α) : Decidable (probeChainsNonDecreasing s) := by
  unfold probeChainsNonDecreasing
  infer_instance

/-- The bucket before `i`, circularly. -/
def prevBucket (s : OrderedHash α) (i : ℕ) : ℕ :=
  if i = 0 then s.bucket_count - 1 else i - 1

/-- The Robin Hood probe-distance invariant the code actually maintains
(amended form of C2's third invariant): every non-empty bucket with positive
probe distance has a non-empty predecessor whose probe distance is at least
its own minus one — so along a probe chain the distance can grow by at most
one per step, though it may drop when a new chain begins. -/
def robinHoodSupport (s : OrderedHash α) : Prop :=
  ∀ i < s.bucket_count, (s.bucketAt i).empty = false →
    0 < s.dist_from_initial_bucket i →
    (s.bucketAt (s.prevBucket i)).empty = false ∧
      s.dist_from_initial_bucket i ≤ s.dist_from_initial_bucket (s.prevBucket i) + 1

instance (s : OrderedHash α) : Decidable (robinHoodSupport s) := by
  unfold robinHoodSupport
  exact Nat.decidableBallLT _ _

/-- States reachable from a freshly constructed table by the operations
named in claim C2: `insert`, `erase` (by key), `unordered_erase` (by key),
`rehash`, `reserve` and `clear`.  The constructor runs with the default
maximum load factor, as in the `ordered_map`/`ordered_set` facades. -/
inductive Reachable (H : ℕ → ℕ) : OrderedHash α → Prop where
  | init (n : ℕ) (s : OrderedHash α) :
      mkTable n DEFAULT_MAX_LOAD_FACTOR = some s → Reachable H s
  | insert (s s2 : OrderedHash α) (k : ℕ) (v : α) (p : ℕ) (b : Bool) :
      Reachable H s → insertOp H s k v = .ok s2 p b → Reachable H s2
  | erase (s s2 : OrderedHash α) (k n : ℕ) :
      Reachable H s → eraseOp H s k = some (n, s2) → Reachable H s2
  | unordered (s s2 : OrderedHash α) (k n : ℕ) :
      Reachable H s → unordered_eraseOp H s k = some (n, s2) → Reachable H s2
  | rehash (s s2 : OrderedHash α) (n : ℕ) :
      Reachable H s → rehashOp s n = .ok s2 → Reachable H s2
  | reserve (s s2 : OrderedHash α) (n : ℕ) :
      Reachable H s → reserveOp s n = .ok s2 → Reachable H s2
  | clear (s : OrderedHash α) :
      Reachable H s → Reachable H (clearOp s)

/-- A sequence of `insert` calls, each applied to the previous state; `none`
as soon as one of them throws or diverges. -/
def insertSeq (H : ℕ → ℕ) : List (ℕ × α) → OrderedHash α → Option (OrderedHash α)
  | [], s => some s
  | kv :: rest, s =>
    match insertOp H s kv.1 kv.2 with
    | .ok s2 _ _ => insertSeq H rest s2
    | _ => none

end OrderedHash

/-! Concrete scaffolding shared by witnesses and counterexamples. -/

open OrderedHash

/-- The identity hasher used by the concrete scenarios. -/
def idHash : ℕ → ℕ := fun k => k

/-- Extract the state of a successful insert (used to name concrete states). -/
def okState {α : Type} (r : InsertResult α) (dflt : OrderedHash α) : OrderedHash α :=
  match r with
  | .ok s _ _ => s
  | _ => dflt

/-- Extract the state of a successful rehash/reserve. -/
def okOp {α : Type} (r : OpResult α) (dflt : OrderedHash α) : OrderedHash α :=
  match r with
  | .ok s => s
  | _ => dflt

/-- The default-constructed `ordered_map` backing table (16 buckets, maximum
load factor `0.9f`), at value type `ℕ`. -/
def initDefaultN : OrderedHash ℕ :=
  ⟨List.replicate 16 BucketEntry.mk0, 15, [], false, DEFAULT_MAX_LOAD_FACTOR, 14, 2⟩

/-- The default-constructed table at value type `String`. -/
def initDefaultS : OrderedHash String :=
  ⟨List.replicate 16 BucketEntry.mk0, 15, [], false, DEFAULT_MAX_LOAD_FACTOR, 14, 2⟩

/-- Concrete Robin Hood scenario: with the identity hasher, keys 0, 16, 32
collide on bucket 0 and key 3 sits in its own bucket 3; the resulting
probe-distance sequence along the chain from bucket 0 is `0, 1, 2, 0`. -/
def c2T1 : OrderedHash ℕ := okState (insertOp idHash initDefaultN 0 0) initDefaultN

/-- Second step of the C2 scenario. -/
def c2T2 : OrderedHash ℕ := okState (insertOp idHash c2T1 16 0) c2T1

/-- Third step of the C2 scenario. -/
def c2T3 : OrderedHash ℕ := okState (insertOp idHash c2T2 32 0) c2T2

/-- Final state of the C2 scenario. -/
def c2T4 : OrderedHash ℕ := okState (insertOp idHash c2T3 3 0) c2T3

/-- The state `c2T4` is reachable by four inserts from a default table. -/
theorem c2T4_reachable : Reachable idHash c2T4 := by
  refine Reachable.insert c2T3 c2T4 3 0 3 true ?_ (by decide)
  refine Reachable.insert c2T2 c2T3 32 0 2 true ?_ (by decide)
  refine Reachable.insert c2T1 c2T2 16 0 1 true ?_ (by decide)
  refine Reachable.insert initDefaultN c2T1 0 0 0 true ?_ (by decide)
  exact Reachable.init 16 initDefaultN (by decide)

/-- C2 — counterexample.  The third invariant of the claim, read as written
("along any probe chain, `probe_distance` is non-decreasing until the chain
ends at an empty bucket"), fails at a state reachable by four inserts: with
the identity hasher, inserting keys 0, 16, 32, 3 into a default table puts
probe distances `0, 1, 2, 0` on buckets 0–3 (bucket 4 empty), and the chain
from bucket 0 has distance 2 followed by distance 0.  The first two
invariants of the claim do hold at this state. -/
theorem claim2_counterexample :
    Reachable idHash c2T4 ∧ ¬ probeChainsNonDecreasing c2T4 ∧
      storeConsistent idHash c2T4 ∧ positionsExact c2T4 :=
  ⟨c2T4_reachable, by decide, by decide, by decide⟩

/-- A 16-bucket table at maximal store size `2^32 - 2` whose bucket 0 holds
key 0 at store position 0: the shape of a table on which an insert of the
already-present key 0 probes straight into a match. -/
def c5P : OrderedHash ℕ :=
  ⟨(⟨0, 0⟩ : BucketEntry) :: List.replicate 15 BucketEntry.mk0, 15,
    List.replicate (2 ^ 32 - 2) (0, 0), false, DEFAULT_MAX_LOAD_FACTOR, 14, 2⟩

/-- C5 — counterexample.  Two divergences from the claim.  First,
`max_size()` is `numeric_limits<index_type>::max() - NB_RESERVED_INDEXES
= (2^32 - 1) - 1 = 2^32 - 2`, not the `2^W - 1` stated: besides the
all-ones empty sentinel a further index value is reserved.  Second, even at
`max_size()` not *any* insert fails: `insert_impl` checks the capacity only
after the find-probe, so inserting an already-present key at maximal size
returns the existing entry with `Inserted = false` and throws nothing. -/
theorem claim5_counterexample :
    (BucketEntry.max_size = 2 ^ 32 - 2 ∧ BucketEntry.max_size ≠ 2 ^ 32 - 1 ∧
      initDefaultN.max_size = 2 ^ 32 - 2 ∧ initDefaultN.max_size ≠ 2 ^ 32 - 1) ∧
    (c5P.max_size ≤ c5P.m_values.length ∧
      (0 : ℕ) ∈ c5P.m_values.map Prod.fst ∧
      insertOp idHash c5P 0 99 = .ok c5P 0 false) := by
  refine ⟨⟨by decide, by decide, by decide, by decide⟩, ?_, ?_, rfl⟩
  · show min BucketEntry.max_size VALUES_MAX_SIZE ≤
      (List.replicate (2 ^ 32 - 2) ((0 : ℕ), (0 : ℕ))).length
    rw [List.length_replicate]
    norm_num [BucketEntry.max_size, VALUES_MAX_SIZE, NB_RESERVED_INDEXES]
  · exact List.mem_map.mpr
      ⟨(0, 0), List.mem_replicate.mpr ⟨by norm_num, rfl⟩, rfl⟩

/-- C7 — counterexample.  `ordered_hash::max_load_factor(ml)` (the setter in
`ordered_map.h`) performs no validation: `ml = 2.0`, far above the
documented maximum `0.95`, is accepted and stored verbatim; no error path
exists in that function. -/
theorem claim7_counterexample :
    (max_load_factorOp initDefaultN (2 : ℚ)).m_max_load_factor = 2 ∧
      Chunked.MAX_LOAD_FACTOR__MAXIMUM < 2 := by
  constructor
  · rfl
  · rw [Chunked.MAX_LOAD_FACTOR__MAXIMUM, Rat.mk'_eq_divInt, Rat.divInt_eq_div]
    norm_num

/-- The state used for the C9 counterexample: a default table whose
deferred-grow flag is set. -/
def c9S : OrderedHash ℕ := { initDefaultN with m_grow_on_next_insert := true }

/-- Result of `rehash(32)` on `c9S`. -/
def c9T : OrderedHash ℕ := okOp (rehashOp c9S 32) c9S

/-- C9 — counterexample.  A `rehash` call does not change only the bucket
array, mask and load threshold: it also clears the deferred-grow flag and
recomputes the high-probes rehash threshold.  (The store is untouched, as
the rest of the claim says.) -/
theorem claim9_counterexample :
    rehashOp c9S 32 = .ok c9T ∧
      c9S.m_grow_on_next_insert = true ∧ c9T.m_grow_on_next_insert = false ∧
      c9S.m_min_load_factor_rehash_threshold ≠ c9T.m_min_load_factor_rehash_threshold ∧
      c9T.m_values = c9S.m_values :=
  ⟨by decide, by decide, by decide, by decide, by decide⟩

/-- One-element table used by the C8 scenario. -/
def c8Table : OrderedHash ℕ := okState (insertOp idHash initDefaultN 1 10) initDefaultN

instance {ε σ : Type} [DecidableEq ε] [DecidableEq σ] : DecidableEq (Except ε σ) :=
  fun a b =>
    match a, b with
    | .error e1, .error e2 =>
      if h : e1 = e2 then isTrue (by rw [h]) else isFalse (fun c => h (by injection c))
    | .ok s1, .ok s2 =>
      if h : s1 = s2 then isTrue (by rw [h]) else isFalse (fun c => h (by injection c))
    | .error _, .ok _ => isFalse (fun c => Except.noConfusion c)
    | .ok _, .error _ => isFalse (fun c => Except.noConfusion c)

/-- C8 — the chunked serializer never emits the `(u32 kind, u32 byte-length)`
chunk frames the claim (and the chunked deserializer in the same header)
requires: `serialize_chunked` never calls `serialize_chunk_header`
(`start_chunk`/`end_chunk` only reset a byte counter), so the stream opens
with the `u64` protocol version instead of a `u32` chunk kind, and
`deserialize_chunked`, which begins by reading a `(u32, u32)` chunk header,
misreads the stream in either mode: the round trip fails on a one-element
table. -/
theorem claim8_roundtrip_fails :
    Chunked.deserialize_chunked (Chunked.serialize_chunked c8Table) false =
        .error .typeMismatch ∧
      Chunked.deserialize_chunked (Chunked.serialize_chunked c8Table) true =
        .error .typeMismatch ∧
      ((Chunked.serialize_chunked c8Table).all fun a =>
        match a with
        | .u32 _ => false
        | _ => true) = true :=
  ⟨by decide, by decide, by decide⟩

/-!
General verification machinery.  Level 0: arithmetic facts about the mask,
`round_up_to_power_of_two` and the rational threshold computations.
-/

/-- The mask lookup is a remainder: `h &&& (2^k - 1) = h % 2^k`. -/
theorem and_mask_eq_mod (h k : ℕ) : h &&& (2 ^ k - 1) = h % 2 ^ k :=
  Nat.and_pow_two_sub_one_eq_mod h k

/-- One smear step: if the bits of `x` are the windows of width `n` over `P`,
the bits of `x ||| x >>> n` are the windows of width `2 * n`. -/
theorem smear_step_bits (x n : ℕ) (P : ℕ → Bool)
    (hx : ∀ i, x.testBit i = true ↔ ∃ o, o < n ∧ P (i + o) = true) (i : ℕ) :
    (x ||| x >>> n).testBit i = true ↔ ∃ o, o < 2 * n ∧ P (i + o) = true := by
  rw [Nat.testBit_or, Nat.testBit_shiftRight, Bool.or_eq_true, hx i]
  have hx2 := hx (n + i)
  constructor
  · rintro (⟨o, ho, hP⟩ | hbit)
    · exact ⟨o, by omega, hP⟩
    · obtain ⟨o, ho, hP⟩ := hx2.mp hbit
      exact ⟨n + o, by omega, by rw [show i + (n + o) = n + i + o by omega]; exact hP⟩
  · rintro ⟨o, ho, hP⟩
    by_cases hlt : o < n
    · exact Or.inl ⟨o, hlt, hP⟩
    · refine Or.inr (hx2.mpr ⟨o - n, by omega, ?_⟩)
      rw [show n + i + (o - n) = i + o by omega]; exact hP

/-- Bits of `smear64` on a 64-bit word: bit `i` is set iff some bit at
position `≥ i` is set in the input. -/
theorem smear64_bits (w : ℕ) (hw : w < 2 ^ 64) (i : ℕ) :
    (smear64 w).testBit i = true ↔ ∃ j, i ≤ j ∧ w.testBit j = true := by
  have h0 : ∀ i, w.testBit i = true ↔ ∃ o, o < 1 ∧ w.testBit (i + o) = true := by
    intro i
    constructor
    · intro h; exact ⟨0, Nat.zero_lt_one, by simpa using h⟩
    · rintro ⟨o, ho, h⟩; interval_cases o; simpa using h
  have h1 := smear_step_bits w 1 _ h0
  simp only [show (2 * 1 : ℕ) = 2 from rfl] at h1
  have h2 := smear_step_bits _ 2 _ h1
  simp only [show (2 * 2 : ℕ) = 4 from rfl] at h2
  have h3 := smear_step_bits _ 4 _ h2
  simp only [show (2 * 4 : ℕ) = 8 from rfl] at h3
  have h4 := smear_step_bits _ 8 _ h3
  simp only [show (2 * 8 : ℕ) = 16 from rfl] at h4
  have h5 := smear_step_bits _ 16 _ h4
  simp only [show (2 * 16 : ℕ) = 32 from rfl] at h5
  have h6 := smear_step_bits _ 32 _ h5
  simp only [show (2 * 32 : ℕ) = 64 from rfl] at h6
  rw [show smear64 w = w ||| w >>> 1 ||| (w ||| w >>> 1) >>> 2 |||
      (w ||| w >>> 1 ||| (w ||| w >>> 1) >>> 2) >>> 4 |||
      (w ||| w >>> 1 ||| (w ||| w >>> 1) >>> 2 |||
        (w ||| w >>> 1 ||| (w ||| w >>> 1) >>> 2) >>> 4) >>> 8 |||
      (w ||| w >>> 1 ||| (w ||| w >>> 1) >>> 2 |||
          (w ||| w >>> 1 ||| (w ||| w >>> 1) >>> 2) >>> 4 |||
        (w ||| w >>> 1 ||| (w ||| w >>> 1) >>> 2 |||
          (w ||| w >>> 1 ||| (w ||| w >>> 1) >>> 2) >>> 4) >>> 8) >>> 16 |||
      (w ||| w >>> 1 ||| (w ||| w >>> 1) >>> 2 |||
          (w ||| w >>> 1 ||| (w ||| w >>> 1) >>> 2) >>> 4 |||
        (w ||| w >>> 1 ||| (w ||| w >>> 1) >>> 2 |||
            (w ||| w >>> 1 ||| (w ||| w >>> 1) >>> 2) >>> 4) >>> 8 |||
        (w ||| w >>> 1 ||| (w ||| w >>> 1) >>> 2 |||
            (w ||| w >>> 1 ||| (w ||| w >>> 1) >>> 2) >>> 4 |||
          (w ||| w >>> 1 ||| (w ||| w >>> 1) >>> 2 |||
            (w ||| w >>> 1 ||| (w ||| w >>> 1) >>> 2) >>> 4) >>> 8) >>> 16) >>> 32
    from rfl]
  rw [h6 i]
  constructor
  · rintro ⟨o, _, hP⟩; exact ⟨i + o, Nat.le_add_right _ _, hP⟩
  · rintro ⟨j, hij, hP⟩
    have hj : j < 64 := by
      by_contra hge
      have hbf : w.testBit j = false :=
        Nat.testBit_lt_two_pow (lt_of_lt_of_le hw (Nat.pow_le_pow_right (by norm_num) (by omega)))
      simp [hbf] at hP
    exact ⟨j - i, by omega, by rw [show i + (j - i) = j by omega]; exact hP⟩

/-- `smear64` of a 64-bit word is `2 ^ size w - 1`. -/
theorem smear64_eq (w : ℕ) (hw : w < 2 ^ 64) : smear64 w = 2 ^ Nat.size w - 1 := by
  apply Nat.eq_of_testBit_eq
  intro i
  rw [Nat.testBit_two_pow_sub_one]
  by_cases hi : i < Nat.size w
  · rw [decide_eq_true hi]
    have h2i : 2 ^ i ≤ w := Nat.lt_size.mp hi
    obtain ⟨j, hji, hbit⟩ := Nat.ge_two_pow_implies_high_bit_true h2i
    exact (smear64_bits w hw i).mpr ⟨j, hji, hbit⟩
  · rw [decide_eq_false hi]
    have hforall : ∀ j, i ≤ j → w.testBit j = false := by
      intro j hij
      apply Nat.testBit_lt_two_pow
      calc w < 2 ^ Nat.size w := Nat.lt_size_self w
      _ ≤ 2 ^ j := Nat.pow_le_pow_right (by norm_num) (by rw [Nat.not_lt] at hi; omega)
    rw [← Bool.not_eq_true]
    intro hcontra
    obtain ⟨j, hij, hbit⟩ := (smear64_bits w hw i).mp hcontra
    rw [hforall j hij] at hbit
    exact Bool.false_ne_true hbit

/-- A number in the range `[2^k, 2^(k+1))` has bit `k` set. -/
theorem testBit_of_range {v k : ℕ} (h1 : 2 ^ k ≤ v) (h2 : v < 2 ^ (k + 1)) :
    v.testBit k = true := by
  rw [Nat.testBit_to_div_mod]
  have hdiv : v / 2 ^ k = 1 := by
    apply Nat.div_eq_of_lt_le (by simpa using h1)
    rw [pow_succ] at h2
    omega
  simp [hdiv]

/-- `is_power_of_two` agrees with the mathematical notion. -/
theorem is_power_of_two_iff (v : ℕ) : is_power_of_two v = true ↔ ∃ k, v = 2 ^ k := by
  constructor
  · intro h
    simp only [is_power_of_two, Bool.and_eq_true, decide_eq_true_eq] at h
    obtain ⟨hne, hand⟩ := h
    refine ⟨Nat.size v - 1, ?_⟩
    have hvpos : 0 < v := Nat.pos_of_ne_zero hne
    have hsz : 0 < Nat.size v := Nat.size_pos.mpr hvpos
    have hle : 2 ^ (Nat.size v - 1) ≤ v := Nat.lt_size.mp (by omega)
    have hlt : v < 2 ^ Nat.size v := Nat.lt_size_self v
    by_contra hne2
    have hgt : 2 ^ (Nat.size v - 1) < v := lt_of_le_of_ne hle (fun h => hne2 h.symm)
    set k := Nat.size v - 1 with hk
    have hszk : Nat.size v = k + 1 := by omega
    rw [hszk] at hlt
    have hvk : v.testBit k = true := testBit_of_range (le_of_lt hgt) hlt
    have hpow : 0 < 2 ^ k := Nat.pos_pow_of_pos k (by norm_num)
    have hvk1 : (v - 1).testBit k = true := testBit_of_range (by omega) (by omega)
    have hcontra : (v &&& (v - 1)).testBit k = true := by
      rw [Nat.testBit_and, hvk, hvk1]; rfl
    rw [hand] at hcontra
    simp at hcontra
  · rintro ⟨k, rfl⟩
    simp only [is_power_of_two, Bool.and_eq_true, decide_eq_true_eq]
    refine ⟨by positivity, ?_⟩
    apply Nat.eq_of_testBit_eq
    intro i
    rw [Nat.testBit_and, Nat.testBit_two_pow_sub_one, Nat.testBit_two_pow]
    rcases Nat.lt_trichotomy i k with h | h | h
    · simp [Nat.ne_of_gt h]
    · simp [h]
    · simp [Nat.ne_of_lt h, Nat.not_lt.mpr (le_of_lt h)]

/-- Characterization of `round_up_to_power_of_two` for arguments whose
result stays within 64 bits: the result is a power of two at least the
argument (and equal to it when the argument already is one). -/
theorem round_up_spec (v : ℕ) (hv : v ≤ 2 ^ 64) :
    (∃ k, round_up_to_power_of_two v = 2 ^ k) ∧ v ≤ round_up_to_power_of_two v ∧
      0 < round_up_to_power_of_two v := by
  unfold round_up_to_power_of_two
  by_cases hp : is_power_of_two v = true
  · rw [if_pos hp]
    obtain ⟨k, hk⟩ := (is_power_of_two_iff v).mp hp
    exact ⟨⟨k, hk⟩, le_refl v, by rw [hk]; positivity⟩
  · rw [if_neg hp]
    by_cases h0 : v = 0
    · rw [if_pos h0]
      exact ⟨⟨0, rfl⟩, by omega, by omega⟩
    · rw [if_neg h0]
      have hv1 : v - 1 < 2 ^ 64 := by
        rcases Nat.lt_or_ge v (2 ^ 64) with h | h
        · omega
        · have : v = 2 ^ 64 := le_antisymm hv h
          exact absurd ((is_power_of_two_iff v).mpr ⟨64, this⟩) hp
      rw [smear64_eq (v - 1) hv1]
      have hpos : 0 < 2 ^ Nat.size (v - 1) := by positivity
      refine ⟨⟨Nat.size (v - 1), by omega⟩, ?_, by omega⟩
      have : v - 1 < 2 ^ Nat.size (v - 1) := Nat.lt_size_self (v - 1)
      omega

/-- Bitwise or can only grow a number. -/
theorem le_or_self (w x : ℕ) : w ≤ w ||| x := by
  have h : w &&& (w ||| x) = w := by
    apply Nat.eq_of_testBit_eq
    intro i
    rw [Nat.testBit_and, Nat.testBit_or]
    cases w.testBit i <;> simp
  calc w = w &&& (w ||| x) := h.symm
  _ ≤ w ||| x := Nat.and_le_right

/-- `smear64` can only grow a number. -/
theorem le_smear64 (w : ℕ) : w ≤ smear64 w := by
  unfold smear64
  calc w ≤ w ||| w >>> 1 := le_or_self _ _
  _ ≤ _ ||| _ >>> 2 := le_or_self _ _
  _ ≤ _ ||| _ >>> 4 := le_or_self _ _
  _ ≤ _ ||| _ >>> 8 := le_or_self _ _
  _ ≤ _ ||| _ >>> 16 := le_or_self _ _
  _ ≤ _ ||| _ >>> 32 := le_or_self _ _

/-- The round-up never shrinks its argument. -/
theorem le_round_up (v : ℕ) : v ≤ round_up_to_power_of_two v := by
  unfold round_up_to_power_of_two
  by_cases hp : is_power_of_two v = true
  · simp [hp]
  · rw [if_neg hp]
    by_cases h0 : v = 0
    · simp [h0]
    · rw [if_neg h0]
      have := le_smear64 (v - 1)
      omega

/-- A bounded round-up result is a power of two at least its argument. -/
theorem round_up_spec_of_le {v : ℕ} (hm : round_up_to_power_of_two v ≤ 2 ^ 32) :
    ∃ k, round_up_to_power_of_two v = 2 ^ k := by
  have hv : v ≤ 2 ^ 64 := by
    have h1 := le_round_up v
    have : (2 : ℕ) ^ 32 ≤ 2 ^ 64 := Nat.pow_le_pow_right (by norm_num) (by norm_num)
    omega
  exact (round_up_spec v hv).1

/-- `ratFloorMul n q < n` whenever `0 < q < 1` (given on the raw fields). -/
theorem ratFloorMul_lt {q : ℚ} (n : ℕ) (hn : 0 < n) (h0 : 0 ≤ q.num)
    (h1 : q.num < (q.den : ℤ)) : ratFloorMul n q < n := by
  unfold ratFloorMul
  have hden : (0 : ℤ) ≤ (q.den : ℤ) := Int.ofNat_nonneg q.den
  rw [Int.fdiv_eq_ediv _ hden]
  have hdenpos : (0 : ℤ) < (q.den : ℤ) := lt_of_le_of_lt h0 h1
  have hlt : (n : ℤ) * q.num / (q.den : ℤ) < (n : ℤ) := by
    rw [Int.ediv_lt_iff_lt_mul hdenpos]
    have : (n : ℤ) * q.num < (n : ℤ) * (q.den : ℤ) := by
      apply mul_lt_mul_of_pos_left h1
      exact_mod_cast hn
    linarith
  omega

/-- `ratFloorMul` is monotone-bounded below by nothing but nonnegative. -/
theorem ratFloorMul_nonneg (n : ℕ) (q : ℚ) : 0 ≤ ratFloorMul n q := Nat.zero_le _

/-- `ratCeilDiv n q > n` whenever `0 < q < 1` and `1 ≤ n`. -/
theorem lt_ratCeilDiv {q : ℚ} (n : ℕ) (hn : 1 ≤ n) (h0 : 0 < q.num)
    (h1 : q.num < (q.den : ℤ)) : n < ratCeilDiv n q := by
  unfold ratCeilDiv
  rw [if_neg (by omega)]
  set m := q.num.toNat with hm
  have hmpos : 0 < m := by omega
  have hmd : m < q.den := by omega
  have : n + 1 ≤ (n * q.den + (m - 1)) / m := by
    rw [Nat.le_div_iff_mul_le hmpos]
    have h2 : n * q.den ≥ n * (m + 1) := Nat.mul_le_mul_left n (by omega)
    have h3 : n * (m + 1) = n * m + n := by ring
    have h4 : (n + 1) * m = n * m + m := by ring
    omega
  omega

/-!
List helper lemmas (proved from scratch to stay independent of library
naming). -/

/-- `getD` after `set` at the written index. -/
theorem getD_set_self {X : Type} : ∀ (l : List X) (i : ℕ), i < l.length →
    ∀ (b d : X), (l.set i b).getD i d = b
  | [], i, h, b, d => absurd h (by simp)
  | x :: xs, 0, _, b, d => rfl
  | x :: xs, i + 1, h, b, d => getD_set_self xs i (by simpa using h) b d

/-- `getD` after `set` at another index. -/
theorem getD_set_ne {X : Type} : ∀ (l : List X) (i j : ℕ), j ≠ i →
    ∀ (b d : X), (l.set i b).getD j d = l.getD j d
  | [], _, _, _, _, _ => by simp
  | x :: xs, 0, 0, hne, b, d => absurd rfl hne
  | x :: xs, 0, j + 1, _, b, d => rfl
  | x :: xs, i + 1, 0, _, b, d => rfl
  | x :: xs, i + 1, j + 1, hne, b, d =>
    getD_set_ne xs i j (fun h => hne (by omega)) b d

/-- `set` out of range is the identity. -/
theorem set_oob {X : Type} : ∀ (l : List X) (i : ℕ), l.length ≤ i →
    ∀ (b : X), l.set i b = l
  | [], _, _, _ => rfl
  | x :: xs, 0, h, b => absurd h (by simp)
  | x :: xs, i + 1, h, b => by
    simp only [List.set]
    rw [set_oob xs i (by simpa using h) b]

/-- Multiset bookkeeping of an in-range `set`. -/
theorem multiset_set {X : Type} : ∀ (l : List X) (i : ℕ), i < l.length → ∀ (b d : X),
    (Multiset.ofList (l.set i b)) + {l.getD i d} = Multiset.ofList l + {b}
  | [], i, h, _, _ => absurd h (by simp)
  | x :: xs, 0, _, b, d => by
    simp only [List.set, List.getD, List.getElem?_cons_zero, Option.getD_some]
    change (b ::ₘ Multiset.ofList xs) + {x} = (x ::ₘ Multiset.ofList xs) + {b}
    rw [add_comm (b ::ₘ Multiset.ofList xs) {x}, add_comm (x ::ₘ Multiset.ofList xs) {b}]
    rw [Multiset.singleton_add, Multiset.singleton_add]
    exact Multiset.cons_swap x b (Multiset.ofList xs)
  | x :: xs, i + 1, h, b, d => by
    simp only [List.set]
    have ih := multiset_set xs i (by simpa using h) b d
    change (x ::ₘ Multiset.ofList (xs.set i b)) + {xs.getD i d} =
      (x ::ₘ Multiset.ofList xs) + {b}
    rw [Multiset.cons_add, Multiset.cons_add, ih]

namespace OrderedHash

variable {α : Type}

/-- Geometry of the bucket array: a power-of-two length within the 32-bit
truncated-hash range, with the matching mask. -/
structure Geom (s : OrderedHash α) : Prop where
  pow2 : is_power_of_two s.m_buckets.length = true
  maskEq : s.m_mask = s.m_buckets.length - 1
  countLe : s.m_buckets.length ≤ 2 ^ 32

instance (s : OrderedHash α) : Decidable (Geom s) :=
  decidable_of_iff (is_power_of_two s.m_buckets.length = true ∧
      s.m_mask = s.m_buckets.length - 1 ∧ s.m_buckets.length ≤ 2 ^ 32)
    ⟨fun ⟨a, b, c⟩ => ⟨a, b, c⟩, fun ⟨a, b, c⟩ => ⟨a, b, c⟩⟩

/-- The bucket-array length is positive under `Geom`. -/
theorem Geom.countPos {s : OrderedHash α} (g : Geom s) : 0 < s.m_buckets.length := by
  obtain ⟨k, hk⟩ := (is_power_of_two_iff _).mp g.pow2
  rw [hk]; positivity

/-- Under `Geom`, the masked lookup is a remainder. -/
theorem bfh_eq_mod {s : OrderedHash α} (g : Geom s) (h : ℕ) :
    s.bucket_for_hash h = h % s.m_buckets.length := by
  obtain ⟨k, hk⟩ := (is_power_of_two_iff _).mp g.pow2
  rw [bucket_for_hash, g.maskEq, hk, and_mask_eq_mod]

/-- The initial bucket is in range. -/
theorem bfh_lt {s : OrderedHash α} (g : Geom s) (h : ℕ) :
    s.bucket_for_hash h < s.m_buckets.length := by
  rw [bfh_eq_mod g]
  exact Nat.mod_lt _ g.countPos

/-- Truncation does not change the initial bucket (bucket count `≤ 2^32`). -/
theorem bfh_truncate {s : OrderedHash α} (g : Geom s) (h : ℕ) :
    s.bucket_for_hash (truncate_hash h) = s.bucket_for_hash h := by
  obtain ⟨k, hk⟩ := (is_power_of_two_iff _).mp g.pow2
  have hk32 : k ≤ 32 := by
    have := g.countLe
    rw [hk] at this
    exact (Nat.pow_le_pow_iff_right (by norm_num)).mp this
  rw [bfh_eq_mod g, bfh_eq_mod g, truncate_hash, hk]
  exact Nat.mod_mod_of_dvd h (pow_dvd_pow 2 hk32)

/-- `next_bucket` as a remainder. -/
theorem next_eq_mod {s : OrderedHash α} (_hN : 0 < s.m_buckets.length) {i : ℕ}
    (hi : i < s.m_buckets.length) :
    s.next_bucket i = (i + 1) % s.m_buckets.length := by
  unfold next_bucket
  by_cases h : i + 1 < s.m_buckets.length
  · rw [if_pos h, Nat.mod_eq_of_lt h]
  · rw [if_neg h]
    have : i + 1 = s.m_buckets.length := by omega
    rw [this, Nat.mod_self]

/-- `next_bucket` stays in range. -/
theorem next_lt {s : OrderedHash α} (hN : 0 < s.m_buckets.length) (i : ℕ) :
    s.next_bucket i < s.m_buckets.length := by
  unfold next_bucket
  by_cases h : i + 1 < s.m_buckets.length
  · rwa [if_pos h]
  · rwa [if_neg h]

/-- `prevBucket` undoes `next_bucket` in range. -/
theorem prev_next {s : OrderedHash α} (hN : 0 < s.m_buckets.length) {i : ℕ}
    (hi : i < s.m_buckets.length) : s.prevBucket (s.next_bucket i) = i := by
  unfold prevBucket next_bucket bucket_count
  by_cases h : i + 1 < s.m_buckets.length
  · rw [if_pos h, if_neg (by omega)]
    omega
  · rw [if_neg h, if_pos rfl]
    omega

/-- Circular forward distance from `a` to `b` in a cycle of length `N`. -/
def circDist (a b N : ℕ) : ℕ := (N + b - a) % N

/-- Closed form of `circDist` on in-range arguments. -/
theorem circDist_eq {a b N : ℕ} (ha : a < N) (hb : b < N) :
    circDist a b N = if a ≤ b then b - a else N + b - a := by
  unfold circDist
  by_cases h : a ≤ b
  · rw [if_pos h]
    have h1 : N + b - a = N + (b - a) := by omega
    rw [h1, Nat.add_mod_left, Nat.mod_eq_of_lt (by omega)]
  · rw [if_neg h, Nat.mod_eq_of_lt (by omega)]

/-- `circDist` is bounded by the cycle length. -/
theorem circDist_lt {a b N : ℕ} (ha : a < N) (hb : b < N) : circDist a b N < N := by
  rw [circDist_eq ha hb]
  split <;> omega

/-- `circDist a a = 0`. -/
theorem circDist_self {a N : ℕ} (ha : a < N) : circDist a a N = 0 := by
  rw [circDist_eq ha ha]; simp

/-- `circDist` to the next slot grows by one while not wrapping onto `a`. -/
theorem circDist_succ {a b N : ℕ} (ha : a < N) (hb : b < N)
    (hlt : circDist a b N < N - 1) :
    circDist a ((b + 1) % N) N = circDist a b N + 1 := by
  have hN : 0 < N := by omega
  rw [circDist_eq ha hb] at *
  by_cases h1 : b + 1 < N
  · rw [Nat.mod_eq_of_lt h1, circDist_eq ha h1]
    split at hlt <;> split <;> omega
  · have hbN : b = N - 1 := by omega
    have : (b + 1) % N = 0 := by rw [show b + 1 = N by omega, Nat.mod_self]
    rw [this, circDist_eq ha hN]
    split at hlt <;> split <;> omega

/-- `circDist` to the previous slot shrinks by one while positive. -/
theorem circDist_prev {s : OrderedHash α} {a b : ℕ} (ha : a < s.m_buckets.length)
    (hb : b < s.m_buckets.length) (hpos : 0 < circDist a b s.m_buckets.length) :
    circDist a (s.prevBucket b) s.m_buckets.length = circDist a b s.m_buckets.length - 1 := by
  unfold prevBucket bucket_count
  rw [circDist_eq ha hb] at hpos
  by_cases h0 : b = 0
  · rw [if_pos h0]
    subst h0
    rw [circDist_eq ha (by omega), circDist_eq ha (by omega)]
    split at hpos <;> split <;> omega
  · rw [if_neg h0, circDist_eq ha (by omega), circDist_eq ha hb]
    split at hpos <;> split <;> omega

/-- The well-formedness invariant maintained by every operation: bucket
geometry, a strictly-spare bucket array, store/bucket consistency, the
position permutation, the Robin Hood support invariant, pairwise-distinct
keys, a maximum load factor strictly between 0 and 1, and the load threshold
derived from it. -/
structure WF (H : ℕ → ℕ) (s : OrderedHash α) : Prop where
  geom : Geom s
  sizeLt : s.m_values.length < s.m_buckets.length
  store : storeConsistent H s
  pos : positionsExact s
  support : robinHoodSupport s
  nodup : (s.m_values.map Prod.fst).Nodup
  mlfPos : 0 < s.m_max_load_factor.num
  mlfLtOne : s.m_max_load_factor.num < (s.m_max_load_factor.den : ℤ)
  threshold : s.m_load_threshold = ratFloorMul s.m_buckets.length s.m_max_load_factor

instance (H : ℕ → ℕ) (s : OrderedHash α) : Decidable (WF H s) :=
  decidable_of_iff (Geom s ∧ s.m_values.length < s.m_buckets.length ∧
      storeConsistent H s ∧ positionsExact s ∧ robinHoodSupport s ∧
      (s.m_values.map Prod.fst).Nodup ∧ 0 < s.m_max_load_factor.num ∧
      s.m_max_load_factor.num < (s.m_max_load_factor.den : ℤ) ∧
      s.m_load_threshold = ratFloorMul s.m_buckets.length s.m_max_load_factor)
    ⟨fun ⟨a, b, c, d, e, f, g, h, i⟩ => ⟨a, b, c, d, e, f, g, h, i⟩,
     fun ⟨a, b, c, d, e, f, g, h, i⟩ => ⟨a, b, c, d, e, f, g, h, i⟩⟩

/-! Frame and rewrite toolkit for `setBucket` and the derived accessors. -/

@[simp] theorem setBucket_values (s : OrderedHash α) (i : ℕ) (b : BucketEntry) :
    (setBucket s i b).m_values = s.m_values := rfl

@[simp] theorem setBucket_mask (s : OrderedHash α) (i : ℕ) (b : BucketEntry) :
    (setBucket s i b).m_mask = s.m_mask := rfl

@[simp] theorem setBucket_mlf (s : OrderedHash α) (i : ℕ) (b : BucketEntry) :
    (setBucket s i b).m_max_load_factor = s.m_max_load_factor := rfl

@[simp] theorem setBucket_threshold (s : OrderedHash α) (i : ℕ) (b : BucketEntry) :
    (setBucket s i b).m_load_threshold = s.m_load_threshold := rfl

@[simp] theorem setBucket_minthreshold (s : OrderedHash α) (i : ℕ) (b : BucketEntry) :
    (setBucket s i b).m_min_load_factor_rehash_threshold =
      s.m_min_load_factor_rehash_threshold := rfl

@[simp] theorem setBucket_grow (s : OrderedHash α) (i : ℕ) (b : BucketEntry) :
    (setBucket s i b).m_grow_on_next_insert = s.m_grow_on_next_insert := rfl

@[simp] theorem setBucket_length (s : OrderedHash α) (i : ℕ) (b : BucketEntry) :
    (setBucket s i b).m_buckets.length = s.m_buckets.length := by
  simp [setBucket]

theorem bucketAt_setBucket_self {s : OrderedHash α} {i : ℕ}
    (h : i < s.m_buckets.length) (b : BucketEntry) :
    (setBucket s i b).bucketAt i = b := by
  unfold bucketAt setBucket
  exact getD_set_self _ _ h _ _

theorem bucketAt_setBucket_ne {s : OrderedHash α} {i j : ℕ} (h : j ≠ i) (b : BucketEntry) :
    (setBucket s i b).bucketAt j = s.bucketAt j := by
  unfold bucketAt setBucket
  exact getD_set_ne _ _ _ h _ _

@[simp] theorem keyAt_setBucket (s : OrderedHash α) (i : ℕ) (b : BucketEntry) (j : ℕ) :
    (setBucket s i b).keyAt j = s.keyAt j := rfl

@[simp] theorem next_bucket_setBucket (s : OrderedHash α) (i : ℕ) (b : BucketEntry) (j : ℕ) :
    (setBucket s i b).next_bucket j = s.next_bucket j := by
  simp [next_bucket]

@[simp] theorem prevBucket_setBucket (s : OrderedHash α) (i : ℕ) (b : BucketEntry) (j : ℕ) :
    (setBucket s i b).prevBucket j = s.prevBucket j := by
  simp [prevBucket, bucket_count]

@[simp] theorem bfh_setBucket (s : OrderedHash α) (i : ℕ) (b : BucketEntry) (h : ℕ) :
    (setBucket s i b).bucket_for_hash h = s.bucket_for_hash h := rfl

theorem dist_setBucket_ne {s : OrderedHash α} {i j : ℕ} (h : j ≠ i) (b : BucketEntry) :
    (setBucket s i b).dist_from_initial_bucket j = s.dist_from_initial_bucket j := by
  unfold dist_from_initial_bucket
  rw [bucketAt_setBucket_ne h, bfh_setBucket]
  simp [bucket_count]

theorem geom_setBucket {s : OrderedHash α} (g : Geom s) (i : ℕ) (b : BucketEntry) :
    Geom (setBucket s i b) := by
  refine ⟨?_, ?_, ?_⟩
  · simpa using g.pow2
  · simpa using g.maskEq
  · simpa using g.countLe

/-- The non-empty cells, as a multiset. -/
def cellsM (s : OrderedHash α) : Multiset BucketEntry := (s.nonEmptyCells : Multiset _)

/-- Multiset bookkeeping of a single bucket write. -/
theorem cellsM_set {s : OrderedHash α} {i : ℕ} (h : i < s.m_buckets.length)
    (b : BucketEntry) :
    cellsM (setBucket s i b) +
        (if (s.bucketAt i).empty = false then {s.bucketAt i} else 0) =
      cellsM s + (if b.empty = false then {b} else 0) := by
  unfold cellsM nonEmptyCells setBucket bucketAt
  have hms := multiset_set s.m_buckets i h b BucketEntry.mk0
  have hfil := congrArg (Multiset.filter (fun c => c.empty = false)) hms
  rw [Multiset.filter_add, Multiset.filter_add] at hfil
  simp only [Multiset.filter_singleton] at hfil
  rw [Multiset.filter_coe, Multiset.filter_coe] at hfil
  convert hfil using 2

/-- `positionsExact` via `cellsM`. -/
theorem positionsExact_iff (s : OrderedHash α) :
    positionsExact s ↔
      Multiset.map BucketEntry.m_index (cellsM s) = Multiset.range s.m_values.length := by
  unfold positionsExact cellsM
  rw [Multiset.map_coe]
  rfl

/-- The Robin Hood support condition at one bucket. -/
def supportAt (s : OrderedHash α) (j : ℕ) : Prop :=
  (s.bucketAt j).empty = false → 0 < s.dist_from_initial_bucket j →
    ((s.bucketAt (s.prevBucket j)).empty = false ∧
      s.dist_from_initial_bucket j ≤ s.dist_from_initial_bucket (s.prevBucket j) + 1)

/-- `robinHoodSupport` unfolded to `supportAt`. -/
theorem robinHoodSupport_iff (s : OrderedHash α) :
    robinHoodSupport s ↔ ∀ j, j < s.m_buckets.length → supportAt s j := Iff.rfl

/-- The initial bucket of the cell at slot `j`. -/
def cellInit (s : OrderedHash α) (j : ℕ) : ℕ := s.bucket_for_hash (s.bucketAt j).m_hash

/-- `dist_from_initial_bucket` as a circular distance. -/
theorem dist_eq_circDist {s : OrderedHash α} (g : Geom s) {j : ℕ}
    (hj : j < s.m_buckets.length) :
    s.dist_from_initial_bucket j = circDist (cellInit s j) j s.m_buckets.length := by
  unfold dist_from_initial_bucket cellInit bucket_count
  have hib := bfh_lt g (s.bucketAt j).m_hash
  rw [circDist_eq hib hj]

/-- Probe distances are below the bucket count. -/
theorem dist_lt {s : OrderedHash α} (g : Geom s) {j : ℕ} (hj : j < s.m_buckets.length) :
    s.dist_from_initial_bucket j < s.m_buckets.length := by
  rw [dist_eq_circDist g hj]
  exact circDist_lt (bfh_lt g _) hj

/-- The slot at circular distance `t` ahead of `a`. -/
theorem circDist_add {a t N : ℕ} (ha : a < N) (ht : t < N) :
    circDist a ((a + t) % N) N = t := by
  have hN : 0 < N := by omega
  rw [circDist_eq ha (Nat.mod_lt _ hN)]
  rcases Nat.lt_or_ge (a + t) N with h | h
  · rw [Nat.mod_eq_of_lt h]
    split <;> omega
  · have hmod : (a + t) % N = a + t - N := by
      rw [Nat.mod_eq_sub_mod (by omega), Nat.mod_eq_of_lt (by omega)]
    rw [hmod]
    split <;> omega

/-- Walking the support chain backwards: under `robinHoodSupport`, every slot
`t ≤ D` steps after the initial bucket of a non-empty cell at distance `D` is
non-empty with probe distance at least `t`. -/
theorem support_chain {s : OrderedHash α} (g : Geom s) (hs : robinHoodSupport s)
    {j : ℕ} (hj : j < s.m_buckets.length) (hne : (s.bucketAt j).empty = false) :
    ∀ t, t ≤ s.dist_from_initial_bucket j →
      (s.bucketAt ((cellInit s j + t) % s.m_buckets.length)).empty = false ∧
        t ≤ s.dist_from_initial_bucket ((cellInit s j + t) % s.m_buckets.length) := by
  set N := s.m_buckets.length with hNdef
  have hN : 0 < N := g.countPos
  set D := s.dist_from_initial_bucket j with hD
  set a := cellInit s j with ha
  have haN : a < N := bfh_lt g _
  have hjD : j = (a + D) % N := by
    have h1 : circDist a j N = D := (dist_eq_circDist g hj).symm
    rw [circDist_eq haN hj] at h1
    rcases Nat.lt_or_ge (a + D) N with h | h
    · rw [Nat.mod_eq_of_lt h]
      split at h1 <;> omega
    · rw [Nat.mod_eq_sub_mod (by omega), Nat.mod_eq_of_lt (by split at h1 <;> omega)]
      split at h1 <;> omega
  -- downward induction: from t = D to t = 0 via the support hypothesis
  have key : ∀ u, u ≤ D →
      (s.bucketAt ((a + (D - u)) % N)).empty = false ∧
        D - u ≤ s.dist_from_initial_bucket ((a + (D - u)) % N) := by
    intro u hu
    induction u with
    | zero =>
      simp only [Nat.sub_zero]
      rw [← hjD]
      exact ⟨hne, le_of_eq hD⟩
    | succ v ih =>
      have hv : v ≤ D := by omega
      obtain ⟨hne1, hle1⟩ := ih hv
      set w := (a + (D - v)) % N with hw
      have hwN : w < N := Nat.mod_lt _ hN
      have hdpos : 0 < s.dist_from_initial_bucket w := by omega
      obtain ⟨hne2, hle2⟩ := hs w hwN hne1 hdpos
      have hDN : D < N := dist_lt g hj
      have hprev : s.prevBucket w = (a + (D - (v + 1))) % N := by
        have hDv : D - v < N := by omega
        have h1 : circDist a w N = D - v := by rw [hw]; exact circDist_add haN hDv
        have h2 : circDist a (s.prevBucket w) N = D - v - 1 := by
          rw [circDist_prev haN hwN (by rw [h1]; omega), h1]
        have hDv1 : D - (v + 1) < N := by omega
        have h3 : circDist a ((a + (D - (v + 1))) % N) N = D - (v + 1) :=
          circDist_add haN hDv1
        -- circDist a · is injective on [0, N)
        have hpN : s.prevBucket w < N := by
          unfold prevBucket bucket_count
          split <;> omega
        have hmodN : (a + (D - (v + 1))) % N < N := Nat.mod_lt _ hN
        rw [circDist_eq haN hpN] at h2
        rw [circDist_eq haN hmodN] at h3
        split at h2 <;> split at h3 <;> omega
      rw [← hprev]
      refine ⟨hne2, ?_⟩
      calc D - (v + 1) = (D - v) - 1 := by omega
      _ ≤ s.dist_from_initial_bucket w - 1 := by omega
      _ ≤ s.dist_from_initial_bucket (s.prevBucket w) := by omega
  intro t ht
  have := key (D - t) (by omega)
  rw [show D - (D - t) = t by omega] at this
  exact this

/-- Unfolded membership characterization of `cellOK`. -/
theorem cellOK_iff {H : ℕ → ℕ} {s : OrderedHash α} {b : BucketEntry} :
    cellOK H s b ↔ ∃ kv, s.m_values.get? b.m_index = some kv ∧
      b.m_hash = truncate_hash (H kv.1) := by
  unfold cellOK
  cases h : s.m_values.get? b.m_index with
  | none => simp
  | some kv => simp

/-- A consistent non-empty cell indexes inside the store. -/
theorem cellOK_idx_lt {H : ℕ → ℕ} {s : OrderedHash α} {b : BucketEntry}
    (h : cellOK H s b) : b.m_index < s.m_values.length := by
  obtain ⟨kv, hkv, _⟩ := cellOK_iff.mp h
  exact List.get?_eq_some.mp hkv |>.1

/-- Under `WF` there is an empty bucket. -/
theorem exists_empty_bucket {H : ℕ → ℕ} {s : OrderedHash α} (w : WF H s) :
    ∃ e, e < s.m_buckets.length ∧ (s.bucketAt e).empty = true := by
  by_contra hcon
  push_neg at hcon
  have hall : ∀ b ∈ s.m_buckets, (b.empty = false) := by
    intro b hb
    obtain ⟨i, hi, hget⟩ := List.getElem_of_mem hb
    have hcon2 := hcon i hi
    have hbat : s.bucketAt i = b := by
      rw [bucketAt, List.getD_eq_getElem?_getD, List.getElem?_eq_getElem hi]
      simpa using hget
    rw [hbat] at hcon2
    cases hbe : b.empty
    · rfl
    · exact absurd hbe hcon2
  have hfil : s.nonEmptyCells = s.m_buckets := by
    unfold nonEmptyCells
    rw [List.filter_eq_self]
    intro a ha
    simpa using hall a ha
  have hlen : s.nonEmptyCells.length = s.m_values.length := by
    have hperm := w.pos
    unfold positionsExact at hperm
    have := congrArg Multiset.card hperm
    simpa using this
  rw [hfil] at hlen
  have := w.sizeLt
  omega

/-- `next_bucket` after `prevBucket` in range. -/
theorem next_prev {s : OrderedHash α} (hN : 0 < s.m_buckets.length) {j : ℕ}
    (hj : j < s.m_buckets.length) : s.next_bucket (s.prevBucket j) = j := by
  unfold prevBucket next_bucket bucket_count
  by_cases h0 : j = 0
  · rw [if_pos h0, if_neg (by omega)]
    omega
  · rw [if_neg h0, if_pos (by omega)]
    omega

/-- Distinct slots are at positive circular distance. -/
theorem circDist_pos_of_ne {a b N : ℕ} (ha : a < N) (hb : b < N) (hne : a ≠ b) :
    0 < circDist a b N := by
  rw [circDist_eq ha hb]
  split <;> omega

/-- Moving the source one step forward shrinks the distance by one. -/
theorem circDist_next_left {s : OrderedHash α} {a b : ℕ} (ha : a < s.m_buckets.length)
    (hb : b < s.m_buckets.length) (hne : a ≠ b) :
    circDist (s.next_bucket a) b s.m_buckets.length = circDist a b s.m_buckets.length - 1 := by
  have hN : 0 < s.m_buckets.length := by omega
  rw [next_eq_mod hN ha]
  set N := s.m_buckets.length
  rw [circDist_eq ha hb]
  by_cases h : a + 1 < N
  · rw [Nat.mod_eq_of_lt h, circDist_eq (by omega) hb]
    split <;> split <;> omega
  · have haN : a = N - 1 := by omega
    rw [show (a + 1) % N = 0 by rw [show a + 1 = N by omega, Nat.mod_self],
      circDist_eq hN hb]
    split <;> split <;> omega

/-- Everything except the bucket-array contents (and in particular the store)
agrees between two states, and the array lengths match. -/
def sameFrame (s t : OrderedHash α) : Prop :=
  t.m_values = s.m_values ∧ t.m_mask = s.m_mask ∧
    t.m_max_load_factor = s.m_max_load_factor ∧
    t.m_load_threshold = s.m_load_threshold ∧
    t.m_min_load_factor_rehash_threshold = s.m_min_load_factor_rehash_threshold ∧
    t.m_grow_on_next_insert = s.m_grow_on_next_insert ∧
    t.m_buckets.length = s.m_buckets.length

theorem sameFrame_refl (s : OrderedHash α) : sameFrame s s :=
  ⟨rfl, rfl, rfl, rfl, rfl, rfl, rfl⟩

theorem sameFrame_trans {s t u : OrderedHash α} (h1 : sameFrame s t)
    (h2 : sameFrame t u) : sameFrame s u := by
  obtain ⟨a1, b1, c1, d1, e1, f1, g1⟩ := h1
  obtain ⟨a2, b2, c2, d2, e2, f2, g2⟩ := h2
  exact ⟨a2.trans a1, b2.trans b1, c2.trans c1, d2.trans d1, e2.trans e1,
    f2.trans f1, g2.trans g1⟩

theorem sameFrame_setBucket (s : OrderedHash α) (i : ℕ) (b : BucketEntry) :
    sameFrame s (setBucket s i b) :=
  ⟨rfl, rfl, rfl, rfl, rfl, rfl, by simp⟩

/-- `backward_shiftLoop` frame and cell conservation: given that the scan
slot is an empty in-range bucket, the loop only permutes bucket cells. -/
theorem backward_shiftLoop_cells :
    ∀ (fuel : ℕ) (s : OrderedHash α) (p : ℕ), p < s.m_buckets.length →
      (s.bucketAt p).empty = true →
      cellsM (backward_shiftLoop s p fuel) = cellsM s ∧
        sameFrame s (backward_shiftLoop s p fuel)
  | 0, s, p, _, _ => ⟨rfl, sameFrame_refl s⟩
  | fuel + 1, s, p, hp, hpe => by
    rw [backward_shiftLoop]
    set cur := s.next_bucket p with hcur
    by_cases hguard : ¬(s.bucketAt cur).empty = true ∧ 0 < s.dist_from_initial_bucket cur
    · rw [if_pos hguard]
      have hN : 0 < s.m_buckets.length := by omega
      have hcurN : cur < s.m_buckets.length := next_lt hN p
      have hne : cur ≠ p := by
        intro h
        rw [h] at hguard
        exact hguard.1 hpe
      set s1 := setBucket s cur (s.bucketAt p) with hs1
      set s2 := setBucket s1 p (s.bucketAt cur) with hs2
      have hlen1 : s1.m_buckets.length = s.m_buckets.length := by simp [hs1]
      have hcurne : (s.bucketAt cur).empty = false := by
        cases hx : (s.bucketAt cur).empty
        · rfl
        · exact absurd hx hguard.1
      have hc1 : cellsM s1 + {s.bucketAt cur} = cellsM s := by
        have hstep := cellsM_set (s := s) (i := cur) hcurN (s.bucketAt p)
        rw [if_pos hcurne, if_neg (by simp [hpe])] at hstep
        simpa using hstep
      have hc2 : cellsM s2 = cellsM s1 + {s.bucketAt cur} := by
        have hb1 : s1.bucketAt p = s.bucketAt p := bucketAt_setBucket_ne hne.symm _
        have hstep := cellsM_set (s := s1) (i := p) (by omega) (s.bucketAt cur)
        rw [hb1, if_neg (by simp [hpe]), if_pos hcurne] at hstep
        simpa using hstep
      have hcells : cellsM s2 = cellsM s := by rw [hc2, hc1]
      have hs2p : s2.bucketAt cur = s.bucketAt p := by
        rw [hs2, bucketAt_setBucket_ne hne, hs1, bucketAt_setBucket_self hcurN]
      have hrec := backward_shiftLoop_cells fuel s2 cur
        (by rw [hs2, hs1]; simpa using hcurN) (by rw [hs2p]; exact hpe)
      refine ⟨?_, ?_⟩
      · rw [hrec.1, hcells]
      · refine sameFrame_trans ?_ hrec.2
        exact sameFrame_trans (sameFrame_setBucket s cur _) (sameFrame_setBucket s1 p _)
    · rw [if_neg hguard]
      exact ⟨rfl, sameFrame_refl s⟩

/-- `next_bucket` has no fixed point once there are two buckets. -/
theorem next_ne_self {s : OrderedHash α} (hN2 : 2 ≤ s.m_buckets.length) {x : ℕ}
    (hx : x < s.m_buckets.length) : s.next_bucket x ≠ x := by
  rw [next_eq_mod (by omega) hx]
  intro h
  rcases Nat.lt_or_ge (x + 1) s.m_buckets.length with hlt | hge
  · rw [Nat.mod_eq_of_lt hlt] at h; omega
  · rw [Nat.mod_eq_sub_mod (by omega), Nat.mod_eq_of_lt (by omega)] at h
    omega

/-- `next_bucket` has no 2-cycle once there are three buckets. -/
theorem no_two_cycle {s : OrderedHash α} (hN3 : 3 ≤ s.m_buckets.length) {x : ℕ}
    (hx : x < s.m_buckets.length) : s.next_bucket (s.next_bucket x) ≠ x := by
  have hN : 0 < s.m_buckets.length := by omega
  have hx1 : s.next_bucket x < s.m_buckets.length := next_lt hN x
  rw [next_eq_mod hN hx1, next_eq_mod hN hx]
  intro h
  rcases Nat.lt_or_ge (x + 1) s.m_buckets.length with hlt | hge
  · rw [Nat.mod_eq_of_lt hlt] at h
    rcases Nat.lt_or_ge (x + 1 + 1) s.m_buckets.length with hlt2 | hge2
    · rw [Nat.mod_eq_of_lt hlt2] at h; omega
    · rw [Nat.mod_eq_sub_mod (by omega), Nat.mod_eq_of_lt (by omega)] at h
      omega
  · have hxe : x + 1 = s.m_buckets.length := by omega
    rw [hxe, Nat.mod_self] at h
    rw [show (0 + 1) % s.m_buckets.length = 1 from by
      rw [Nat.mod_eq_of_lt (by omega)]] at h
    omega

/-- Robin Hood support restoration by `backward_shiftLoop`: starting from a
freshly emptied in-range slot `p`, with support holding everywhere except
possibly at `next p`, where the deficit is bounded by the erased ghost cell
(`dist (next p) ≤ dist (prev p) + 2`), and with a second empty slot `E`
bounding the walk, the loop restores support everywhere. -/
theorem backward_shiftLoop_support (fuel : ℕ) :
    ∀ (s : OrderedHash α) (p E : ℕ), Geom s →
      p < s.m_buckets.length → (s.bucketAt p).empty = true →
      E < s.m_buckets.length → (s.bucketAt E).empty = true → E ≠ p →
      circDist (s.next_bucket p) E s.m_buckets.length < fuel →
      (∀ j, j < s.m_buckets.length → j ≠ s.next_bucket p → supportAt s j) →
      ((s.bucketAt (s.next_bucket p)).empty = false →
        1 < s.dist_from_initial_bucket (s.next_bucket p) →
        (s.bucketAt (s.prevBucket p)).empty = false ∧
          s.dist_from_initial_bucket (s.next_bucket p) ≤
            s.dist_from_initial_bucket (s.prevBucket p) + 2) →
      robinHoodSupport (backward_shiftLoop s p fuel) := by
  induction fuel with
  | zero =>
    intro s p E g hp hpe hE hEe hEp hbud hsupp hghost
    omega
  | succ fuel ih =>
    intro s p E g hp hpe hE hEe hEp hbud hsupp hghost
    rw [backward_shiftLoop]
    set cur := s.next_bucket p with hcurdef
    by_cases hguard : ¬(s.bucketAt cur).empty = true ∧ 0 < s.dist_from_initial_bucket cur
    · rw [if_pos hguard]
      have hN : 0 < s.m_buckets.length := by omega
      have hcurN : cur < s.m_buckets.length := next_lt hN p
      have hcne : (s.bucketAt cur).empty = false := by
        cases hx : (s.bucketAt cur).empty
        · rfl
        · exact absurd hx hguard.1
      have hnecurp : cur ≠ p := by
        intro h
        rw [h, hpe] at hcne
        exact Bool.true_eq_false.mp hcne
      have hN2 : 2 ≤ s.m_buckets.length := by omega
      have hEc : E ≠ cur := by
        intro h
        rw [h, hcne] at hEe
        exact Bool.false_ne_true hEe
      have hprevcur : s.prevBucket cur = p := prev_next hN hp
      set c := s.bucketAt cur with hcdef
      set s1 := setBucket s cur (s.bucketAt p) with hs1
      set s2 := setBucket s1 p c with hs2
      have hlen1 : s1.m_buckets.length = s.m_buckets.length := by simp [hs1]
      have hlen2 : s2.m_buckets.length = s.m_buckets.length := by simp [hs2, hs1]
      have hg2 : Geom s2 := geom_setBucket (geom_setBucket g cur _) p _
      have hb2cur : s2.bucketAt cur = s.bucketAt p := by
        rw [hs2, bucketAt_setBucket_ne hnecurp, hs1, bucketAt_setBucket_self hcurN]
      have hb2p : s2.bucketAt p = c := by
        rw [hs2, bucketAt_setBucket_self (by omega)]
      have hb2other : ∀ j, j ≠ p → j ≠ cur → s2.bucketAt j = s.bucketAt j := by
        intro j hjp hjc
        rw [hs2, bucketAt_setBucket_ne hjp, hs1, bucketAt_setBucket_ne hjc]
      have hd2other : ∀ j, j ≠ p → j ≠ cur → s2.dist_from_initial_bucket j =
          s.dist_from_initial_bucket j := by
        intro j hjp hjc
        rw [hs2, dist_setBucket_ne hjp, hs1, dist_setBucket_ne hjc]
      have hnext2 : ∀ j, s2.next_bucket j = s.next_bucket j := by
        intro j; rw [hs2, next_bucket_setBucket, hs1, next_bucket_setBucket]
      have hprev2 : ∀ j, s2.prevBucket j = s.prevBucket j := by
        intro j; rw [hs2, prevBucket_setBucket, hs1, prevBucket_setBucket]
      -- the moved cell sits at p with distance one less than it had at cur
      set dc := s.dist_from_initial_bucket cur with hdc
      have hinitc : s.bucket_for_hash c.m_hash < s.m_buckets.length := bfh_lt g _
      have hdccirc : dc = circDist (s.bucket_for_hash c.m_hash) cur s.m_buckets.length := by
        rw [hdc, dist_eq_circDist g hcurN]; rfl
      have hd2p : s2.dist_from_initial_bucket p = dc - 1 := by
        have h1 : s2.dist_from_initial_bucket p =
            circDist (s2.bucket_for_hash (s2.bucketAt p).m_hash) p s2.m_buckets.length := by
          rw [dist_eq_circDist hg2 (by omega)]; rfl
        rw [h1, hb2p, hlen2]
        have hbfh2 : s2.bucket_for_hash c.m_hash = s.bucket_for_hash c.m_hash := by
          rw [hs2, bfh_setBucket, hs1, bfh_setBucket]
        rw [hbfh2, ← hprevcur, circDist_prev hinitc hcurN (by rw [← hdccirc]; exact hguard.2),
          ← hdccirc]
      -- distances at slots other than p and cur are untouched
      apply ih s2 cur E hg2 (by omega) (by rw [hb2cur]; exact hpe) (by omega)
        (by rw [hb2other E hEp hEc]; exact hEe) hEc
      -- termination budget
      · rw [hnext2, hlen2]
        have hpos : 0 < circDist cur E s.m_buckets.length :=
          circDist_pos_of_ne hcurN hE (fun h => hEc h.symm)
        have hstep : circDist (s.next_bucket cur) E s.m_buckets.length =
            circDist cur E s.m_buckets.length - 1 :=
          circDist_next_left hcurN hE (fun h => hEc h.symm)
        omega
      -- support everywhere except possibly at next cur
      · intro j hj hjne
        rw [hlen2] at hj
        rw [hnext2] at hjne
        by_cases hjcur : j = cur
        · subst hjcur
          intro hfalse
          rw [hb2cur, hpe] at hfalse
          exact absurd hfalse (by simp)
        by_cases hjp : j = p
        · subst hjp
          intro _ hdpos
          rw [hd2p] at hdpos
          have hdc2 : 1 < dc := by omega
          obtain ⟨hgne, hgle⟩ := hghost hcne hdc2
          have hdcN : dc < s.m_buckets.length := dist_lt g hcurN
          have hN3 : 3 ≤ s.m_buckets.length := by omega
          have hppn : s.prevBucket j ≠ j := by
            unfold prevBucket bucket_count
            split <;> omega
          have hppc : s.prevBucket j ≠ cur := by
            intro h
            have h1 : s.next_bucket (s.prevBucket j) = j := next_prev hN hp
            rw [h, hcurdef] at h1
            exact no_two_cycle hN3 hp h1
          rw [hprev2, hd2p, hb2other _ hppn hppc, hd2other _ hppn hppc]
          exact ⟨hgne, by omega⟩
        · -- untouched slot
          have hsj := hsupp j hj hjcur
          intro hne4 hpos4
          rw [hb2other _ hjp hjcur] at hne4
          rw [hd2other _ hjp hjcur] at hpos4
          have hpjp : s.prevBucket j ≠ p := by
            intro h
            have hnx := next_prev hN (show j < s.m_buckets.length from hj)
            rw [h] at hnx
            exact hjcur (by rw [hcurdef, ← hnx])
          have hpjc : s.prevBucket j ≠ cur := by
            intro h
            have hnx := next_prev hN (show j < s.m_buckets.length from hj)
            rw [h] at hnx
            exact hjne hnx.symm
          obtain ⟨ha, hb⟩ := hsj hne4 hpos4
          rw [hprev2, hb2other _ hpjp hpjc, hd2other _ hjp hjcur,
            hd2other _ hpjp hpjc]
          exact ⟨ha, hb⟩
      -- ghost bound at the new scan position
      · rw [hnext2, hprev2, hprevcur]
        intro hne5 hd5
        rw [hb2p]
        refine ⟨hcne, ?_⟩
        rw [hd2p]
        by_cases hnp : s.next_bucket cur = p
        · rw [hnp] at hd5 ⊢
          omega
        · have hncc : s.next_bucket cur ≠ cur := next_ne_self hN2 hcurN
          rw [hb2other _ hnp hncc] at hne5
          rw [hd2other _ hnp hncc] at hd5 ⊢
          have hnn : s.next_bucket cur < s.m_buckets.length := next_lt hN cur
          have hsnc := hsupp (s.next_bucket cur) hnn hncc
          obtain ⟨_, hb⟩ := hsnc hne5 (by omega)
          have hpnc : s.prevBucket (s.next_bucket cur) = cur := prev_next hN hcurN
          rw [hpnc] at hb
          omega
    · rw [if_neg hguard]
      intro j hj
      by_cases hjc : j = cur
      · subst hjc
        intro hne6 hpos6
        exact absurd ⟨by
          intro h
          rw [h] at hne6
          exact Bool.true_eq_false.mp hne6, hpos6⟩ hguard
      · exact hsupp j hj hjc

/-- `prevBucket` has no fixed point once there are two buckets. -/
theorem prev_ne_self {s : OrderedHash α} (hN2 : 2 ≤ s.m_buckets.length) {x : ℕ}
    (hx : x < s.m_buckets.length) : s.prevBucket x ≠ x := by
  unfold prevBucket bucket_count
  split <;> omega

/-- The Robin Hood placement loop never touches the store or the scalar
fields other than the deferred-grow flag, and keeps the bucket-array
length; in flag-free mode it keeps the flag too. -/
theorem insert_indexLoop_frame (w : Bool) :
    ∀ (fuel : ℕ) (s : OrderedHash α) (i d idx hsh : ℕ) (t : OrderedHash α),
      insert_indexLoop w s i d idx hsh fuel = some t →
      t.m_values = s.m_values ∧ t.m_mask = s.m_mask ∧
        t.m_max_load_factor = s.m_max_load_factor ∧
        t.m_load_threshold = s.m_load_threshold ∧
        t.m_min_load_factor_rehash_threshold = s.m_min_load_factor_rehash_threshold ∧
        t.m_buckets.length = s.m_buckets.length ∧
        (w = false → t.m_grow_on_next_insert = s.m_grow_on_next_insert)
  | 0, s, i, d, idx, hsh, t => by
    intro h
    exact absurd h (by rw [insert_indexLoop]; simp)
  | fuel + 1, s, i, d, idx, hsh, t => by
    intro h
    rw [insert_indexLoop] at h
    by_cases hne : ¬(s.bucketAt i).empty
    · rw [if_pos hne] at h
      simp only [] at h
      by_cases hswap : d > s.dist_from_initial_bucket i
      · simp only [if_pos hswap] at h
        by_cases hflag : w = true ∧ s.dist_from_initial_bucket i + 1 >
            REHASH_ON_HIGH_NB_PROBES__NPROBES ∧
            (setBucket s i ⟨idx, hsh⟩).size ≥
              (setBucket s i ⟨idx, hsh⟩).m_min_load_factor_rehash_threshold
        · rw [if_pos hflag] at h
          have hrec := insert_indexLoop_frame w fuel _ _ _ _ _ t h
          obtain ⟨h1, h2, h3, h4, h5, h6, _⟩ := hrec
          refine ⟨h1, h2, h3, h4, h5, by simpa using h6, ?_⟩
          intro hw
          rw [hw] at hflag
          exact absurd hflag.1 Bool.false_ne_true
        · rw [if_neg hflag] at h
          have hrec := insert_indexLoop_frame w fuel _ _ _ _ _ t h
          obtain ⟨h1, h2, h3, h4, h5, h6, h7⟩ := hrec
          exact ⟨h1, h2, h3, h4, h5, by simpa using h6, fun hw => h7 hw⟩
      · simp only [if_neg hswap] at h
        by_cases hflag : w = true ∧ d + 1 > REHASH_ON_HIGH_NB_PROBES__NPROBES ∧
            s.size ≥ s.m_min_load_factor_rehash_threshold
        · rw [if_pos hflag] at h
          have hrec := insert_indexLoop_frame w fuel _ _ _ _ _ t h
          obtain ⟨h1, h2, h3, h4, h5, h6, _⟩ := hrec
          refine ⟨h1, h2, h3, h4, h5, h6, ?_⟩
          intro hw
          rw [hw] at hflag
          exact absurd hflag.1 Bool.false_ne_true
        · rw [if_neg hflag] at h
          exact insert_indexLoop_frame w fuel _ _ _ _ _ t h
    · rw [if_neg hne] at h
      obtain rfl : setBucket s i (((s.bucketAt i).set_index idx).set_hash hsh) = t :=
        Option.some.inj h
      exact ⟨rfl, rfl, rfl, rfl, rfl, by simp, fun _ => rfl⟩

/-- The re-insertion fold of `rehash_impl` keeps everything except the
bucket-array contents. -/
theorem rehashFold_frame :
    ∀ (l : List BucketEntry) (s t : OrderedHash α), rehashFold l s = some t →
      t.m_values = s.m_values ∧ t.m_mask = s.m_mask ∧
        t.m_max_load_factor = s.m_max_load_factor ∧
        t.m_load_threshold = s.m_load_threshold ∧
        t.m_min_load_factor_rehash_threshold = s.m_min_load_factor_rehash_threshold ∧
        t.m_buckets.length = s.m_buckets.length ∧
        t.m_grow_on_next_insert = s.m_grow_on_next_insert
  | [], s, t => by
    intro h
    obtain rfl : s = t := Option.some.inj h
    exact ⟨rfl, rfl, rfl, rfl, rfl, rfl, rfl⟩
  | b :: rest, s, t => by
    intro h
    rw [rehashFold] at h
    by_cases hbe : b.empty
    · rw [if_pos hbe] at h
      exact rehashFold_frame rest s t h
    · rw [if_neg hbe] at h
      cases hstep : insert_indexLoop false s (s.bucket_for_hash b.m_hash) 0
          b.m_index b.m_hash (s.bucket_count + 1) with
      | none => rw [hstep] at h; exact absurd h (by simp)
      | some s2 =>
        rw [hstep] at h
        have h1 := insert_indexLoop_frame false _ s _ _ _ _ s2 hstep
        have h2 := rehashFold_frame rest s2 t h
        obtain ⟨a1, b1, c1, d1, e1, f1, g1⟩ := h1
        obtain ⟨a2, b2, c2, d2, e2, f2, g2⟩ := h2
        exact ⟨a2.trans a1, b2.trans b1, c2.trans c1, d2.trans d1, e2.trans e1,
          f2.trans f1, g2.trans (g1 rfl)⟩

/-- If a key is absent from the store, no store slot carries it. -/
theorem keyAt_of_not_mem {s : OrderedHash α} {k : ℕ}
    (h : k ∉ s.m_values.map Prod.fst) (q : ℕ) : s.keyAt q ≠ some k := by
  intro hq
  unfold keyAt at hq
  cases hget : s.m_values.get? q with
  | none => rw [hget] at hq; exact absurd hq (by simp)
  | some kv =>
    rw [hget] at hq
    have hkv : kv.1 = k := by simpa using hq
    exact h (by
      rw [← hkv]
      exact List.mem_map_of_mem Prod.fst (List.get?_mem hget))

/-- A probe test never succeeds for an absent key. -/
theorem matchesAt_fresh {s : OrderedHash α} {k : ℕ}
    (h : k ∉ s.m_values.map Prod.fst) (hash i : ℕ) :
    s.matchesAt k hash i = false := by
  unfold matchesAt
  exact decide_eq_false (fun hc => keyAt_of_not_mem h _ hc.2)

/-- The insert probe loop never reports a hit for an absent key. -/
theorem insertProbeLoop_fresh :
    ∀ (fuel : ℕ) (s : OrderedHash α) (k hash i d : ℕ) (r : Sum ℕ (ℕ × ℕ)),
      k ∉ s.m_values.map Prod.fst →
      insertProbeLoop s k hash i d fuel = some r → ∃ pr, r = Sum.inr pr
  | 0, s, k, hash, i, d, r => by
    intro _ h
    exact absurd h (by rw [insertProbeLoop]; simp)
  | fuel + 1, s, k, hash, i, d, r => by
    intro hk h
    rw [insertProbeLoop] at h
    by_cases hguard : ¬(s.bucketAt i).empty = true ∧ d ≤ s.dist_from_initial_bucket i
    · rw [if_pos hguard] at h
      rw [if_neg (by rw [matchesAt_fresh hk]; exact Bool.false_ne_true)] at h
      exact insertProbeLoop_fresh fuel s k hash _ _ r hk h
    · rw [if_neg hguard] at h
      exact ⟨(i, d), (Option.some.inj h).symm⟩

/-- `rehash_impl` never touches the store or the stored maximum load factor,
and a rehash that actually rebuilds clears the deferred-grow flag. -/
theorem rehash_impl_frame {s t : OrderedHash α} {count : ℕ}
    (h : rehash_impl s count = .ok t) :
    t.m_values = s.m_values ∧ t.m_max_load_factor = s.m_max_load_factor ∧
      (t = s ∨ (t.m_grow_on_next_insert = false ∧
        t.m_buckets.length = round_up_to_power_of_two count ∧
        t.m_mask = round_up_to_power_of_two count - 1 ∧
        t.m_load_threshold =
          ratFloorMul (round_up_to_power_of_two count) s.m_max_load_factor)) := by
  rw [rehash_impl] at h
  by_cases hsame : round_up_to_power_of_two count = s.bucket_count
  · rw [if_pos hsame] at h
    obtain rfl : t = s := (OpResult.ok.inj h).symm
    exact ⟨rfl, rfl, Or.inl rfl⟩
  · rw [if_neg hsame] at h
    by_cases hbig : round_up_to_power_of_two count > s.max_bucket_count
    · rw [if_pos hbig] at h
      exact absurd h (by simp)
    · rw [if_neg hbig] at h
      simp only [] at h
      cases hfold : rehashFold s.m_buckets
          { max_load_factorOp
              { s with
                m_buckets := List.replicate (round_up_to_power_of_two count) BucketEntry.mk0,
                m_mask := round_up_to_power_of_two count - 1 } s.m_max_load_factor with
            m_grow_on_next_insert := false } with
      | none => rw [hfold] at h; exact absurd h (by simp)
      | some s3 =>
        rw [hfold] at h
        obtain rfl : t = s3 := (OpResult.ok.inj h).symm
        obtain ⟨a1, b1, c1, d1, e1, f1, g1⟩ := rehashFold_frame _ _ _ hfold
        refine ⟨a1, c1, Or.inr ⟨g1, ?_, b1, ?_⟩⟩
        · rw [f1]
          simp [max_load_factorOp, List.length_replicate]
        · rw [d1]
          simp [max_load_factorOp, bucket_count, List.length_replicate]

/-- `finishInsert` appends the value and reports its position whenever the
placement loop terminates. -/
theorem finishInsert_values {s t : OrderedHash α} {i d k : ℕ} {v : α}
    {hash pos : ℕ} {ins : Bool}
    (h : finishInsert s i d k v hash = .ok t pos ins) :
    t.m_values = s.m_values ++ [(k, v)] ∧ ins = true ∧ pos = s.m_values.length := by
  rw [finishInsert] at h
  cases hidx : insert_index { s with m_values := s.m_values ++ [(k, v)] } i d
      ((({ s with m_values := s.m_values ++ [(k, v)] } :
        OrderedHash α).m_values.length - 1) % 2 ^ 32) (truncate_hash hash) with
  | none => rw [hidx] at h; exact absurd h (by simp)
  | some s5 =>
    rw [hidx] at h
    obtain ⟨rfl, hpos, hins⟩ : s5 = t ∧ s5.m_values.length - 1 = pos ∧ true = ins :=
      ⟨(InsertResult.ok.inj h).1, (InsertResult.ok.inj h).2.1, (InsertResult.ok.inj h).2.2⟩
    have hv := (insert_indexLoop_frame true _ _ _ _ _ _ _ hidx).1
    simp only [] at hv
    refine ⟨hv, hins.symm, ?_⟩
    rw [← hpos, hv]
    simp

/-- Inserting an absent key appends the entry to the store and reports
`inserted = true` at the end position, whatever else the table looks like —
this is the order-preservation core of claim C1. -/
theorem insert_fresh_values {s t : OrderedHash α} {H : ℕ → ℕ} {k : ℕ} {v : α}
    {pos : ℕ} {ins : Bool} (hk : k ∉ s.m_values.map Prod.fst)
    (h : insertOp H s k v = .ok t pos ins) :
    t.m_values = s.m_values ++ [(k, v)] ∧ ins = true ∧ pos = s.m_values.length := by
  rw [insertOp, insert_impl] at h
  cases hpl : insertProbeLoop s k (H k) (s.bucket_for_hash (H k)) 0 (s.bucket_count + 1) with
  | none => rw [hpl] at h; exact absurd h (by simp)
  | some r =>
    rw [hpl] at h
    obtain ⟨pr, rfl⟩ := insertProbeLoop_fresh _ s k (H k) _ _ r hk hpl
    simp only [] at h
    by_cases hcap : s.size ≥ s.max_size
    · rw [if_pos hcap] at h
      exact absurd h (by simp)
    · rw [if_neg hcap] at h
      by_cases hgrow : s.m_grow_on_next_insert = true ∨ s.size ≥ s.m_load_threshold
      · rw [if_pos hgrow] at h
        cases hre : rehash_impl s (s.bucket_count * 2) with
        | lengthError => rw [hre] at h; exact absurd h (by simp)
        | diverged => rw [hre] at h; exact absurd h (by simp)
        | ok s2 =>
          rw [hre] at h
          have hfin := finishInsert_values h
          have hval : s2.m_values = s.m_values := (rehash_impl_frame hre).1
          refine ⟨?_, hfin.2.1, ?_⟩
          · rw [hfin.1]; simp only [hval]
          · rw [hfin.2.2]; simp only [hval]
      · rw [if_neg hgrow] at h
        exact finishInsert_values h

/-- A successful run of `insertSeq` with keys disjoint from the current store
and pairwise distinct appends exactly the given entries, in order. -/
theorem insertSeq_values {H : ℕ → ℕ} :
    ∀ (l : List (ℕ × α)) (s t : OrderedHash α),
      (s.m_values.map Prod.fst ++ l.map Prod.fst).Nodup →
      insertSeq H l s = some t → t.m_values = s.m_values ++ l
  | [], s, t => by
    intro _ h
    obtain rfl : s = t := Option.some.inj h
    simp [insertSeq]
  | kv :: rest, s, t => by
    intro hnd h
    rw [insertSeq] at h
    cases hins : insertOp H s kv.1 kv.2 with
    | capacityError => rw [hins] at h; exact absurd h (by simp)
    | lengthError => rw [hins] at h; exact absurd h (by simp)
    | diverged => rw [hins] at h; exact absurd h (by simp)
    | ok s2 p b =>
      rw [hins] at h
      simp only [] at h
      have hfresh : kv.1 ∉ s.m_values.map Prod.fst := by
        rw [List.nodup_append] at hnd
        intro hmem
        exact hnd.2.2 hmem (by simp)
      have hval : s2.m_values = s.m_values ++ [kv] := by
        have := (insert_fresh_values hfresh hins).1
        simpa using this
      have hnd2 : (s2.m_values.map Prod.fst ++ rest.map Prod.fst).Nodup := by
        rw [hval, List.map_append]
        have : (s.m_values.map Prod.fst ++ [kv].map Prod.fst) ++ rest.map Prod.fst =
            s.m_values.map Prod.fst ++ ((kv :: rest).map Prod.fst) := by
          rw [List.append_assoc]
          simp
        rw [this]
        exact hnd
      have := insertSeq_values rest s2 t hnd2 h
      rw [this, hval, List.append_assoc]
      simp

/-- The slot at a given circular distance is determined. -/
theorem circDist_resolve {a b N t : ℕ} (ha : a < N) (hb : b < N)
    (h : circDist a b N = t) : b = (a + t) % N := by
  rw [circDist_eq ha hb] at h
  split at h
  · rw [show a + t = b by omega, Nat.mod_eq_of_lt hb]
  · rw [show a + t = N + b by omega, Nat.add_mod_left, Nat.mod_eq_of_lt hb]

/-- Every member of `cellsM` sits at some bucket slot. -/
theorem mem_cellsM {s : OrderedHash α} {c : BucketEntry} (h : c ∈ cellsM s) :
    ∃ j, j < s.m_buckets.length ∧ s.bucketAt j = c ∧ c.empty = false := by
  unfold cellsM nonEmptyCells at h
  rw [Multiset.mem_coe] at h
  have h3 := List.mem_filter.mp h
  obtain ⟨j, hj, hget⟩ := List.getElem_of_mem h3.1
  refine ⟨j, hj, ?_, by simpa using h3.2⟩
  rw [bucketAt, List.getD_eq_getElem?_getD, List.getElem?_eq_getElem hj]
  simpa using hget

/-- A non-empty in-range slot contributes its cell to `cellsM`. -/
theorem cell_mem {s : OrderedHash α} {j : ℕ} (hj : j < s.m_buckets.length)
    (hne : (s.bucketAt j).empty = false) : s.bucketAt j ∈ cellsM s := by
  unfold cellsM nonEmptyCells
  rw [Multiset.mem_coe]
  apply List.mem_filter.mpr
  refine ⟨?_, by simpa using hne⟩
  rw [bucketAt, List.getD_eq_getElem?_getD, List.getElem?_eq_getElem hj]
  exact List.getElem_mem hj

/-- In-range slots as `get?` results. -/
theorem buckets_get? {s : OrderedHash α} {j : ℕ} (hj : j < s.m_buckets.length) :
    s.m_buckets.get? j = some (s.bucketAt j) := by
  rw [bucketAt, List.getD_eq_getElem?_getD, List.get?_eq_getElem?,
    List.getElem?_eq_getElem hj]
  rfl

/-- Under `positionsExact` the number of occupied buckets is the store size. -/
theorem cellsM_card {s : OrderedHash α} (hp : positionsExact s) :
    Multiset.card (cellsM s) = s.m_values.length := by
  rw [positionsExact_iff] at hp
  have := congrArg Multiset.card hp
  simpa using this

/-- A bucket array with fewer occupied cells than slots has an empty slot. -/
theorem exists_empty_of_spare {s : OrderedHash α}
    (h : Multiset.card (cellsM s) < s.m_buckets.length) :
    ∃ e, e < s.m_buckets.length ∧ (s.bucketAt e).empty = true := by
  by_contra hcon
  push_neg at hcon
  have hall : ∀ b ∈ s.m_buckets, b.empty = false := by
    intro b hb
    obtain ⟨i, hi, hget⟩ := List.getElem_of_mem hb
    have hcon2 := hcon i hi
    have hbat : s.bucketAt i = b := by
      rw [bucketAt, List.getD_eq_getElem?_getD, List.getElem?_eq_getElem hi]
      simpa using hget
    rw [hbat] at hcon2
    cases hbe : b.empty
    · rfl
    · exact absurd hbe hcon2
  have hfil : s.nonEmptyCells = s.m_buckets := by
    unfold nonEmptyCells
    rw [List.filter_eq_self]
    intro a ha
    simpa using hall a ha
  have hcard : Multiset.card (cellsM s) = s.nonEmptyCells.length := by
    unfold cellsM
    simp
  rw [hcard, hfil] at h
  omega

/-- With an empty slot somewhere, `robinHoodSupport` bounds every probe
distance by `bucket_count - 2`. -/
theorem dist_le_sub2 {s : OrderedHash α} (g : Geom s) (hs : robinHoodSupport s)
    {E : ℕ} (hE : E < s.m_buckets.length) (hEe : (s.bucketAt E).empty = true)
    {j : ℕ} (hj : j < s.m_buckets.length) (hne : (s.bucketAt j).empty = false) :
    s.dist_from_initial_bucket j ≤ s.m_buckets.length - 2 := by
  have hDN : s.dist_from_initial_bucket j < s.m_buckets.length := dist_lt g hj
  by_contra hcon
  have haN : cellInit s j < s.m_buckets.length := bfh_lt g _
  have hcd : circDist (cellInit s j) E s.m_buckets.length <
      s.m_buckets.length := circDist_lt haN hE
  have ht := support_chain g hs hj hne (circDist (cellInit s j) E s.m_buckets.length)
    (by omega)
  have hEeq : (cellInit s j + circDist (cellInit s j) E s.m_buckets.length) %
      s.m_buckets.length = E :=
    (circDist_resolve haN hE rfl).symm
  rw [hEeq] at ht
  rw [ht.1] at hEe
  exact Bool.false_ne_true hEe

/-- Two positions sharing a `countP`-satisfying element force a count of two. -/
theorem two_le_countP {X : Type} (q : X → Bool) (l : List X) {i j : ℕ} {x y : X}
    (hij : i < j) (hi : l.get? i = some x) (hj : l.get? j = some y)
    (hqx : q x = true) (hqy : q y = true) : 2 ≤ l.countP q := by
  have hjl : j < l.length := (List.get?_eq_some.mp hj).1
  have hsplit : l.countP q = (l.take j).countP q + (l.drop j).countP q := by
    rw [← List.countP_append, List.take_append_drop]
  have hx : x ∈ l.take j := by
    apply List.get?_mem (n := i)
    rw [List.get?_take hij]
    exact hi
  have h1 : 0 < (l.take j).countP q := List.countP_pos.mpr ⟨x, hx, hqx⟩
  have hdrop : l.drop j = y :: l.drop (j + 1) := by
    rw [List.drop_eq_getElem_cons hjl]
    congr 1
    have := hj
    rw [List.get?_eq_getElem?, List.getElem?_eq_getElem hjl] at this
    exact (Option.some.inj this)
  have h2 : 0 < (l.drop j).countP q := by
    rw [hdrop, List.countP_cons, hqy]
    simp
  rw [hsplit]
  omega

/-- Under `positionsExact` the occupied buckets carry pairwise-distinct
positions: the slot holding a given position is unique. -/
theorem bucket_index_unique {s : OrderedHash α} (hp : positionsExact s)
    {j1 j2 : ℕ} (h1 : j1 < s.m_buckets.length) (h2 : j2 < s.m_buckets.length)
    (hne1 : (s.bucketAt j1).empty = false) (hne2 : (s.bucketAt j2).empty = false)
    (hidx : (s.bucketAt j1).m_index = (s.bucketAt j2).m_index) : j1 = j2 := by
  set p := (s.bucketAt j1).m_index with hpdef
  have hcount : (s.nonEmptyCells.map BucketEntry.m_index).count p =
      (List.range s.m_values.length).count p := by
    unfold positionsExact at hp
    have := congrArg (Multiset.count p) hp
    simpa using this
  have hle1 : (List.range s.m_values.length).count p ≤ 1 :=
    List.nodup_iff_count_le_one.mp (List.nodup_range _) p
  have hcp : (s.nonEmptyCells.map BucketEntry.m_index).count p =
      s.m_buckets.countP (fun b => (b.m_index == p) && decide (b.empty = false)) := by
    unfold nonEmptyCells
    rw [List.count, List.countP_map, List.countP_filter]
    rfl
  by_contra hne
  have hq : ∀ jj, (s.bucketAt jj).empty = false →
      (s.bucketAt jj).m_index = p →
      (((s.bucketAt jj).m_index == p) && decide ((s.bucketAt jj).empty = false)) = true := by
    intro jj hne' hidx'
    simp [hidx', hne']
  rcases Nat.lt_or_ge j1 j2 with hlt | hge
  · have := two_le_countP (fun b => (b.m_index == p) && decide (b.empty = false))
      s.m_buckets hlt (buckets_get? h1) (buckets_get? h2)
      (hq j1 hne1 rfl) (hq j2 hne2 hidx.symm)
    omega
  · have hlt2 : j2 < j1 := by omega
    have := two_le_countP (fun b => (b.m_index == p) && decide (b.empty = false))
      s.m_buckets hlt2 (buckets_get? h2) (buckets_get? h1)
      (hq j2 hne2 hidx.symm) (hq j1 hne1 rfl)
    omega

/-- Under `positionsExact` every store position is carried by some occupied
bucket. -/
theorem exists_bucket_for_pos {s : OrderedHash α} (hp : positionsExact s) {p : ℕ}
    (hpn : p < s.m_values.length) :
    ∃ j, j < s.m_buckets.length ∧ (s.bucketAt j).empty = false ∧
      (s.bucketAt j).m_index = p := by
  have hmem : p ∈ Multiset.map BucketEntry.m_index (cellsM s) := by
    rw [(positionsExact_iff s).mp hp]
    exact Multiset.mem_range.mpr hpn
  obtain ⟨c, hc, hcp⟩ := Multiset.mem_map.mp hmem
  obtain ⟨j, hj, hbc, hcne⟩ := mem_cellsM hc
  exact ⟨j, hj, by rw [hbc]; exact hcne, by rw [hbc, hcp]⟩

/-- A literal cell with an in-range index is non-empty. -/
theorem nonempty_mk {idx hsh : ℕ} (h : idx < 2 ^ 32 - 1) :
    (⟨idx, hsh⟩ : BucketEntry).empty = false := by
  have hne : idx ≠ EMPTY_MARKER_INDEX := by unfold EMPTY_MARKER_INDEX; omega
  unfold BucketEntry.empty
  exact decide_eq_false hne

/-- Probe distance of a freshly written cell. -/
theorem dist_setBucket_self {s : OrderedHash α} (g : Geom s) {i : ℕ}
    (hi : i < s.m_buckets.length) (c : BucketEntry) :
    (setBucket s i c).dist_from_initial_bucket i =
      circDist (s.bucket_for_hash c.m_hash) i s.m_buckets.length := by
  have hg2 : Geom (setBucket s i c) := geom_setBucket g i c
  rw [dist_eq_circDist hg2 (by simpa using hi)]
  unfold cellInit
  rw [bucketAt_setBucket_self hi, bfh_setBucket, setBucket_length]

/-! Congruence of the derived accessors in the bucket array and mask: two
states sharing `m_buckets` and `m_mask` (such as a state and its copy with
the deferred-grow flag toggled) agree on every bucket-level notion. -/

theorem bucketAt_congr {s t : OrderedHash α} (hb : t.m_buckets = s.m_buckets)
    (j : ℕ) : t.bucketAt j = s.bucketAt j := by
  unfold bucketAt; rw [hb]

theorem bfh_congr {s t : OrderedHash α} (hm : t.m_mask = s.m_mask) (x : ℕ) :
    t.bucket_for_hash x = s.bucket_for_hash x := by
  unfold bucket_for_hash; rw [hm]

theorem next_congr {s t : OrderedHash α} (hb : t.m_buckets = s.m_buckets)
    (j : ℕ) : t.next_bucket j = s.next_bucket j := by
  unfold next_bucket; rw [hb]

theorem prev_congr {s t : OrderedHash α} (hb : t.m_buckets = s.m_buckets)
    (j : ℕ) : t.prevBucket j = s.prevBucket j := by
  unfold prevBucket bucket_count; rw [hb]

theorem dist_congr {s t : OrderedHash α} (hb : t.m_buckets = s.m_buckets)
    (hm : t.m_mask = s.m_mask) (j : ℕ) :
    t.dist_from_initial_bucket j = s.dist_from_initial_bucket j := by
  unfold dist_from_initial_bucket bucket_count
  rw [bucketAt_congr hb, bfh_congr hm, hb]

theorem cellsM_congr {s t : OrderedHash α} (hb : t.m_buckets = s.m_buckets) :
    cellsM t = cellsM s := by
  unfold cellsM nonEmptyCells; rw [hb]

theorem geom_congr {s t : OrderedHash α} (hb : t.m_buckets = s.m_buckets)
    (hm : t.m_mask = s.m_mask) (g : Geom s) : Geom t :=
  ⟨by rw [hb]; exact g.pow2, by rw [hm, hb]; exact g.maskEq, by rw [hb]; exact g.countLe⟩

theorem support_congr {s t : OrderedHash α} (hb : t.m_buckets = s.m_buckets)
    (hm : t.m_mask = s.m_mask) : robinHoodSupport t ↔ robinHoodSupport s := by
  unfold robinHoodSupport bucket_count
  simp only [bucketAt_congr hb, dist_congr hb hm, prev_congr hb, hb]

/-- Robin Hood placement: with an empty slot `E` in range to bound the walk,
cells and hashes 32-bit clean, the carried distance exact, the support
invariant everywhere and the arrival bound at the current slot, the
placement loop terminates, adds exactly the carried cell to the bucket
multiset, and preserves the support invariant. -/
theorem insert_indexLoop_spec (w : Bool) :
    ∀ (fuel : ℕ) (s : OrderedHash α) (i d idx hsh E : ℕ),
      Geom s → i < s.m_buckets.length →
      E < s.m_buckets.length → (s.bucketAt E).empty = true →
      circDist i E s.m_buckets.length < fuel →
      idx < 2 ^ 32 - 1 → hsh < 2 ^ 32 →
      d = circDist (s.bucket_for_hash hsh) i s.m_buckets.length →
      (∀ j, j < s.m_buckets.length → (s.bucketAt j).empty = false →
        (s.bucketAt j).m_index < 2 ^ 32 - 1 ∧ (s.bucketAt j).m_hash < 2 ^ 32) →
      robinHoodSupport s →
      (0 < d → (s.bucketAt (s.prevBucket i)).empty = false ∧
        d ≤ s.dist_from_initial_bucket (s.prevBucket i) + 1) →
      ∃ t, insert_indexLoop w s i d idx hsh fuel = some t ∧
        cellsM t = cellsM s + {⟨idx, hsh⟩} ∧ robinHoodSupport t
  | 0, s, i, d, idx, hsh, E => by
    intro _ _ _ _ hbud _ _ _ _ _ _
    omega
  | fuel + 1, s, i, d, idx, hsh, E => by
    intro hg hi hE hEe hbud hidx hhsh hd hrange hsupp harr
    have hN : 0 < s.m_buckets.length := by omega
    rw [insert_indexLoop]
    by_cases hocc : ¬(s.bucketAt i).empty = true
    · rw [if_pos hocc]
      simp only []
      have hbne : (s.bucketAt i).empty = false := by
        cases hx : (s.bucketAt i).empty
        · rfl
        · exact absurd hx hocc
      have hiE : i ≠ E := by
        intro h
        rw [h, hEe] at hbne
        exact Bool.true_eq_false.mp hbne
      have hEi : E ≠ i := fun h => hiE h.symm
      have hN2 : 2 ≤ s.m_buckets.length := by
        by_contra hcon
        exact hiE (by omega)
      have hbud2 : circDist (s.next_bucket i) E s.m_buckets.length < fuel := by
        rw [circDist_next_left hi hE hiE]
        have hpos := circDist_pos_of_ne hi hE hiE
        omega
      have hdistb : s.dist_from_initial_bucket i ≤ s.m_buckets.length - 2 :=
        dist_le_sub2 hg hsupp hE hEe hi hbne
      have hdlt : d < s.m_buckets.length := by
        rw [hd]; exact circDist_lt (bfh_lt hg hsh) hi
      obtain ⟨hbidx, hbhsh⟩ := hrange i hi hbne
      have hnext_lt : s.next_bucket i < s.m_buckets.length := next_lt hN i
      have hprev_next : s.prevBucket (s.next_bucket i) = i := prev_next hN hi
      have hnexti : s.next_bucket i = (i + 1) % s.m_buckets.length := next_eq_mod hN hi
      have hci : s.dist_from_initial_bucket i =
          circDist (s.bucket_for_hash (s.bucketAt i).m_hash) i s.m_buckets.length := by
        have h0 := dist_eq_circDist hg hi
        unfold cellInit at h0
        exact h0
      by_cases hswap : d > s.dist_from_initial_bucket i
      · simp only [if_pos hswap]
        set c := (⟨idx, hsh⟩ : BucketEntry) with hc
        set s1 := setBucket s i c with hs1
        have hg1 : Geom s1 := geom_setBucket hg i c
        have hs1len : s1.m_buckets.length = s.m_buckets.length := by rw [hs1]; simp
        have hs1mask : s1.m_mask = s.m_mask := by rw [hs1]; simp
        have hb1i : s1.bucketAt i = c := by rw [hs1]; exact bucketAt_setBucket_self hi c
        have hb1ne : ∀ j, j ≠ i → s1.bucketAt j = s.bucketAt j := fun j hj => by
          rw [hs1]; exact bucketAt_setBucket_ne hj c
        have hd1i : s1.dist_from_initial_bucket i = d := by
          rw [hs1, dist_setBucket_self hg hi c]
          exact hd.symm
        have hd1ne : ∀ j, j ≠ i →
            s1.dist_from_initial_bucket j = s.dist_from_initial_bucket j := fun j hj => by
          rw [hs1]; exact dist_setBucket_ne hj c
        have hprev1 : ∀ j, s1.prevBucket j = s.prevBucket j := fun j => by
          rw [hs1]; exact prevBucket_setBucket s i c j
        have hcne : c.empty = false := nonempty_mk hidx
        have hsupp1 : robinHoodSupport s1 := by
          intro j hj hne hpos
          unfold bucket_count at hj
          rw [hs1len] at hj
          by_cases hji : j = i
          · subst hji
            rw [hd1i] at hpos ⊢
            obtain ⟨ha1, ha2⟩ := harr hpos
            have hpne : s.prevBucket j ≠ j := prev_ne_self hN2 hj
            rw [hprev1, hb1ne _ hpne, hd1ne _ hpne]
            exact ⟨ha1, ha2⟩
          · rw [hb1ne _ hji] at hne
            rw [hd1ne _ hji] at hpos
            have hsj := hsupp j hj hne hpos
            by_cases hpj : s.prevBucket j = i
            · rw [hpj] at hsj
              rw [hprev1, hpj, hb1i, hd1i, hd1ne _ hji]
              refine ⟨hcne, ?_⟩
              have h2 := hsj.2
              omega
            · rw [hprev1, hb1ne _ hpj, hd1ne _ hji, hd1ne _ hpj]
              exact hsj
        have hpack : ∃ s2,
            (if (w = true ∧ s.dist_from_initial_bucket i + 1 >
                REHASH_ON_HIGH_NB_PROBES__NPROBES ∧
                s1.size ≥ s1.m_min_load_factor_rehash_threshold) then
              { s1 with m_grow_on_next_insert := true } else s1) = s2 ∧
            s2.m_buckets = s1.m_buckets ∧ s2.m_mask = s1.m_mask := by
          by_cases hcnd : w = true ∧ s.dist_from_initial_bucket i + 1 >
              REHASH_ON_HIGH_NB_PROBES__NPROBES ∧
              s1.size ≥ s1.m_min_load_factor_rehash_threshold
          · exact ⟨_, if_pos hcnd, rfl, rfl⟩
          · exact ⟨s1, if_neg hcnd, rfl, rfl⟩
        obtain ⟨s2, hs2eq, hs2b, hs2m⟩ := hpack
        rw [hs2eq]
        have hn1 : s1.next_bucket i = s.next_bucket i := by
          rw [hs1]; exact next_bucket_setBucket s i c i
        rw [hn1]
        have hs2len : s2.m_buckets.length = s.m_buckets.length := by rw [hs2b, hs1len]
        have hb2 : ∀ j, s2.bucketAt j = s1.bucketAt j := bucketAt_congr hs2b
        have hd2 : ∀ j, s2.dist_from_initial_bucket j = s1.dist_from_initial_bucket j :=
          dist_congr hs2b hs2m
        have hdx : s.dist_from_initial_bucket i + 1 =
            circDist (s2.bucket_for_hash (s.bucketAt i).m_hash) (s.next_bucket i)
              s2.m_buckets.length := by
          rw [bfh_congr hs2m, hs1, bfh_setBucket, hs2b, hs1len, hnexti]
          rw [circDist_succ (bfh_lt hg _) hi (by rw [← hci]; omega), ← hci]
        obtain ⟨t, hre, hcellst, hsuppt⟩ := insert_indexLoop_spec w fuel s2
          (s.next_bucket i) (s.dist_from_initial_bucket i + 1)
          (s.bucketAt i).m_index (s.bucketAt i).m_hash E
          (geom_congr hs2b hs2m hg1)
          (by rw [hs2len]; exact hnext_lt)
          (by rw [hs2len]; exact hE)
          (by rw [hb2, hb1ne E hEi]; exact hEe)
          (by rw [hs2len]; exact hbud2)
          hbidx hbhsh hdx
          (by
            intro j hj hne
            rw [hs2len] at hj
            rw [hb2] at hne ⊢
            by_cases hji : j = i
            · subst hji
              rw [hb1i, hc]
              exact ⟨hidx, hhsh⟩
            · rw [hb1ne _ hji] at hne ⊢
              exact hrange j hj hne)
          ((support_congr hs2b hs2m).mpr hsupp1)
          (by
            intro _
            rw [prev_congr hs2b, hprev1, hprev_next, hb2, hd2, hb1i, hd1i]
            exact ⟨hcne, by omega⟩)
        refine ⟨t, hre, ?_, hsuppt⟩
        have hbeta : (⟨(s.bucketAt i).m_index, (s.bucketAt i).m_hash⟩ : BucketEntry) =
            s.bucketAt i := rfl
        rw [hcellst, hbeta, cellsM_congr hs2b]
        have hstep := cellsM_set hi c
        rw [if_pos hbne, if_pos hcne] at hstep
        rw [← hs1] at hstep
        exact hstep
      · simp only [if_neg hswap]
        have hdled : d ≤ s.dist_from_initial_bucket i := by omega
        have hpack : ∃ s2,
            (if (w = true ∧ d + 1 > REHASH_ON_HIGH_NB_PROBES__NPROBES ∧
                s.size ≥ s.m_min_load_factor_rehash_threshold) then
              { s with m_grow_on_next_insert := true } else s) = s2 ∧
            s2.m_buckets = s.m_buckets ∧ s2.m_mask = s.m_mask := by
          by_cases hcnd : w = true ∧ d + 1 > REHASH_ON_HIGH_NB_PROBES__NPROBES ∧
              s.size ≥ s.m_min_load_factor_rehash_threshold
          · exact ⟨_, if_pos hcnd, rfl, rfl⟩
          · exact ⟨s, if_neg hcnd, rfl, rfl⟩
        obtain ⟨s2, hs2eq, hs2b, hs2m⟩ := hpack
        rw [hs2eq]
        have hs2len : s2.m_buckets.length = s.m_buckets.length := by rw [hs2b]
        have hb2 : ∀ j, s2.bucketAt j = s.bucketAt j := bucketAt_congr hs2b
        have hd2 : ∀ j, s2.dist_from_initial_bucket j = s.dist_from_initial_bucket j :=
          dist_congr hs2b hs2m
        have hdx : d + 1 =
            circDist (s2.bucket_for_hash hsh) (s.next_bucket i) s2.m_buckets.length := by
          rw [bfh_congr hs2m, hs2b, hnexti]
          rw [circDist_succ (bfh_lt hg _) hi (by rw [← hd]; omega), ← hd]
        obtain ⟨t, hre, hcellst, hsuppt⟩ := insert_indexLoop_spec w fuel s2
          (s.next_bucket i) (d + 1) idx hsh E
          (geom_congr hs2b hs2m hg)
          (by rw [hs2len]; exact hnext_lt)
          (by rw [hs2len]; exact hE)
          (by rw [hb2]; exact hEe)
          (by rw [hs2len]; exact hbud2)
          hidx hhsh hdx
          (by
            intro j hj hne
            rw [hs2len] at hj
            rw [hb2] at hne ⊢
            exact hrange j hj hne)
          ((support_congr hs2b hs2m).mpr hsupp)
          (by
            intro _
            rw [prev_congr hs2b, hprev_next, hb2, hd2]
            exact ⟨hbne, by omega⟩)
        refine ⟨t, hre, ?_, hsuppt⟩
        rw [hcellst, cellsM_congr hs2b]
    · rw [if_neg hocc]
      have hocc2 : (s.bucketAt i).empty = true := by
        cases hx : (s.bucketAt i).empty
        · exact absurd (by rw [hx]; exact Bool.false_ne_true) hocc
        · rfl
      have hcell : ((s.bucketAt i).set_index idx).set_hash hsh =
          (⟨idx, hsh⟩ : BucketEntry) := by
        unfold BucketEntry.set_index BucketEntry.set_hash truncate_hash
        have h1 : idx % 2 ^ 32 = idx := Nat.mod_eq_of_lt (by omega)
        have h2 : hsh % 2 ^ 32 = hsh := Nat.mod_eq_of_lt hhsh
        rw [h1, h2]
      rw [hcell]
      refine ⟨setBucket s i ⟨idx, hsh⟩, rfl, ?_, ?_⟩
      · have hstep := cellsM_set hi (⟨idx, hsh⟩ : BucketEntry)
        rw [if_neg (show ¬((s.bucketAt i).empty = false) by rw [hocc2]; simp),
          if_pos (nonempty_mk hidx)] at hstep
        simpa using hstep
      · intro j hj hne hpos
        unfold bucket_count at hj
        rw [setBucket_length] at hj
        by_cases hji : j = i
        · subst hji
          have hds : (setBucket s j (⟨idx, hsh⟩ : BucketEntry)).dist_from_initial_bucket j =
              circDist (s.bucket_for_hash hsh) j s.m_buckets.length :=
            dist_setBucket_self hg hj ⟨idx, hsh⟩
          rw [hds, ← hd] at hpos
          obtain ⟨ha1, ha2⟩ := harr hpos
          have hN2 : 2 ≤ s.m_buckets.length := by
            by_contra hcon
            have hj0 : j = 0 := by omega
            have hb0 : s.bucket_for_hash hsh = 0 := by
              have := bfh_lt hg hsh
              omega
            rw [hd, hj0, hb0, circDist_self (by omega)] at hpos
            omega
          have hpne : s.prevBucket j ≠ j := prev_ne_self hN2 hj
          rw [prevBucket_setBucket, bucketAt_setBucket_ne hpne, dist_setBucket_ne hpne,
            hds, ← hd]
          exact ⟨ha1, ha2⟩
        · rw [bucketAt_setBucket_ne hji] at hne
          rw [dist_setBucket_ne hji] at hpos
          have hsj := hsupp j hj hne hpos
          by_cases hpj : s.prevBucket j = i
          · rw [hpj] at hsj
            rw [hocc2] at hsj
            exact absurd hsj.1 (by simp)
          · rw [prevBucket_setBucket, bucketAt_setBucket_ne hpj, dist_setBucket_ne hji,
              dist_setBucket_ne hpj]
            exact hsj

/-- Distinct store positions hold distinct keys under key-nodup. -/
theorem nodup_pos_eq {l : List (ℕ × α)} (hnd : (l.map Prod.fst).Nodup) {q1 q2 : ℕ}
    {kv1 kv2 : ℕ × α} (h1 : l.get? q1 = some kv1) (h2 : l.get? q2 = some kv2)
    (hk : kv1.1 = kv2.1) : q1 = q2 := by
  have hm1 : (l.map Prod.fst).get? q1 = some kv1.1 := by
    rw [List.get?_map, h1]; rfl
  have hm2 : (l.map Prod.fst).get? q2 = some kv2.1 := by
    rw [List.get?_map, h2]; rfl
  have hq1 : q1 < (l.map Prod.fst).length := by
    rw [List.length_map]
    exact (List.get?_eq_some.mp h1).1
  exact List.get?_inj hq1 hnd (by rw [hm1, hm2, hk])

/-- The search loop of `find_key` cannot answer for an absent key. -/
theorem find_keyLoop_none {s : OrderedHash α} {k : ℕ}
    (hk : k ∉ s.m_values.map Prod.fst) (hash : ℕ) :
    ∀ (fuel i dist : ℕ), find_keyLoop s k hash i dist fuel = none
  | 0, i, dist => by rw [find_keyLoop]
  | fuel + 1, i, dist => by
    rw [find_keyLoop]
    by_cases h1 : (s.bucketAt i).empty = true
    · rw [if_pos h1]
    · rw [if_neg h1,
        if_neg (by rw [matchesAt_fresh hk]; exact Bool.false_ne_true)]
      by_cases h3 : dist > s.dist_from_initial_bucket i
      · rw [if_pos h3]
      · rw [if_neg h3]
        exact find_keyLoop_none hk hash fuel _ _

/-- An in-range bucket cell is a member of the bucket list. -/
theorem bucketAt_mem {s : OrderedHash α} {j : ℕ} (hj : j < s.m_buckets.length) :
    s.bucketAt j ∈ s.m_buckets := by
  rw [bucketAt, List.getD_eq_getElem?_getD, List.getElem?_eq_getElem hj]
  simpa using List.getElem_mem hj

/-- The stored key at the position an occupied bucket indexes. -/
theorem keyAt_of_get {s : OrderedHash α} {p : ℕ} {k : ℕ} {v : α}
    (h : s.m_values.get? p = some (k, v)) : s.keyAt p = some k := by
  unfold keyAt
  rw [h]
  rfl

/-- Walking from the initial bucket of a stored key, the `find_key` loop
reaches the unique bucket carrying that key's position.  `t` is the current
probe distance, matching the loop's running counter. -/
theorem find_keyLoop_finds {H : ℕ → ℕ} {s : OrderedHash α} (w : WF H s)
    {p k : ℕ} {v : α} (hkv : s.m_values.get? p = some (k, v))
    {j : ℕ} (hj : j < s.m_buckets.length) (hjne : (s.bucketAt j).empty = false)
    (hjp : (s.bucketAt j).m_index = p) :
    ∀ (fuel t i : ℕ),
      i = (s.bucket_for_hash (H k) + t) % s.m_buckets.length →
      t ≤ s.dist_from_initial_bucket j →
      s.dist_from_initial_bucket j - t < fuel →
      find_keyLoop s k (H k) i t fuel = some j
  | 0, t, i => by
    intro _ _ hfuel
    omega
  | fuel + 1, t, i => by
    intro hieq htD hfuel
    have hN : 0 < s.m_buckets.length := w.geom.countPos
    have hinit : s.bucket_for_hash (H k) < s.m_buckets.length := bfh_lt w.geom _
    have hhash : (s.bucketAt j).m_hash = truncate_hash (H k) := by
      have hok := w.store (s.bucketAt j) (bucketAt_mem hj) hjne
      obtain ⟨kv, hkv2, hh⟩ := cellOK_iff.mp hok
      rw [hjp, hkv] at hkv2
      obtain rfl := Option.some.inj hkv2
      exact hh
    have hinitj : cellInit s j = s.bucket_for_hash (H k) := by
      unfold cellInit
      rw [hhash, bfh_truncate w.geom]
    have hchain := support_chain w.geom w.support hj hjne t htD
    rw [hinitj] at hchain
    rw [← hieq] at hchain
    have hiN : i < s.m_buckets.length := by rw [hieq]; exact Nat.mod_lt _ hN
    have hjD : j = (s.bucket_for_hash (H k) +
        s.dist_from_initial_bucket j) % s.m_buckets.length := by
      have h0 := dist_eq_circDist w.geom hj
      rw [hinitj] at h0
      exact circDist_resolve hinit hj h0.symm
    rw [find_keyLoop]
    rw [if_neg (by rw [hchain.1]; exact Bool.false_ne_true)]
    by_cases htD2 : t = s.dist_from_initial_bucket j
    · have hij : i = j := by rw [hieq, htD2]; exact hjD.symm
      subst hij
      rw [if_pos (by
        unfold matchesAt
        apply decide_eq_true
        exact ⟨hhash, by rw [hjp]; exact keyAt_of_get hkv⟩)]
    · have htlt : t < s.dist_from_initial_bucket j := by omega
      have hDN : s.dist_from_initial_bucket j < s.m_buckets.length := dist_lt w.geom hj
      have hij : i ≠ j := by
        intro h
        have h1 : circDist (s.bucket_for_hash (H k)) i s.m_buckets.length = t := by
          rw [hieq]
          exact circDist_add hinit (by omega)
        have h2 := dist_eq_circDist w.geom hj
        rw [hinitj] at h2
        rw [h] at h1
        omega
      have hmatch : s.matchesAt k (H k) i = false := by
        unfold matchesAt
        apply decide_eq_false
        rintro ⟨-, hkey⟩
        unfold keyAt at hkey
        cases hq : s.m_values.get? (s.bucketAt i).m_index with
        | none => rw [hq] at hkey; exact absurd hkey (by simp)
        | some kv2 =>
          rw [hq] at hkey
          have hk2 : kv2.1 = k := by simpa using hkey
          have hidx : (s.bucketAt i).m_index = p :=
            nodup_pos_eq w.nodup hq hkv (by rw [hk2])
          exact hij (bucket_index_unique w.pos hiN hj hchain.1 hjne (by rw [hidx, hjp]))
      rw [if_neg (by rw [hmatch]; exact Bool.false_ne_true)]
      rw [if_neg (by omega)]
      have hnext : s.next_bucket i =
          (s.bucket_for_hash (H k) + (t + 1)) % s.m_buckets.length := by
        rw [next_eq_mod hN hiN, hieq, Nat.mod_add_mod, Nat.add_assoc]
      rw [hnext]
      exact find_keyLoop_finds w hkv hj hjne hjp fuel (t + 1) _ rfl (by omega) (by omega)

/-- `find_key` on a well-formed table: a stored key is found at the unique
bucket carrying its position. -/
theorem find_key_finds {H : ℕ → ℕ} {s : OrderedHash α} (w : WF H s)
    {p k : ℕ} {v : α} (hkv : s.m_values.get? p = some (k, v)) :
    ∃ j, find_key s k (H k) = some j ∧ j < s.m_buckets.length ∧
      (s.bucketAt j).empty = false ∧ (s.bucketAt j).m_index = p := by
  have hN : 0 < s.m_buckets.length := w.geom.countPos
  have hpn : p < s.m_values.length := (List.get?_eq_some.mp hkv).1
  obtain ⟨j, hj, hjne, hjp⟩ := exists_bucket_for_pos w.pos hpn
  refine ⟨j, ?_, hj, hjne, hjp⟩
  unfold find_key
  have hD := dist_lt w.geom hj
  exact find_keyLoop_finds w hkv hj hjne hjp (s.bucket_count + 1) 0
    (s.bucket_for_hash (H k))
    (by rw [Nat.add_zero, Nat.mod_eq_of_lt (bfh_lt w.geom _)])
    (by omega) (by unfold bucket_count; omega)

/-- `find_key` misses absent keys. -/
theorem find_key_none {s : OrderedHash α} {k : ℕ}
    (hk : k ∉ s.m_values.map Prod.fst) (hash : ℕ) :
    find_key s k hash = none :=
  find_keyLoop_none hk hash _ _ _

/-- The insert probe loop reports an existing key's position. -/
theorem insertProbeLoop_finds {H : ℕ → ℕ} {s : OrderedHash α} (w : WF H s)
    {p k : ℕ} {v : α} (hkv : s.m_values.get? p = some (k, v))
    {j : ℕ} (hj : j < s.m_buckets.length) (hjne : (s.bucketAt j).empty = false)
    (hjp : (s.bucketAt j).m_index = p) :
    ∀ (fuel t i : ℕ),
      i = (s.bucket_for_hash (H k) + t) % s.m_buckets.length →
      t ≤ s.dist_from_initial_bucket j →
      s.dist_from_initial_bucket j - t < fuel →
      insertProbeLoop s k (H k) i t fuel = some (Sum.inl p)
  | 0, t, i => by
    intro _ _ hfuel
    omega
  | fuel + 1, t, i => by
    intro hieq htD hfuel
    have hN : 0 < s.m_buckets.length := w.geom.countPos
    have hinit : s.bucket_for_hash (H k) < s.m_buckets.length := bfh_lt w.geom _
    have hhash : (s.bucketAt j).m_hash = truncate_hash (H k) := by
      have hok := w.store (s.bucketAt j) (bucketAt_mem hj) hjne
      obtain ⟨kv, hkv2, hh⟩ := cellOK_iff.mp hok
      rw [hjp, hkv] at hkv2
      obtain rfl := Option.some.inj hkv2
      exact hh
    have hinitj : cellInit s j = s.bucket_for_hash (H k) := by
      unfold cellInit
      rw [hhash, bfh_truncate w.geom]
    have hchain := support_chain w.geom w.support hj hjne t htD
    rw [hinitj] at hchain
    rw [← hieq] at hchain
    have hiN : i < s.m_buckets.length := by rw [hieq]; exact Nat.mod_lt _ hN
    have hjD : j = (s.bucket_for_hash (H k) +
        s.dist_from_initial_bucket j) % s.m_buckets.length := by
      have h0 := dist_eq_circDist w.geom hj
      rw [hinitj] at h0
      exact circDist_resolve hinit hj h0.symm
    rw [insertProbeLoop]
    rw [if_pos (⟨by rw [hchain.1]; exact Bool.false_ne_true, hchain.2⟩ :
      ¬(s.bucketAt i).empty = true ∧ t ≤ s.dist_from_initial_bucket i)]
    by_cases htD2 : t = s.dist_from_initial_bucket j
    · have hij : i = j := by rw [hieq, htD2]; exact hjD.symm
      subst hij
      rw [if_pos (by
        unfold matchesAt
        apply decide_eq_true
        exact ⟨hhash, by rw [hjp]; exact keyAt_of_get hkv⟩)]
      rw [hjp]
    · have htlt : t < s.dist_from_initial_bucket j := by omega
      have hDN : s.dist_from_initial_bucket j < s.m_buckets.length := dist_lt w.geom hj
      have hij : i ≠ j := by
        intro h
        have h1 : circDist (s.bucket_for_hash (H k)) i s.m_buckets.length = t := by
          rw [hieq]
          exact circDist_add hinit (by omega)
        have h2 := dist_eq_circDist w.geom hj
        rw [hinitj] at h2
        rw [h] at h1
        omega
      have hmatch : s.matchesAt k (H k) i = false := by
        unfold matchesAt
        apply decide_eq_false
        rintro ⟨-, hkey⟩
        unfold keyAt at hkey
        cases hq : s.m_values.get? (s.bucketAt i).m_index with
        | none => rw [hq] at hkey; exact absurd hkey (by simp)
        | some kv2 =>
          rw [hq] at hkey
          have hk2 : kv2.1 = k := by simpa using hkey
          have hidx : (s.bucketAt i).m_index = p :=
            nodup_pos_eq w.nodup hq hkv (by rw [hk2])
          exact hij (bucket_index_unique w.pos hiN hj hchain.1 hjne (by rw [hidx, hjp]))
      rw [if_neg (by rw [hmatch]; exact Bool.false_ne_true)]
      have hnext : s.next_bucket i =
          (s.bucket_for_hash (H k) + (t + 1)) % s.m_buckets.length := by
        rw [next_eq_mod hN hiN, hieq, Nat.mod_add_mod, Nat.add_assoc]
      rw [hnext]
      exact insertProbeLoop_finds w hkv hj hjne hjp fuel (t + 1) _ rfl (by omega) (by omega)

/-- The insert probe loop on a fresh key terminates at a spot satisfying the
arrival conditions of the placement loop. -/
theorem insertProbeLoop_fresh_exits {s : OrderedHash α} {k : ℕ}
    (hg : Geom s) (hsupp : robinHoodSupport s)
    (hk : k ∉ s.m_values.map Prod.fst) (hash : ℕ)
    {E : ℕ} (hE : E < s.m_buckets.length) (hEe : (s.bucketAt E).empty = true) :
    ∀ (fuel i d0 : ℕ), i < s.m_buckets.length →
      d0 = circDist (s.bucket_for_hash hash) i s.m_buckets.length →
      (0 < d0 → (s.bucketAt (s.prevBucket i)).empty = false ∧
        d0 ≤ s.dist_from_initial_bucket (s.prevBucket i) + 1) →
      circDist i E s.m_buckets.length < fuel →
      ∃ i2 d2, insertProbeLoop s k hash i d0 fuel = some (Sum.inr (i2, d2)) ∧
        i2 < s.m_buckets.length ∧
        d2 = circDist (s.bucket_for_hash hash) i2 s.m_buckets.length ∧
        (0 < d2 → (s.bucketAt (s.prevBucket i2)).empty = false ∧
          d2 ≤ s.dist_from_initial_bucket (s.prevBucket i2) + 1)
  | 0, i, d0 => by
    intro _ _ _ hbud
    omega
  | fuel + 1, i, d0 => by
    intro hiN hd0 harr hbud
    have hN : 0 < s.m_buckets.length := by omega
    rw [insertProbeLoop]
    by_cases hguard : ¬(s.bucketAt i).empty = true ∧ d0 ≤ s.dist_from_initial_bucket i
    · rw [if_pos hguard]
      rw [if_neg (by rw [matchesAt_fresh hk]; exact Bool.false_ne_true)]
      have hbne : (s.bucketAt i).empty = false := by
        cases hx : (s.bucketAt i).empty
        · rfl
        · exact absurd hx hguard.1
      have hiE : i ≠ E := by
        intro h
        rw [h, hEe] at hbne
        exact Bool.true_eq_false.mp hbne
      have hbud2 : circDist (s.next_bucket i) E s.m_buckets.length < fuel := by
        rw [circDist_next_left hiN hE hiE]
        have hpos := circDist_pos_of_ne hiN hE hiE
        omega
      have hdistb : s.dist_from_initial_bucket i ≤ s.m_buckets.length - 2 :=
        dist_le_sub2 hg hsupp hE hEe hiN hbne
      have hnexti : s.next_bucket i = (i + 1) % s.m_buckets.length := next_eq_mod hN hiN
      have hd0' : d0 + 1 =
          circDist (s.bucket_for_hash hash) (s.next_bucket i) s.m_buckets.length := by
        rw [hnexti, circDist_succ (bfh_lt hg _) hiN (by rw [← hd0]; omega), ← hd0]
      exact insertProbeLoop_fresh_exits hg hsupp hk hash hE hEe fuel (s.next_bucket i) (d0 + 1)
        (next_lt hN i) hd0'
        (by
          intro _
          rw [prev_next hN hiN]
          exact ⟨hbne, by omega⟩)
        hbud2
    · rw [if_neg hguard]
      exact ⟨i, d0, rfl, hiN, hd0, harr⟩

/-- Geometry transfers along equal length and mask. -/
theorem geom_of_frame {s t : OrderedHash α} (hlen : t.m_buckets.length = s.m_buckets.length)
    (hmask : t.m_mask = s.m_mask) (g : Geom s) : Geom t :=
  ⟨by rw [hlen]; exact g.pow2, by rw [hmask, hlen]; exact g.maskEq,
    by rw [hlen]; exact g.countLe⟩

/-- `cellOK` only depends on the store. -/
theorem cellOK_congr {H : ℕ → ℕ} {s t : OrderedHash α}
    (hv : t.m_values = s.m_values) {b : BucketEntry} (h : cellOK H s b) :
    cellOK H t b := by
  unfold cellOK at h ⊢
  rw [hv]
  exact h

/-- The default cell is empty. -/
theorem mk0_empty : BucketEntry.mk0.empty = true := by decide

/-- Bucket access in a replicated array. -/
theorem bucketAt_of_buckets_replicate {s : OrderedHash α} {n : ℕ} {b : BucketEntry}
    (hb : s.m_buckets = List.replicate n b) {j : ℕ} (hj : j < n) :
    s.bucketAt j = b := by
  rw [bucketAt, hb, List.getD_eq_getElem?_getD, List.getElem?_replicate, if_pos hj]
  rfl

/-- A replicated-empty bucket array carries no cells. -/
theorem cellsM_of_replicate {s : OrderedHash α} {n : ℕ}
    (hb : s.m_buckets = List.replicate n BucketEntry.mk0) : cellsM s = 0 := by
  unfold cellsM nonEmptyCells
  rw [hb]
  have : (List.replicate n BucketEntry.mk0).filter (fun b => b.empty = false) = [] := by
    rw [List.filter_eq_nil_iff]
    intro a ha
    have : a = BucketEntry.mk0 := List.eq_of_mem_replicate ha
    rw [this]
    simp [mk0_empty]
  rw [this]
  rfl

/-- The re-insertion fold of `rehash_impl`: starting from a state with Robin
Hood support whose spare capacity covers the cells still to be placed, the
fold terminates, adds exactly the non-empty cells of the old array, and
preserves support. -/
theorem rehashFold_spec :
    ∀ (l : List BucketEntry) (s : OrderedHash α),
      Geom s → robinHoodSupport s →
      Multiset.card (cellsM s) + l.countP (fun b => b.empty = false) <
        s.m_buckets.length →
      (∀ b ∈ l, b.empty = false → b.m_index < 2 ^ 32 - 1 ∧ b.m_hash < 2 ^ 32) →
      (∀ j, j < s.m_buckets.length → (s.bucketAt j).empty = false →
        (s.bucketAt j).m_index < 2 ^ 32 - 1 ∧ (s.bucketAt j).m_hash < 2 ^ 32) →
      ∃ t, rehashFold l s = some t ∧
        cellsM t = cellsM s + ↑(l.filter (fun b => b.empty = false)) ∧
        robinHoodSupport t
  | [], s => by
    intro _ hsupp _ _ _
    refine ⟨s, rfl, by simp [List.filter_nil], hsupp⟩
  | b :: rest, s => by
    intro hg hsupp hspare hlrange hsrange
    rw [rehashFold]
    by_cases hbe : b.empty = true
    · rw [if_pos hbe]
      have hfe : (b :: rest).filter (fun c => c.empty = false) =
          rest.filter (fun c => c.empty = false) := by
        rw [List.filter_cons, if_neg (by simp [hbe])]
      have hce : (b :: rest).countP (fun c => decide (c.empty = false)) =
          rest.countP (fun c => decide (c.empty = false)) := by
        simp [List.countP_cons, hbe]
      obtain ⟨t, hfold, hcells, hsuppt⟩ := rehashFold_spec rest s hg hsupp
        (by rw [hce] at hspare; exact hspare)
        (fun c hc hcne => hlrange c (List.mem_cons_of_mem _ hc) hcne) hsrange
      exact ⟨t, hfold, by rw [hcells, hfe], hsuppt⟩
    · rw [if_neg hbe]
      have hbne : b.empty = false := by
        cases hx : b.empty
        · rfl
        · exact absurd hx hbe
      obtain ⟨hbidx, hbhash⟩ := hlrange b (List.mem_cons_self b rest) hbne
      have hce : (b :: rest).countP (fun c => decide (c.empty = false)) =
          rest.countP (fun c => decide (c.empty = false)) + 1 := by
        simp [List.countP_cons, hbne]
      rw [hce] at hspare
      obtain ⟨E, hE, hEe⟩ := exists_empty_of_spare (s := s) (by omega)
      obtain ⟨s2, hloop, hcells2, hsupp2⟩ := insert_indexLoop_spec false
        (s.bucket_count + 1) s (s.bucket_for_hash b.m_hash) 0 b.m_index b.m_hash E
        hg (bfh_lt hg _) hE hEe
        (by
          have := circDist_lt (bfh_lt hg b.m_hash) hE
          unfold bucket_count
          omega)
        hbidx hbhash
        (by rw [circDist_self (bfh_lt hg _)])
        hsrange hsupp
        (fun h => absurd h (by omega))
      rw [hloop]
      have hfr := insert_indexLoop_frame false _ _ _ _ _ _ _ hloop
      obtain ⟨hfv, hfm, hfl, hft, hfmt, hflen, hfg⟩ := hfr
      have hbeta : (⟨b.m_index, b.m_hash⟩ : BucketEntry) = b := rfl
      rw [hbeta] at hcells2
      have hg2 : Geom s2 := geom_of_frame hflen hfm hg
      obtain ⟨t, hfold, hcellst, hsuppt⟩ := rehashFold_spec rest s2 hg2 hsupp2
        (by
          rw [hcells2, hflen]
          simp only [Multiset.card_add, Multiset.card_singleton]
          omega)
        (fun c hc hcne => hlrange c (List.mem_cons_of_mem _ hc) hcne)
        (by
          intro j hj hne'
          have hmem : s2.bucketAt j ∈ cellsM s2 := cell_mem hj hne'
          rw [hcells2] at hmem
          rcases Multiset.mem_add.mp hmem with hm1 | hm2
          · obtain ⟨jj, hjj, hbjj, hcne2⟩ := mem_cellsM hm1
            rw [← hbjj]
            exact hsrange jj hjj (by rw [hbjj]; exact hcne2)
          · rw [Multiset.mem_singleton.mp hm2]
            exact ⟨hbidx, hbhash⟩)
      refine ⟨t, hfold, ?_, hsuppt⟩
      rw [hcellst, hcells2]
      rw [List.filter_cons, if_pos (by simp [hbne]), ← Multiset.cons_coe,
        ← Multiset.singleton_add, add_assoc]

/-- `round_up_to_power_of_two` is positive. -/
theorem round_up_pos (v : ℕ) : 0 < round_up_to_power_of_two v := by
  unfold round_up_to_power_of_two
  by_cases hp : is_power_of_two v = true
  · rw [if_pos hp]
    obtain ⟨k, hk⟩ := (is_power_of_two_iff v).mp hp
    rw [hk]
    positivity
  · rw [if_neg hp]
    by_cases h0 : v = 0
    · rw [if_pos h0]
      omega
    · rw [if_neg h0]
      omega

/-- Occupied cells of a well-formed table are 32-bit clean. -/
theorem wf_cell_range {H : ℕ → ℕ} {s : OrderedHash α} (w : WF H s) :
    ∀ b ∈ s.m_buckets, b.empty = false →
      b.m_index < 2 ^ 32 - 1 ∧ b.m_hash < 2 ^ 32 := by
  intro b hb hne
  have hok := w.store b hb hne
  have hidx := cellOK_idx_lt hok
  have hsz := w.sizeLt
  have hle := w.geom.countLe
  obtain ⟨kv, _, hh⟩ := cellOK_iff.mp hok
  refine ⟨by omega, ?_⟩
  rw [hh]
  unfold truncate_hash
  exact Nat.mod_lt _ (by norm_num)

/-- Slot-indexed form of `wf_cell_range`. -/
theorem wf_slot_range {H : ℕ → ℕ} {s : OrderedHash α} (w : WF H s) :
    ∀ j, j < s.m_buckets.length → (s.bucketAt j).empty = false →
      (s.bucketAt j).m_index < 2 ^ 32 - 1 ∧ (s.bucketAt j).m_hash < 2 ^ 32 :=
  fun j hj hne => wf_cell_range w (s.bucketAt j) (bucketAt_mem hj) hne

/-- The occupied-cell count of a well-formed table, as a `countP`. -/
theorem wf_countP {s : OrderedHash α} (hp : positionsExact s) :
    s.m_buckets.countP (fun b => decide (b.empty = false)) = s.m_values.length := by
  have h1 := cellsM_card hp
  unfold cellsM nonEmptyCells at h1
  rw [Multiset.coe_card] at h1
  rw [List.countP_eq_length_filter]
  exact h1

/-- `rehash_impl` under `WF`: whenever the requested (rounded) bucket count
strictly exceeds the store size, a successful rehash yields a well-formed
table with the same store, the same cell multiset and the same maximum load
factor. -/
theorem rehash_impl_spec {H : ℕ → ℕ} {s : OrderedHash α} (w : WF H s) {count : ℕ}
    (hbc : s.m_values.length < round_up_to_power_of_two count) {t : OrderedHash α}
    (h : rehash_impl s count = .ok t) :
    WF H t ∧ t.m_values = s.m_values ∧ cellsM t = cellsM s ∧
      t.m_max_load_factor = s.m_max_load_factor := by
  rw [rehash_impl] at h
  by_cases hsame : round_up_to_power_of_two count = s.bucket_count
  · rw [if_pos hsame] at h
    obtain rfl : t = s := (OpResult.ok.inj h).symm
    exact ⟨w, rfl, rfl, rfl⟩
  · rw [if_neg hsame] at h
    by_cases hbig : round_up_to_power_of_two count > s.max_bucket_count
    · rw [if_pos hbig] at h
      exact absurd h (by simp)
    · rw [if_neg hbig] at h
      simp only [] at h
      have hle32 : round_up_to_power_of_two count ≤ 2 ^ 32 := by
        unfold max_bucket_count MAX_BUCKET_COUNT at hbig
        omega
      cases hfold : rehashFold s.m_buckets
          { max_load_factorOp
              { s with
                m_buckets := List.replicate (round_up_to_power_of_two count) BucketEntry.mk0,
                m_mask := round_up_to_power_of_two count - 1 } s.m_max_load_factor with
            m_grow_on_next_insert := false } with
      | none => rw [hfold] at h; exact absurd h (by simp)
      | some t2 =>
        rw [hfold] at h
        obtain rfl : t = t2 := (OpResult.ok.inj h).symm
        obtain ⟨hfv, hfm, hfl, hft, hfmt, hflen, hfg⟩ := rehashFold_frame _ _ _ hfold
        have hS2b : ({ max_load_factorOp
            { s with
              m_buckets := List.replicate (round_up_to_power_of_two count) BucketEntry.mk0,
              m_mask := round_up_to_power_of_two count - 1 } s.m_max_load_factor with
            m_grow_on_next_insert := false } : OrderedHash α).m_buckets =
            List.replicate (round_up_to_power_of_two count) BucketEntry.mk0 := rfl
        have hS2len : ({ max_load_factorOp
            { s with
              m_buckets := List.replicate (round_up_to_power_of_two count) BucketEntry.mk0,
              m_mask := round_up_to_power_of_two count - 1 } s.m_max_load_factor with
            m_grow_on_next_insert := false } : OrderedHash α).m_buckets.length =
            round_up_to_power_of_two count := by
          rw [hS2b, List.length_replicate]
        have hgeomS2 : Geom ({ max_load_factorOp
            { s with
              m_buckets := List.replicate (round_up_to_power_of_two count) BucketEntry.mk0,
              m_mask := round_up_to_power_of_two count - 1 } s.m_max_load_factor with
            m_grow_on_next_insert := false } : OrderedHash α) := by
          refine ⟨?_, ?_, ?_⟩
          · rw [hS2len]
            obtain ⟨k, hk⟩ := round_up_spec_of_le hle32
            exact (is_power_of_two_iff _).mpr ⟨k, hk⟩
          · rw [hS2len]
            rfl
          · rw [hS2len]
            exact hle32
        obtain ⟨hfoldv, hfoldcell, hfoldsupp⟩ :
            t.m_values = s.m_values ∧ cellsM t = cellsM s ∧ robinHoodSupport t := by
          obtain ⟨t3, hfold2, hcells3, hsupp3⟩ := rehashFold_spec s.m_buckets
            ({ max_load_factorOp
              { s with
                m_buckets := List.replicate (round_up_to_power_of_two count) BucketEntry.mk0,
                m_mask := round_up_to_power_of_two count - 1 } s.m_max_load_factor with
              m_grow_on_next_insert := false } : OrderedHash α)
            hgeomS2
            (by
              intro j hj hne
              unfold bucket_count at hj
              rw [hS2len] at hj
              rw [bucketAt_of_buckets_replicate hS2b hj] at hne
              rw [mk0_empty] at hne
              exact absurd hne (by simp))
            (by
              rw [cellsM_of_replicate hS2b, hS2len]
              simp only [Multiset.card_zero]
              rw [wf_countP w.pos]
              omega)
            (wf_cell_range w)
            (by
              intro j hj hne
              rw [hS2len] at hj
              rw [bucketAt_of_buckets_replicate hS2b hj, mk0_empty] at hne
              exact absurd hne (by simp))
          rw [hfold2] at hfold
          obtain rfl : t3 = t := Option.some.inj hfold
          refine ⟨hfv, ?_, hsupp3⟩
          rw [hcells3, cellsM_of_replicate hS2b]
          rw [zero_add]
          rfl
        have htlen : t.m_buckets.length = round_up_to_power_of_two count := by
          rw [hflen, hS2len]
        have hmlf : t.m_max_load_factor = s.m_max_load_factor := by
          rw [hfl]
          rfl
        refine ⟨?_, hfoldv, hfoldcell, hmlf⟩
        refine ⟨geom_of_frame hflen hfm hgeomS2, ?_, ?_, ?_, hfoldsupp, ?_, ?_, ?_, ?_⟩
        · rw [hfoldv, htlen]
          exact hbc
        · intro b hb hne
          have hmem : b ∈ cellsM t := by
            unfold cellsM nonEmptyCells
            rw [Multiset.mem_coe]
            exact List.mem_filter.mpr ⟨hb, by simp [hne]⟩
          rw [hfoldcell] at hmem
          obtain ⟨jj, hjj, hbjj, _⟩ := mem_cellsM hmem
          have hok : cellOK H s b := w.store b (by rw [← hbjj]; exact bucketAt_mem hjj) hne
          exact cellOK_congr hfoldv hok
        · rw [positionsExact_iff, hfoldcell, hfoldv]
          exact (positionsExact_iff s).mp w.pos
        · rw [hfoldv]
          exact w.nodup
        · rw [hmlf]
          exact w.mlfPos
        · rw [hmlf]
          exact w.mlfLtOne
        · rw [hft, htlen, hmlf]
          simp [max_load_factorOp, bucket_count, List.length_replicate]

/-- `rehash` under `WF`: a successful call preserves well-formedness, the
store, the cell multiset and the stored maximum load factor. -/
theorem rehashOp_spec {H : ℕ → ℕ} {s : OrderedHash α} (w : WF H s) {count : ℕ}
    {t : OrderedHash α} (h : rehashOp s count = .ok t) :
    WF H t ∧ t.m_values = s.m_values ∧ cellsM t = cellsM s ∧
      t.m_max_load_factor = s.m_max_load_factor := by
  rw [rehashOp] at h
  refine rehash_impl_spec w ?_ h
  show s.m_values.length < round_up_to_power_of_two
    (max count (ratCeilDiv s.m_values.length s.m_max_load_factor))
  have hle := le_round_up (max count (ratCeilDiv s.m_values.length s.m_max_load_factor))
  by_cases h0 : s.m_values.length = 0
  · have := round_up_pos (max count (ratCeilDiv s.m_values.length s.m_max_load_factor))
    omega
  · have hceil : s.m_values.length < ratCeilDiv s.m_values.length s.m_max_load_factor :=
      lt_ratCeilDiv _ (by omega) w.mlfPos w.mlfLtOne
    have hmax : ratCeilDiv s.m_values.length s.m_max_load_factor ≤
        max count (ratCeilDiv s.m_values.length s.m_max_load_factor) :=
      le_max_right _ _
    omega

/-- `reserve` under `WF`. -/
theorem reserveOp_spec {H : ℕ → ℕ} {s : OrderedHash α} (w : WF H s) {count : ℕ}
    {t : OrderedHash α} (h : reserveOp s count = .ok t) :
    WF H t ∧ t.m_values = s.m_values ∧ cellsM t = cellsM s ∧
      t.m_max_load_factor = s.m_max_load_factor := by
  rw [reserveOp] at h
  exact rehashOp_spec w h

/-- `ordered_hash::max_size()` under the modelled platform bounds. -/
theorem max_size_val (s : OrderedHash α) : s.max_size = 2 ^ 32 - 2 := by
  unfold max_size BucketEntry.max_size VALUES_MAX_SIZE NB_RESERVED_INDEXES
  norm_num

/-- `cellOK` survives appending to the store. -/
theorem cellOK_append {H : ℕ → ℕ} {s t : OrderedHash α} {b : BucketEntry}
    (h : cellOK H s b) {l : List (ℕ × α)}
    (hv : t.m_values = s.m_values ++ l) : cellOK H t b := by
  have hidx := cellOK_idx_lt h
  unfold cellOK at h ⊢
  rw [hv, List.get?_append hidx]
  exact h

/-- `insert_impl` on a stored key returns its position, does not insert, and
leaves the state untouched. -/
theorem insert_impl_found {H : ℕ → ℕ} {s : OrderedHash α} (w : WF H s)
    {p k : ℕ} {v0 : α} (hkv : s.m_values.get? p = some (k, v0)) (v : α) :
    insert_impl H s k v = .ok s p false := by
  have hpn : p < s.m_values.length := (List.get?_eq_some.mp hkv).1
  obtain ⟨j, hj, hjne, hjp⟩ := exists_bucket_for_pos w.pos hpn
  have hD := dist_lt w.geom hj
  have hpl := insertProbeLoop_finds w hkv hj hjne hjp (s.bucket_count + 1) 0
    (s.bucket_for_hash (H k))
    (by rw [Nat.add_zero, Nat.mod_eq_of_lt (bfh_lt w.geom _)])
    (by omega) (by unfold bucket_count; omega)
  rw [insert_impl, hpl]

/-- The tail of a fresh-key insert: append the value and place its cell. -/
theorem finishInsert_spec {H : ℕ → ℕ} {s : OrderedHash α} (w : WF H s)
    {k : ℕ} {v : α} (hk : k ∉ s.m_values.map Prod.fst)
    {i2 d2 : ℕ} (hi2 : i2 < s.m_buckets.length)
    (hd2 : d2 = circDist (s.bucket_for_hash (H k)) i2 s.m_buckets.length)
    (harr2 : 0 < d2 → (s.bucketAt (s.prevBucket i2)).empty = false ∧
      d2 ≤ s.dist_from_initial_bucket (s.prevBucket i2) + 1)
    (hcap : s.m_values.length < 2 ^ 32 - 2)
    (hroom : s.m_values.length + 1 < s.m_buckets.length) :
    ∃ t, finishInsert s i2 d2 k v (H k) = .ok t s.m_values.length true ∧
      t.m_values = s.m_values ++ [(k, v)] ∧ WF H t ∧
      t.m_max_load_factor = s.m_max_load_factor := by
  have hb4 : ({ s with m_values := s.m_values ++ [(k, v)] } :
      OrderedHash α).m_buckets = s.m_buckets := rfl
  have hm4 : ({ s with m_values := s.m_values ++ [(k, v)] } :
      OrderedHash α).m_mask = s.m_mask := rfl
  have hg4 : Geom ({ s with m_values := s.m_values ++ [(k, v)] } : OrderedHash α) :=
    geom_congr hb4 hm4 w.geom
  have hlen4 : ({ s with m_values := s.m_values ++ [(k, v)] } :
      OrderedHash α).m_values.length = s.m_values.length + 1 := by
    simp
  have hsz : s.m_values.length < s.m_buckets.length := w.sizeLt
  have hN32 : s.m_buckets.length ≤ 2 ^ 32 := w.geom.countLe
  have hidxeq : (({ s with m_values := s.m_values ++ [(k, v)] } :
      OrderedHash α).m_values.length - 1) % 2 ^ 32 = s.m_values.length := by
    rw [hlen4]
    simp only [Nat.add_sub_cancel]
    exact Nat.mod_eq_of_lt (by omega)
  obtain ⟨E, hE, hEe⟩ := exists_empty_of_spare (s := s)
    (by rw [cellsM_card w.pos]; omega)
  obtain ⟨s5, hloop, hcells5, hsupp5⟩ := insert_indexLoop_spec true
    (({ s with m_values := s.m_values ++ [(k, v)] } :
      OrderedHash α).bucket_count + 1)
    ({ s with m_values := s.m_values ++ [(k, v)] } : OrderedHash α)
    i2 d2 s.m_values.length (truncate_hash (H k)) E
    hg4 hi2 hE hEe
    (by
      have hbl : ({ s with m_values := s.m_values ++ [(k, v)] } :
          OrderedHash α).m_buckets.length = s.m_buckets.length := rfl
      unfold bucket_count
      rw [hbl]
      have := circDist_lt hi2 hE
      omega)
    (by omega)
    (by unfold truncate_hash; exact Nat.mod_lt _ (by norm_num))
    (by
      rw [bfh_truncate hg4, bfh_congr hm4]
      exact hd2)
    (by
      intro j hj hne
      rw [bucketAt_congr hb4] at hne ⊢
      exact wf_slot_range w j hj hne)
    ((support_congr hb4 hm4).mpr w.support)
    (by
      intro hpos
      rw [prev_congr hb4, bucketAt_congr hb4, dist_congr hb4 hm4]
      exact harr2 hpos)
  have hfr := insert_indexLoop_frame true _ _ _ _ _ _ _ hloop
  obtain ⟨hfv, hfm, hfl, hft, hfmt, hflen, _⟩ := hfr
  have hval5 : s5.m_values = s.m_values ++ [(k, v)] := hfv
  have hlen5 : s5.m_values.length = s.m_values.length + 1 := by
    rw [hval5]
    simp
  refine ⟨s5, ?_, hval5, ?_, by rw [hfl]⟩
  · rw [finishInsert, hidxeq]
    unfold insert_index
    rw [hloop]
    simp only []
    have hl51 : s5.m_values.length - 1 = s.m_values.length := by omega
    rw [hl51]
  · refine ⟨geom_of_frame hflen hfm hg4, ?_, ?_, ?_, hsupp5, ?_, ?_, ?_, ?_⟩
    · rw [hlen5, hflen]
      exact hroom
    · intro b hb hne
      have hmem : b ∈ cellsM s5 := by
        unfold cellsM nonEmptyCells
        rw [Multiset.mem_coe]
        exact List.mem_filter.mpr ⟨hb, by simp [hne]⟩
      rw [hcells5] at hmem
      rcases Multiset.mem_add.mp hmem with hm1 | hm2
      · rw [cellsM_congr hb4] at hm1
        obtain ⟨jj, hjj, hbjj, _⟩ := mem_cellsM hm1
        have hok : cellOK H s b :=
          w.store b (by rw [← hbjj]; exact bucketAt_mem hjj) hne
        exact cellOK_append hok hval5
      · rw [Multiset.mem_singleton.mp hm2]
        unfold cellOK
        rw [hval5]
        simp only []
        rw [List.get?_concat_length]
    · rw [positionsExact_iff, hcells5, Multiset.map_add, cellsM_congr hb4,
        (positionsExact_iff s).mp w.pos, hlen5, Multiset.map_singleton,
        Multiset.range_succ, ← Multiset.singleton_add]
      exact add_comm _ _
    · rw [hval5, List.map_append]
      refine List.nodup_append.mpr ⟨w.nodup, ?_, ?_⟩
      · simp
      · intro a ha hb
        have hak : a = k := by simpa using hb
        rw [hak] at ha
        exact hk ha
    · rw [hfl]
      exact w.mlfPos
    · rw [hfl]
      exact w.mlfLtOne
    · rw [hft, hflen, hfl]
      exact w.threshold

/-- The rebuild fold of `rehash_impl` terminates under `WF` and spare
capacity. -/
theorem rehash_rebuild_some {H : ℕ → ℕ} {s : OrderedHash α} (w : WF H s) {count : ℕ}
    (hbc : s.m_values.length < round_up_to_power_of_two count)
    (hle32 : round_up_to_power_of_two count ≤ 2 ^ 32) :
    ∃ t3, rehashFold s.m_buckets
      ({ max_load_factorOp
        { s with
          m_buckets := List.replicate (round_up_to_power_of_two count) BucketEntry.mk0,
          m_mask := round_up_to_power_of_two count - 1 } s.m_max_load_factor with
        m_grow_on_next_insert := false } : OrderedHash α) = some t3 := by
  have hS2b : ({ max_load_factorOp
      { s with
        m_buckets := List.replicate (round_up_to_power_of_two count) BucketEntry.mk0,
        m_mask := round_up_to_power_of_two count - 1 } s.m_max_load_factor with
      m_grow_on_next_insert := false } : OrderedHash α).m_buckets =
      List.replicate (round_up_to_power_of_two count) BucketEntry.mk0 := rfl
  have hS2len : ({ max_load_factorOp
      { s with
        m_buckets := List.replicate (round_up_to_power_of_two count) BucketEntry.mk0,
        m_mask := round_up_to_power_of_two count - 1 } s.m_max_load_factor with
      m_grow_on_next_insert := false } : OrderedHash α).m_buckets.length =
      round_up_to_power_of_two count := by
    rw [hS2b, List.length_replicate]
  have hgeomS2 : Geom ({ max_load_factorOp
      { s with
        m_buckets := List.replicate (round_up_to_power_of_two count) BucketEntry.mk0,
        m_mask := round_up_to_power_of_two count - 1 } s.m_max_load_factor with
      m_grow_on_next_insert := false } : OrderedHash α) := by
    refine ⟨?_, ?_, ?_⟩
    · rw [hS2len]
      obtain ⟨kk, hkk⟩ := round_up_spec_of_le hle32
      exact (is_power_of_two_iff _).mpr ⟨kk, hkk⟩
    · rw [hS2len]
      rfl
    · rw [hS2len]
      exact hle32
  obtain ⟨t3, hfold2, _, _⟩ := rehashFold_spec s.m_buckets
    ({ max_load_factorOp
      { s with
        m_buckets := List.replicate (round_up_to_power_of_two count) BucketEntry.mk0,
        m_mask := round_up_to_power_of_two count - 1 } s.m_max_load_factor with
      m_grow_on_next_insert := false } : OrderedHash α)
    hgeomS2
    (by
      intro j hj hne
      unfold bucket_count at hj
      rw [hS2len] at hj
      rw [bucketAt_of_buckets_replicate hS2b hj, mk0_empty] at hne
      exact absurd hne (by simp))
    (by
      rw [cellsM_of_replicate hS2b, hS2len]
      simp only [Multiset.card_zero]
      rw [wf_countP w.pos]
      omega)
    (wf_cell_range w)
    (by
      intro j hj hne
      rw [hS2len] at hj
      rw [bucketAt_of_buckets_replicate hS2b hj, mk0_empty] at hne
      exact absurd hne (by simp))
  exact ⟨t3, hfold2⟩

/-- `rehash_impl` cannot diverge under `WF` and spare capacity. -/
theorem rehash_impl_not_diverged {H : ℕ → ℕ} {s : OrderedHash α} (w : WF H s)
    {count : ℕ} (hbc : s.m_values.length < round_up_to_power_of_two count) :
    rehash_impl s count ≠ .diverged := by
  intro h
  rw [rehash_impl] at h
  by_cases hsame : round_up_to_power_of_two count = s.bucket_count
  · rw [if_pos hsame] at h
    exact absurd h (by simp)
  · rw [if_neg hsame] at h
    by_cases hbig : round_up_to_power_of_two count > s.max_bucket_count
    · rw [if_pos hbig] at h
      exact absurd h (by simp)
    · rw [if_neg hbig] at h
      simp only [] at h
      have hle32 : round_up_to_power_of_two count ≤ 2 ^ 32 := by
        unfold max_bucket_count MAX_BUCKET_COUNT at hbig
        omega
      obtain ⟨t3, hsome⟩ := rehash_rebuild_some w hbc hle32
      rw [hsome] at h
      exact absurd h (by simp)

/-- A successful rebuilding `rehash_impl` reports the rounded bucket count. -/
theorem rehash_impl_ok_length {s t : OrderedHash α} {count : ℕ}
    (h : rehash_impl s count = .ok t)
    (hne : round_up_to_power_of_two count ≠ s.bucket_count) :
    t.m_buckets.length = round_up_to_power_of_two count := by
  rw [rehash_impl] at h
  rw [if_neg hne] at h
  by_cases hbig : round_up_to_power_of_two count > s.max_bucket_count
  · rw [if_pos hbig] at h
    exact absurd h (by simp)
  · rw [if_neg hbig] at h
    simp only [] at h
    cases hfold : rehashFold s.m_buckets
        { max_load_factorOp
            { s with
              m_buckets := List.replicate (round_up_to_power_of_two count) BucketEntry.mk0,
              m_mask := round_up_to_power_of_two count - 1 } s.m_max_load_factor with
          m_grow_on_next_insert := false } with
    | none => rw [hfold] at h; exact absurd h (by simp)
    | some t2 =>
      rw [hfold] at h
      obtain rfl : t = t2 := (OpResult.ok.inj h).symm
      have hlen := (rehashFold_frame _ _ _ hfold).2.2.2.2.2.1
      rw [hlen]
      exact List.length_replicate (round_up_to_power_of_two count) BucketEntry.mk0

/-- Full specification of `insert_impl` on an absent key under `WF`: at
capacity the call fails with the capacity `length_error` before modifying
anything; below capacity it either propagates the growing rehash's
`length_error` or appends the entry at the end of the store, reports its
position with `inserted = true`, and preserves well-formedness. -/
theorem insert_impl_fresh_spec {H : ℕ → ℕ} {s : OrderedHash α} (w : WF H s)
    {k : ℕ} (hk : k ∉ s.m_values.map Prod.fst) (v : α) :
    (s.m_values.length ≥ 2 ^ 32 - 2 → insert_impl H s k v = .capacityError) ∧
    (s.m_values.length < 2 ^ 32 - 2 →
      insert_impl H s k v = .lengthError ∨
      ∃ t, insert_impl H s k v = .ok t s.m_values.length true ∧
        t.m_values = s.m_values ++ [(k, v)] ∧ WF H t ∧
        t.m_max_load_factor = s.m_max_load_factor) := by
  obtain ⟨E, hE, hEe⟩ := exists_empty_of_spare (s := s)
    (by rw [cellsM_card w.pos]; exact w.sizeLt)
  obtain ⟨i2, d2, hploop, hi2, hd2, harr2⟩ :=
    insertProbeLoop_fresh_exits w.geom w.support hk (H k) hE hEe
      (s.bucket_count + 1) (s.bucket_for_hash (H k)) 0
      (bfh_lt w.geom _)
      (by rw [circDist_self (bfh_lt w.geom _)])
      (fun h => absurd h (by omega))
      (by
        have := circDist_lt (bfh_lt w.geom (H k)) hE
        unfold bucket_count
        omega)
  constructor
  · intro hcap
    rw [insert_impl, hploop]
    simp only []
    rw [if_pos (show s.size ≥ s.max_size by
      rw [max_size_val]
      exact hcap)]
  · intro hcap
    rw [insert_impl, hploop]
    simp only []
    rw [if_neg (show ¬s.size ≥ s.max_size by
      rw [max_size_val]
      unfold size
      omega)]
    by_cases hgrow : s.m_grow_on_next_insert = true ∨ s.size ≥ s.m_load_threshold
    · rw [if_pos hgrow]
      have hru : round_up_to_power_of_two (s.bucket_count * 2) = s.bucket_count * 2 := by
        unfold round_up_to_power_of_two
        rw [if_pos ?hp2]
        case hp2 =>
          obtain ⟨kk, hkk⟩ := (is_power_of_two_iff _).mp w.geom.pow2
          refine (is_power_of_two_iff _).mpr ⟨kk + 1, ?_⟩
          unfold bucket_count
          rw [hkk]
          ring
      have hN1 : 0 < s.m_buckets.length := w.geom.countPos
      have hbc2 : s.m_values.length <
          round_up_to_power_of_two (s.bucket_count * 2) := by
        rw [hru]
        unfold bucket_count
        have := w.sizeLt
        omega
      cases hre : rehash_impl s (s.bucket_count * 2) with
      | lengthError =>
        left
        rfl
      | diverged =>
        exact absurd hre (rehash_impl_not_diverged w hbc2)
      | ok s2 =>
        obtain ⟨w2, hv2, _, hm2⟩ := rehash_impl_spec w hbc2 hre
        have hlen2 : s2.m_buckets.length = s.m_buckets.length * 2 := by
          have := rehash_impl_ok_length hre (by
            rw [hru]
            unfold bucket_count
            omega)
          rw [hru] at this
          unfold bucket_count at this
          exact this
        right
        simp only []
        have w3 : WF H ({ s2 with m_grow_on_next_insert := false } : OrderedHash α) :=
          ⟨⟨w2.geom.pow2, w2.geom.maskEq, w2.geom.countLe⟩, w2.sizeLt, w2.store,
            w2.pos, w2.support, w2.nodup, w2.mlfPos, w2.mlfLtOne, w2.threshold⟩
        have hv3 : ({ s2 with m_grow_on_next_insert := false } :
            OrderedHash α).m_values = s.m_values := hv2
        have hk3 : k ∉ ({ s2 with m_grow_on_next_insert := false } :
            OrderedHash α).m_values.map Prod.fst := by
          rw [hv3]
          exact hk
        obtain ⟨t, hfin, hvt, hwt, hmt⟩ := finishInsert_spec w3 hk3
          (bfh_lt w3.geom (H k))
          (by rw [circDist_self (bfh_lt w3.geom _)])
          (fun h => absurd h (by omega))
          (by rw [hv3]; exact hcap)
          (by
            rw [hv3]
            show s.m_values.length + 1 < s2.m_buckets.length
            rw [hlen2]
            have := w.sizeLt
            omega)
        refine ⟨t, ?_, ?_, hwt, ?_⟩
        · rw [hfin, hv3]
        · rw [hvt, hv3]
        · rw [hmt]
          exact hm2
    · rw [if_neg hgrow]
      right
      push_neg at hgrow
      have hthr : s.m_values.length < s.m_load_threshold := hgrow.2
      have hthrlt : s.m_load_threshold < s.m_buckets.length := by
        rw [w.threshold]
        exact ratFloorMul_lt _ w.geom.countPos (le_of_lt w.mlfPos) w.mlfLtOne
      obtain ⟨t, hfin, hvt, hwt, hmt⟩ := finishInsert_spec w hk hi2 hd2 harr2 hcap
        (by omega)
      exact ⟨t, hfin, hvt, hwt, hmt⟩

/-- A present key sits at some store position. -/
theorem mem_keys_get {l : List (ℕ × α)} {k : ℕ} (h : k ∈ l.map Prod.fst) :
    ∃ p v0, l.get? p = some (k, v0) := by
  obtain ⟨kv, hkv, hfst⟩ := List.mem_map.mp h
  obtain ⟨k1, v2⟩ := kv
  obtain ⟨p, hp⟩ := List.mem_iff_get?.mp hkv
  have hk1 : k1 = k := hfst
  subst hk1
  exact ⟨p, v2, hp⟩

/-- Overwriting the mapped part of a stored entry keeps the key sequence. -/
theorem keys_set {l : List (ℕ × α)} {p k : ℕ} {v0 v' : α}
    (h : l.get? p = some (k, v0)) :
    (l.set p (k, v')).map Prod.fst = l.map Prod.fst := by
  have hlen : p < l.length := (List.get?_eq_some.mp h).1
  apply List.ext_get?
  intro q
  by_cases hq : q = p
  · subst hq
    rw [List.get?_map, List.get?_map, List.get?_set_eq_of_lt _ hlen, h]
    rfl
  · rw [List.get?_map, List.get?_map, List.get?_set_ne _ _ (fun hc => hq hc.symm)]

/-- `insert` on a stored key: reports the position, does not insert, state
unchanged. -/
theorem insertOp_found {H : ℕ → ℕ} {s : OrderedHash α} (w : WF H s)
    {p k : ℕ} {v0 : α} (hkv : s.m_values.get? p = some (k, v0)) (v : α) :
    insertOp H s k v = .ok s p false :=
  insert_impl_found w hkv v

/-- `insert_or_assign` on a stored key: overwrites the mapped part in place. -/
theorem insert_or_assign_found {H : ℕ → ℕ} {s : OrderedHash α} (w : WF H s)
    {p k : ℕ} {v0 : α} (hkv : s.m_values.get? p = some (k, v0)) (v' : α) :
    insert_or_assignOp H s k v' =
      .ok { s with m_values := s.m_values.set p (k, v') } p false := by
  rw [insert_or_assignOp, insert_impl_found w hkv v']
  simp only []
  rw [if_neg (by simp)]
  rw [hkv]

/-- `insert` preserves well-formedness. -/
theorem insertOp_WF {H : ℕ → ℕ} {s : OrderedHash α} (w : WF H s) {k : ℕ} {v : α}
    {t : OrderedHash α} {pos : ℕ} {ins : Bool}
    (h : insertOp H s k v = .ok t pos ins) : WF H t := by
  by_cases hmem : k ∈ s.m_values.map Prod.fst
  · obtain ⟨p, v0, hkv⟩ := mem_keys_get hmem
    rw [insertOp_found w hkv v] at h
    obtain rfl : s = t := (InsertResult.ok.inj h).1
    exact w
  · obtain ⟨hcap, hlt⟩ := insert_impl_fresh_spec w hmem v
    by_cases hsz : s.m_values.length ≥ 2 ^ 32 - 2
    · rw [show insertOp H s k v = insert_impl H s k v from rfl, hcap hsz] at h
      exact absurd h (by simp)
    · rcases hlt (by omega) with herr | ⟨t2, hok, hv2, hw2, _⟩
      · rw [show insertOp H s k v = insert_impl H s k v from rfl, herr] at h
        exact absurd h (by simp)
      · rw [show insertOp H s k v = insert_impl H s k v from rfl, hok] at h
        obtain rfl : t2 = t := (InsertResult.ok.inj h).1
        exact hw2

/-- Overwriting the mapped part of a stored entry preserves well-formedness. -/
theorem set_value_WF {H : ℕ → ℕ} {s : OrderedHash α} (w : WF H s) {p k : ℕ} {v0 v' : α}
    (hkv : s.m_values.get? p = some (k, v0)) :
    WF H ({ s with m_values := s.m_values.set p (k, v') } : OrderedHash α) := by
  have hlen : p < s.m_values.length := (List.get?_eq_some.mp hkv).1
  have hleneq : ({ s with m_values := s.m_values.set p (k, v') } :
      OrderedHash α).m_values.length = s.m_values.length := by simp
  refine ⟨geom_congr (s := s) rfl rfl w.geom, by rw [hleneq]; exact w.sizeLt, ?_, ?_,
    (support_congr (s := s) rfl rfl).mpr w.support, ?_, w.mlfPos, w.mlfLtOne, w.threshold⟩
  · intro b hb hne
    have hok := w.store b hb hne
    unfold cellOK at hok ⊢
    simp only []
    by_cases hbp : b.m_index = p
    · rw [hbp, List.get?_set_eq_of_lt _ hlen]
      rw [hbp, hkv] at hok
      exact hok
    · rw [List.get?_set_ne _ _ (fun hc => hbp hc.symm)]
      exact hok
  · rw [positionsExact_iff]
    have hc : cellsM ({ s with m_values := s.m_values.set p (k, v') } : OrderedHash α) =
        cellsM s := cellsM_congr rfl
    rw [hc, hleneq]
    exact (positionsExact_iff s).mp w.pos
  · show ((s.m_values.set p (k, v')).map Prod.fst).Nodup
    rw [keys_set hkv]
    exact w.nodup

/-- `insert_or_assign` preserves well-formedness. -/
theorem insert_or_assignOp_WF {H : ℕ → ℕ} {s : OrderedHash α} (w : WF H s)
    {k : ℕ} {v : α} {t : OrderedHash α} {pos : ℕ} {ins : Bool}
    (h : insert_or_assignOp H s k v = .ok t pos ins) : WF H t := by
  rw [insert_or_assignOp] at h
  cases hins : insert_impl H s k v with
  | capacityError => rw [hins] at h; exact absurd h (by simp)
  | lengthError => rw [hins] at h; exact absurd h (by simp)
  | diverged => rw [hins] at h; exact absurd h (by simp)
  | ok s2 p2 b2 =>
    rw [hins] at h
    simp only [] at h
    have hw2 : WF H s2 :=
      insertOp_WF w (show insertOp H s k v = .ok s2 p2 b2 from hins)
    by_cases hb2 : b2 = true
    · rw [if_pos hb2] at h
      obtain rfl : s2 = t := (InsertResult.ok.inj h).1
      exact hw2
    · rw [if_neg hb2] at h
      cases hq : s2.m_values.get? p2 with
      | none =>
        rw [hq] at h
        obtain rfl : s2 = t := (InsertResult.ok.inj h).1
        exact hw2
      | some kv =>
        rw [hq] at h
        obtain rfl : { s2 with m_values := s2.m_values.set p2 (kv.1, v) } = t :=
          (InsertResult.ok.inj h).1
        exact set_value_WF hw2 (show s2.m_values.get? p2 = some (kv.1, kv.2) from by
          rw [hq])

/-- `prevBucket` stays in range. -/
theorem prev_lt {s : OrderedHash α} {j : ℕ} (hj : j < s.m_buckets.length) :
    s.prevBucket j < s.m_buckets.length := by
  unfold prevBucket bucket_count
  split <;> omega

/-- A cell whose index is not the sentinel is non-empty. -/
theorem nonempty_of_index {c : BucketEntry} (h : c.m_index ≠ EMPTY_MARKER_INDEX) :
    c.empty = false := by
  unfold BucketEntry.empty
  exact decide_eq_false h

/-- The index-walk of `shift_indexes_left_in_buckets` reaches the unique
bucket carrying the sought raw index field. -/
theorem findIndexLoop_finds {s : OrderedHash α} {target j0 : ℕ}
    (hj0 : j0 < s.m_buckets.length) (hj0t : (s.bucketAt j0).m_index = target)
    (huniq : ∀ j, j < s.m_buckets.length → (s.bucketAt j).m_index = target → j = j0) :
    ∀ (fuel i : ℕ), i < s.m_buckets.length →
      circDist i j0 s.m_buckets.length < fuel →
      findIndexLoop s target i fuel = some j0
  | 0, i => by
    intro _ hf
    omega
  | fuel + 1, i => by
    intro hi hf
    rw [findIndexLoop]
    by_cases hit : (s.bucketAt i).m_index = target
    · have hij : i = j0 := huniq i hi hit
      subst hij
      rw [if_pos hit]
    · rw [if_neg hit]
      have hij : i ≠ j0 := fun h => hit (by rw [h]; exact hj0t)
      have hN : 0 < s.m_buckets.length := by omega
      have hstep : circDist (s.next_bucket i) j0 s.m_buckets.length =
          circDist i j0 s.m_buckets.length - 1 := circDist_next_left hi hj0 hij
      have hpos : 0 < circDist i j0 s.m_buckets.length := circDist_pos_of_ne hi hj0 hij
      exact findIndexLoop_finds hj0 hj0t huniq fuel (s.next_bucket i)
        (next_lt hN i) (by omega)

/-- Frame of the `shift_indexes_left_in_buckets` loop: only bucket contents
change. -/
theorem shift_leftLoop_frame {H : ℕ → ℕ} {delta : ℕ} :
    ∀ (fuel : ℕ) (u : OrderedHash α) (iv : ℕ) (v : OrderedHash α),
      shift_indexes_leftLoop H delta u iv fuel = some v →
      v.m_values = u.m_values ∧ v.m_mask = u.m_mask ∧
        v.m_max_load_factor = u.m_max_load_factor ∧
        v.m_load_threshold = u.m_load_threshold ∧
        v.m_min_load_factor_rehash_threshold = u.m_min_load_factor_rehash_threshold ∧
        v.m_grow_on_next_insert = u.m_grow_on_next_insert ∧
        v.m_buckets.length = u.m_buckets.length
  | 0, u, iv, v => by
    intro h
    obtain rfl : u = v := Option.some.inj h
    exact ⟨rfl, rfl, rfl, rfl, rfl, rfl, rfl⟩
  | fuel + 1, u, iv, v => by
    intro h
    rw [shift_indexes_leftLoop] at h
    cases hkv : u.m_values.get? iv with
    | none =>
      rw [hkv] at h
      obtain rfl : u = v := Option.some.inj h
      exact ⟨rfl, rfl, rfl, rfl, rfl, rfl, rfl⟩
    | some kv =>
      rw [hkv] at h
      simp only [] at h
      cases hfi : findIndexLoop u (iv + delta) (u.bucket_for_hash (H kv.1))
          (u.bucket_count + 1) with
      | none => rw [hfi] at h; exact absurd h (by simp)
      | some jb =>
        rw [hfi] at h
        have hrec := shift_leftLoop_frame fuel _ (iv + 1) v h
        obtain ⟨a, b, c, d, e, f, g⟩ := hrec
        exact ⟨a, b, c, d, e, f, by rw [g]; simp⟩

/-- The decrement applied by `shift_indexes_left_in_buckets` (`delta = 1`)
to a bucket cell, with exclusive upper bound `n` on the moved positions. -/
def decIdxB (p n : ℕ) (c : BucketEntry) : BucketEntry :=
  if p < c.m_index ∧ c.m_index < n then ⟨c.m_index - 1, c.m_hash⟩ else c

/-- `decIdxB` keeps the stored hash. -/
theorem decIdxB_hash (p n : ℕ) (c : BucketEntry) : (decIdxB p n c).m_hash = c.m_hash := by
  unfold decIdxB
  split <;> rfl

/-- `decIdxB` keeps emptiness (positions are below the sentinel). -/
theorem decIdxB_empty {p n : ℕ} (hn : n ≤ 2 ^ 32 - 1) (c : BucketEntry) :
    (decIdxB p n c).empty = c.empty := by
  unfold decIdxB
  split
  · rename_i hcond
    unfold BucketEntry.empty EMPTY_MARKER_INDEX
    have h1 : ¬(c.m_index - 1 = 2 ^ 32 - 1) := by omega
    have h2 : ¬(c.m_index = 2 ^ 32 - 1) := by omega
    rw [decide_eq_false h1, decide_eq_false h2]
  · rfl

/-- A pointwise per-slot transformation that keeps emptiness maps the cell
multiset. -/
theorem cellsM_of_pointwise {s v : OrderedHash α}
    (hlen : v.m_buckets.length = s.m_buckets.length) (f : BucketEntry → BucketEntry)
    (hemp : ∀ c, (f c).empty = c.empty)
    (hpt : ∀ j, j < s.m_buckets.length → v.bucketAt j = f (s.bucketAt j)) :
    cellsM v = Multiset.map f (cellsM s) := by
  have hb : v.m_buckets = s.m_buckets.map f := by
    apply List.ext_getElem?
    intro i
    by_cases hi : i < s.m_buckets.length
    · rw [List.getElem?_eq_getElem (by omega), List.getElem?_map,
        List.getElem?_eq_getElem hi]
      have h1 := hpt i hi
      rw [bucketAt, bucketAt, List.getD_eq_getElem?_getD, List.getD_eq_getElem?_getD,
        List.getElem?_eq_getElem (by omega), List.getElem?_eq_getElem hi] at h1
      simp only [Option.getD_some] at h1
      simp [h1]
    · rw [List.getElem?_eq_none (by omega), List.getElem?_map,
        List.getElem?_eq_none (by omega)]
      rfl
  unfold cellsM nonEmptyCells
  rw [hb, List.filter_map, ← Multiset.map_coe]
  congr 1
  congr 1
  apply List.filter_congr
  intro c _
  show decide ((f c).empty = false) = decide (c.empty = false)
  rw [hemp c]

/-- Probe distances transfer along equal hashes, emptiness, mask and length. -/
theorem dist_of_hash_eq {s v : OrderedHash α}
    (hlen : v.m_buckets.length = s.m_buckets.length) (hmask : v.m_mask = s.m_mask)
    {j : ℕ} (hh : (v.bucketAt j).m_hash = (s.bucketAt j).m_hash) :
    v.dist_from_initial_bucket j = s.dist_from_initial_bucket j := by
  unfold dist_from_initial_bucket bucket_count bucket_for_hash
  rw [hh, hmask, hlen]

/-- The Robin Hood support invariant transfers along a per-slot change that
keeps hashes and emptiness. -/
theorem support_transfer {s v : OrderedHash α}
    (hlen : v.m_buckets.length = s.m_buckets.length) (hmask : v.m_mask = s.m_mask)
    (hh : ∀ j, j < s.m_buckets.length → (v.bucketAt j).m_hash = (s.bucketAt j).m_hash)
    (he : ∀ j, j < s.m_buckets.length → (v.bucketAt j).empty = (s.bucketAt j).empty)
    (hsupp : robinHoodSupport s) : robinHoodSupport v := by
  intro j hj hne hpos
  unfold bucket_count at hj
  rw [hlen] at hj
  have hN : 0 < s.m_buckets.length := by omega
  have hprevv : v.prevBucket j = s.prevBucket j := by
    unfold prevBucket bucket_count
    rw [hlen]
  have hpN : s.prevBucket j < s.m_buckets.length := prev_lt hj
  rw [he j hj] at hne
  rw [dist_of_hash_eq hlen hmask (hh j hj)] at hpos
  obtain ⟨h1, h2⟩ := hsupp j hj hne hpos
  rw [hprevv, he _ hpN, dist_of_hash_eq hlen hmask (hh j hj),
    dist_of_hash_eq hlen hmask (hh _ hpN)]
  exact ⟨h1, h2⟩

/-- Main loop of `shift_indexes_left_in_buckets` with `delta = 1`, relative
to the pre-erase state `s`: walking `ivalue` from `p` to `size - 2`, each
step decrements the unique bucket whose raw index field is `ivalue + 1`; on
exit every bucket holding a position above `p` has been decremented once. -/
theorem shift_leftLoop_spec {H : ℕ → ℕ} {s : OrderedHash α}
    (hg : Geom s) (hpos : positionsExact s) {p : ℕ}
    (hp : p < s.m_values.length) (hn32 : s.m_values.length < 2 ^ 32) :
    ∀ (fuel : ℕ) (u : OrderedHash α) (ivalue : ℕ),
      p ≤ ivalue → ivalue ≤ s.m_values.length - 1 →
      s.m_values.length - ivalue ≤ fuel →
      u.m_values = s.m_values.eraseIdx p →
      u.m_buckets.length = s.m_buckets.length →
      u.m_mask = s.m_mask →
      (∀ j, j < s.m_buckets.length → u.bucketAt j = decIdxB p (ivalue + 1) (s.bucketAt j)) →
      ∃ v, shift_indexes_leftLoop H 1 u ivalue fuel = some v ∧
        (∀ j, j < s.m_buckets.length →
          v.bucketAt j = decIdxB p s.m_values.length (s.bucketAt j))
  | 0, u, ivalue => by
    intro hpi hin hf _ _ _ _
    omega
  | fuel + 1, u, ivalue => by
    intro hpi hin hf hval hlen hmask hpt
    have hn1 : 1 ≤ s.m_values.length := by omega
    rw [shift_indexes_leftLoop]
    cases hkv : u.m_values.get? ivalue with
    | none =>
      have hge := List.get?_eq_none.mp hkv
      rw [hval, List.length_eraseIdx_of_lt hp] at hge
      have hiv : ivalue + 1 = s.m_values.length := by omega
      refine ⟨u, rfl, ?_⟩
      intro j hj
      rw [hpt j hj, hiv]
    | some kv =>
      simp only []
      have hlt : ivalue < u.m_values.length := (List.get?_eq_some.mp hkv).1
      have hlenv : u.m_values.length = s.m_values.length - 1 := by
        rw [hval, List.length_eraseIdx_of_lt hp]
      have htlt : ivalue + 1 < s.m_values.length := by omega
      obtain ⟨j0, hj0, hj0ne, hj0t⟩ := exists_bucket_for_pos hpos htlt
      have hj0u : (u.bucketAt j0).m_index = ivalue + 1 := by
        rw [hpt j0 hj0]
        unfold decIdxB
        rw [hj0t, if_neg (by omega)]
        exact hj0t
      have huniq : ∀ j, j < u.m_buckets.length →
          (u.bucketAt j).m_index = ivalue + 1 → j = j0 := by
        intro j hj hjt
        rw [hlen] at hj
        rw [hpt j hj] at hjt
        unfold decIdxB at hjt
        split at hjt
        · rename_i hcond
          simp only [] at hjt
          omega
        · refine bucket_index_unique hpos hj hj0 ?_ hj0ne (by rw [hjt, hj0t])
          refine nonempty_of_index (by rw [hjt]; unfold EMPTY_MARKER_INDEX; omega)
      have hgu : Geom u := geom_of_frame hlen hmask hg
      have hfi : findIndexLoop u (ivalue + 1) (u.bucket_for_hash (H kv.1))
          (u.bucket_count + 1) = some j0 := by
        refine findIndexLoop_finds (by rw [hlen]; exact hj0) hj0u huniq _
          (u.bucket_for_hash (H kv.1)) (bfh_lt hgu _) ?_
        have := circDist_lt (bfh_lt hgu (H kv.1)) (show j0 < u.m_buckets.length by
          rw [hlen]; exact hj0)
        unfold bucket_count
        omega
      rw [hfi]
      simp only []
      have hwrite : (u.bucketAt j0).set_index ((u.bucketAt j0).m_index + 2 ^ 32 - 1) =
          (⟨ivalue, (u.bucketAt j0).m_hash⟩ : BucketEntry) := by
        unfold BucketEntry.set_index
        rw [hj0u]
        have he : (ivalue + 1 + 2 ^ 32 - 1) % 2 ^ 32 = ivalue := by
          have h2 : ivalue + 1 + 2 ^ 32 - 1 = ivalue + 2 ^ 32 := by omega
          rw [h2, Nat.add_mod_right]
          exact Nat.mod_eq_of_lt (by omega)
        rw [he]
      rw [hwrite]
      refine shift_leftLoop_spec hg hpos hp hn32 fuel
        (setBucket u j0 ⟨ivalue, (u.bucketAt j0).m_hash⟩) (ivalue + 1)
        (by omega) (by omega) (by omega) (by simp [hval]) (by simp [hlen])
        (by simp [hmask]) ?_
      intro j hj
      by_cases hjj : j = j0
      · subst hjj
        rw [bucketAt_setBucket_self (by rw [hlen]; exact hj0)]
        have hhash : (u.bucketAt j).m_hash = (s.bucketAt j).m_hash := by
          rw [hpt j hj, decIdxB_hash]
        rw [hhash]
        unfold decIdxB
        rw [hj0t, if_pos (by omega)]
        have he2 : ivalue + 1 - 1 = ivalue := by omega
        rw [he2]
      · rw [bucketAt_setBucket_ne hjj, hpt j hj]
        by_cases hidx : (s.bucketAt j).m_index = ivalue + 1
        · exact absurd (bucket_index_unique hpos hj hj0
            (nonempty_of_index (by rw [hidx]; unfold EMPTY_MARKER_INDEX; omega))
            hj0ne (by rw [hidx, hj0t])) hjj
        · unfold decIdxB
          by_cases hc1 : p < (s.bucketAt j).m_index ∧ (s.bucketAt j).m_index < ivalue + 1
          · rw [if_pos hc1, if_pos (by omega)]
          · rw [if_neg hc1, if_neg (by
              intro hc2
              exact hc1 ⟨hc2.1, by omega⟩)]

/-- `shift_indexes_left_in_buckets(p, 1)` after erasing store position `p`:
it terminates and decrements exactly the buckets holding positions above
`p`. -/
theorem shift_indexes_spec {H : ℕ → ℕ} {s : OrderedHash α}
    (hg : Geom s) (hpos : positionsExact s) {p : ℕ}
    (hp : p < s.m_values.length) (hn32 : s.m_values.length < 2 ^ 32) :
    ∃ v, shift_indexes_left_in_buckets H
      { s with m_values := s.m_values.eraseIdx p } p 1 = some v ∧
      v.m_values = s.m_values.eraseIdx p ∧
      v.m_mask = s.m_mask ∧ v.m_max_load_factor = s.m_max_load_factor ∧
      v.m_load_threshold = s.m_load_threshold ∧
      v.m_min_load_factor_rehash_threshold = s.m_min_load_factor_rehash_threshold ∧
      v.m_grow_on_next_insert = s.m_grow_on_next_insert ∧
      v.m_buckets.length = s.m_buckets.length ∧
      (∀ j, j < s.m_buckets.length →
        v.bucketAt j = decIdxB p s.m_values.length (s.bucketAt j)) := by
  obtain ⟨v, hloop, hptv⟩ := shift_leftLoop_spec hg hpos hp hn32
    (({ s with m_values := s.m_values.eraseIdx p } : OrderedHash α).m_values.length + 1)
    ({ s with m_values := s.m_values.eraseIdx p } : OrderedHash α) p
    (le_refl p)
    (by omega)
    (by
      show s.m_values.length - p ≤ (s.m_values.eraseIdx p).length + 1
      rw [List.length_eraseIdx_of_lt hp]
      omega)
    rfl rfl rfl
    (by
      intro j hj
      unfold decIdxB
      rw [if_neg (by omega)]
      rfl)
  obtain ⟨hfv, hfm, hfl, hft, hfmt, hfg, hflen⟩ := shift_leftLoop_frame _ _ _ _ hloop
  refine ⟨v, hloop, by rw [hfv], by rw [hfm], by rw [hfl], by rw [hft],
    by rw [hfmt], by rw [hfg], by rw [hflen], hptv⟩

/-- A cleared bucket entry is empty. -/
theorem clear_empty (b : BucketEntry) : b.clear.empty = true := by
  unfold BucketEntry.clear BucketEntry.empty
  exact decide_eq_true rfl

/-- Under `positionsExact`, once the cell of an occupied slot is removed from
the cell multiset, no remaining cell carries that slot's position. -/
theorem erase_cells_index_ne {s : OrderedHash α} (hp : positionsExact s) {j : ℕ}
    (hj : j < s.m_buckets.length) (hne : (s.bucketAt j).empty = false) :
    ∀ c ∈ (cellsM s).erase (s.bucketAt j), c.m_index ≠ (s.bucketAt j).m_index := by
  intro c hc hcp
  have hmem : s.bucketAt j ∈ cellsM s := cell_mem hj hne
  have hdec : cellsM s = s.bucketAt j ::ₘ (cellsM s).erase (s.bucketAt j) :=
    (Multiset.cons_erase hmem).symm
  have hmap := (positionsExact_iff s).mp hp
  rw [hdec, Multiset.map_cons] at hmap
  have hpn : (s.bucketAt j).m_index ∈ Multiset.range s.m_values.length := by
    rw [← hmap]
    exact Multiset.mem_cons_self _ _
  have h1 : Multiset.count ((s.bucketAt j).m_index)
      (Multiset.range s.m_values.length) = 1 :=
    Multiset.count_eq_one_of_mem (Multiset.nodup_range _) hpn
  have h2 : (s.bucketAt j).m_index ∈
      Multiset.map BucketEntry.m_index ((cellsM s).erase (s.bucketAt j)) :=
    Multiset.mem_map.mpr ⟨c, hc, hcp⟩
  have h3 := congrArg (Multiset.count ((s.bucketAt j).m_index)) hmap
  rw [Multiset.count_cons_self] at h3
  have h4 := Multiset.one_le_count_iff_mem.mpr h2
  omega

/-- Every position carried by the remaining cells is in range. -/
theorem erase_cells_index_lt {s : OrderedHash α} (hp : positionsExact s) {j : ℕ}
    (hj : j < s.m_buckets.length) (hne : (s.bucketAt j).empty = false) :
    ∀ c ∈ (cellsM s).erase (s.bucketAt j), c.m_index < s.m_values.length := by
  intro c hc
  have hmem : s.bucketAt j ∈ cellsM s := cell_mem hj hne
  have hdec : cellsM s = s.bucketAt j ::ₘ (cellsM s).erase (s.bucketAt j) :=
    (Multiset.cons_erase hmem).symm
  have hmap := (positionsExact_iff s).mp hp
  rw [hdec, Multiset.map_cons] at hmap
  have h2 : c.m_index ∈
      Multiset.map BucketEntry.m_index ((cellsM s).erase (s.bucketAt j)) :=
    Multiset.mem_map.mpr ⟨c, hc, rfl⟩
  have h3 : c.m_index ∈ Multiset.range s.m_values.length := by
    rw [← hmap]
    exact Multiset.mem_cons_of_mem h2
  exact Multiset.mem_range.mp h3

/-- Erasing position `p` renumbers `{0, …, n−1}` to `p` together with
`{0, …, n−2}`: the decrement map on positions sends `range n` to
`p ::ₘ range (n − 1)`. -/
theorem range_dec_map (p : ℕ) :
    ∀ n, p < n →
      Multiset.map (fun q => if p < q then q - 1 else q) (Multiset.range n) =
        p ::ₘ Multiset.range (n - 1)
  | 0, h => absurd h (by omega)
  | n + 1, h => by
    rw [Multiset.range_succ, Multiset.map_cons]
    by_cases hpn : p < n
    · rw [range_dec_map p n hpn]
      rw [if_pos hpn, Multiset.cons_swap]
      congr 1
      have hrs : (n - 1) ::ₘ Multiset.range (n - 1) = Multiset.range n := by
        have h2 : n = n - 1 + 1 := by omega
        conv_rhs => rw [h2]
        rw [Multiset.range_succ]
      rw [hrs]
      rfl
    · have hpe : p = n := by omega
      rw [if_neg hpn]
      subst hpe
      congr 1
      have hcg : ∀ q ∈ Multiset.range p, (if p < q then q - 1 else q) = id q := by
        intro q hq
        have := Multiset.mem_range.mp hq
        simp only [id]
        rw [if_neg (by omega)]
      rw [Multiset.map_congr rfl hcg, Multiset.map_id]
      rfl

/-- Tail of `erase_value_from_bucket`: from the post-shift state `s2` (store
entry removed, bucket positions above the erased one decremented), clearing
the erased cell's bucket and backward-shifting preserves the frame, leaves
exactly the decremented remaining cells, and restores well-formedness. -/
theorem erase_finish_spec {H : ℕ → ℕ} {s s2 : OrderedHash α} (w : WF H s) {j : ℕ}
    (hj : j < s.m_buckets.length) (hne : (s.bucketAt j).empty = false)
    (hval : s2.m_values = s.m_values.eraseIdx (s.bucketAt j).m_index)
    (hmask : s2.m_mask = s.m_mask)
    (hmlf : s2.m_max_load_factor = s.m_max_load_factor)
    (hth : s2.m_load_threshold = s.m_load_threshold)
    (hlen : s2.m_buckets.length = s.m_buckets.length)
    (hpt : ∀ i, i < s.m_buckets.length →
      s2.bucketAt i = decIdxB (s.bucketAt j).m_index s.m_values.length (s.bucketAt i)) :
    sameFrame s2 (backward_shift (setBucket s2 j ((s2.bucketAt j).clear)) j) ∧
    cellsM (backward_shift (setBucket s2 j ((s2.bucketAt j).clear)) j) =
      Multiset.map (decIdxB (s.bucketAt j).m_index s.m_values.length)
        ((cellsM s).erase (s.bucketAt j)) ∧
    WF H (backward_shift (setBucket s2 j ((s2.bucketAt j).clear)) j) := by
  have hcellj := w.store (s.bucketAt j) (bucketAt_mem hj) hne
  have hp : (s.bucketAt j).m_index < s.m_values.length := cellOK_idx_lt hcellj
  have hn32 : s.m_values.length < 2 ^ 32 := by
    have h1 := w.sizeLt
    have h2 := w.geom.countLe
    omega
  have hnle : s.m_values.length ≤ 2 ^ 32 - 1 := by omega
  have hN2 : 2 ≤ s.m_buckets.length := by
    have := w.sizeLt
    omega
  have hg2 : Geom s2 := geom_of_frame hlen hmask w.geom
  have hj2 : j < s2.m_buckets.length := by omega
  have hs2j : s2.bucketAt j = s.bucketAt j := by
    rw [hpt j hj]
    unfold decIdxB
    rw [if_neg (by omega)]
  have hcells2 : cellsM s2 =
      Multiset.map (decIdxB (s.bucketAt j).m_index s.m_values.length) (cellsM s) :=
    cellsM_of_pointwise hlen _ (decIdxB_empty hnle) hpt
  have hmem : s.bucketAt j ∈ cellsM s := cell_mem hj hne
  have hdec : cellsM s = s.bucketAt j ::ₘ (cellsM s).erase (s.bucketAt j) :=
    (Multiset.cons_erase hmem).symm
  have hfj : decIdxB (s.bucketAt j).m_index s.m_values.length (s.bucketAt j) =
      s.bucketAt j := by
    unfold decIdxB
    rw [if_neg (by omega)]
  rw [hs2j]
  set s3 := setBucket s2 j ((s.bucketAt j).clear) with hs3def
  have hlen3 : s3.m_buckets.length = s.m_buckets.length := by
    rw [hs3def, setBucket_length, hlen]
  have hj3 : j < s3.m_buckets.length := by omega
  have hs3j : s3.bucketAt j = (s.bucketAt j).clear := by
    rw [hs3def, bucketAt_setBucket_self hj2]
  have hs3e : (s3.bucketAt j).empty = true := by
    rw [hs3j]
    exact clear_empty _
  have hc3 : cellsM s3 + {s.bucketAt j} = cellsM s2 := by
    have hstep := cellsM_set (s := s2) (i := j) hj2 ((s.bucketAt j).clear)
    rw [hs2j, if_pos hne, if_neg (by rw [clear_empty]; simp), ← hs3def] at hstep
    simpa using hstep
  have hc4 : cellsM s3 =
      Multiset.map (decIdxB (s.bucketAt j).m_index s.m_values.length)
        ((cellsM s).erase (s.bucketAt j)) := by
    have h5 : s.bucketAt j ::ₘ cellsM s3 =
        s.bucketAt j ::ₘ
          Multiset.map (decIdxB (s.bucketAt j).m_index s.m_values.length)
            ((cellsM s).erase (s.bucketAt j)) := by
      rw [← Multiset.singleton_add, ← Multiset.singleton_add]
      calc {s.bucketAt j} + cellsM s3 = cellsM s3 + {s.bucketAt j} := add_comm _ _
        _ = cellsM s2 := hc3
        _ = Multiset.map (decIdxB (s.bucketAt j).m_index s.m_values.length)
              (cellsM s) := hcells2
        _ = {s.bucketAt j} +
              Multiset.map (decIdxB (s.bucketAt j).m_index s.m_values.length)
                ((cellsM s).erase (s.bucketAt j)) := by
            conv_lhs => rw [hdec]
            rw [Multiset.map_cons, hfj, Multiset.singleton_add]
    exact (Multiset.cons_inj_right _).mp h5
  have ht : backward_shift s3 j =
      backward_shiftLoop s3 j (2 * s3.bucket_count * s3.bucket_count + 1) := rfl
  rw [ht]
  obtain ⟨hcellsT, hfv, hfm, hfl, hflth, hfmth, hfg, hflen⟩ :=
    backward_shiftLoop_cells (2 * s3.bucket_count * s3.bucket_count + 1) s3 j hj3 hs3e
  have h3v : s3.m_values = s2.m_values := by rw [hs3def]; rfl
  have h3m : s3.m_mask = s2.m_mask := by rw [hs3def]; rfl
  have h3mlf : s3.m_max_load_factor = s2.m_max_load_factor := by rw [hs3def]; rfl
  have h3th : s3.m_load_threshold = s2.m_load_threshold := by rw [hs3def]; rfl
  have h3mth : s3.m_min_load_factor_rehash_threshold =
      s2.m_min_load_factor_rehash_threshold := by rw [hs3def]; rfl
  have h3g : s3.m_grow_on_next_insert = s2.m_grow_on_next_insert := by rw [hs3def]; rfl
  have hTval : (backward_shiftLoop s3 j
      (2 * s3.bucket_count * s3.bucket_count + 1)).m_values =
      s.m_values.eraseIdx (s.bucketAt j).m_index := by
    rw [hfv, h3v, hval]
  have hTmask : (backward_shiftLoop s3 j
      (2 * s3.bucket_count * s3.bucket_count + 1)).m_mask = s.m_mask := by
    rw [hfm, h3m, hmask]
  have hTlen : (backward_shiftLoop s3 j
      (2 * s3.bucket_count * s3.bucket_count + 1)).m_buckets.length =
      s.m_buckets.length := by
    rw [hflen, hlen3]
  have hTmlf : (backward_shiftLoop s3 j
      (2 * s3.bucket_count * s3.bucket_count + 1)).m_max_load_factor =
      s.m_max_load_factor := by
    rw [hfl, h3mlf, hmlf]
  have hTth : (backward_shiftLoop s3 j
      (2 * s3.bucket_count * s3.bucket_count + 1)).m_load_threshold =
      s.m_load_threshold := by
    rw [hflth, h3th, hth]
  have hkey : cellsM (backward_shiftLoop s3 j
      (2 * s3.bucket_count * s3.bucket_count + 1)) =
      Multiset.map (decIdxB (s.bucketAt j).m_index s.m_values.length)
        ((cellsM s).erase (s.bucketAt j)) := by
    rw [hcellsT, hc4]
  refine ⟨⟨hfv.trans h3v, hfm.trans h3m, hfl.trans h3mlf, hflth.trans h3th,
    hfmth.trans h3mth, hfg.trans h3g, hflen.trans (by rw [hs3def, setBucket_length])⟩,
    hkey, ?_⟩
  -- Robin Hood support of the final state, via the backward-shift walk
  have hsupp2 : robinHoodSupport s2 := by
    refine support_transfer hlen hmask ?_ ?_ w.support
    · intro i hi
      rw [hpt i hi, decIdxB_hash]
    · intro i hi
      rw [hpt i hi, decIdxB_empty hnle]
  have hcard2 : Multiset.card (cellsM s2) < s2.m_buckets.length := by
    rw [hcells2, Multiset.card_map, cellsM_card w.pos, hlen]
    exact w.sizeLt
  obtain ⟨E, hE, hEe⟩ := exists_empty_of_spare hcard2
  have hEj : E ≠ j := by
    intro h
    rw [h, hs2j, hne] at hEe
    exact Bool.false_ne_true hEe
  have hE3 : (s3.bucketAt E).empty = true := by
    rw [hs3def, bucketAt_setBucket_ne hEj]
    exact hEe
  have hg3 : Geom s3 := by
    rw [hs3def]
    exact geom_setBucket hg2 j _
  have hE3' : E < s3.m_buckets.length := by omega
  have hbud : circDist (s3.next_bucket j) E s3.m_buckets.length <
      2 * s3.bucket_count * s3.bucket_count + 1 := by
    have h1 : s3.next_bucket j < s3.m_buckets.length := next_lt (by omega) j
    have h2 := circDist_lt h1 hE3'
    have h3 : s3.bucket_count = s3.m_buckets.length := rfl
    have h4 : s3.m_buckets.length * 1 ≤ s3.m_buckets.length * (2 * s3.m_buckets.length) :=
      Nat.mul_le_mul_left _ (by omega)
    have h5 : s3.m_buckets.length * (2 * s3.m_buckets.length) =
        2 * s3.m_buckets.length * s3.m_buckets.length := by ring
    rw [h3]
    omega
  have hsupp3 : ∀ i, i < s3.m_buckets.length → i ≠ s3.next_bucket j → supportAt s3 i := by
    intro i hi hinj
    by_cases hij : i = j
    · subst hij
      intro hne7
      rw [hs3e] at hne7
      exact absurd hne7 (by simp)
    · intro hne7 hpos7
      have hi2 : i < s2.m_buckets.length := by omega
      have hb3i : s3.bucketAt i = s2.bucketAt i := by
        rw [hs3def, bucketAt_setBucket_ne hij]
      have hd3i : s3.dist_from_initial_bucket i = s2.dist_from_initial_bucket i := by
        rw [hs3def, dist_setBucket_ne hij]
      have hpi : s3.prevBucket i = s2.prevBucket i := by
        rw [hs3def, prevBucket_setBucket]
      have hpij : s2.prevBucket i ≠ j := by
        intro h
        have hnx := next_prev (s := s2) (by omega) hi2
        rw [h] at hnx
        apply hinj
        rw [hs3def, next_bucket_setBucket]
        exact hnx.symm
      have hpiN : s2.prevBucket i < s2.m_buckets.length := prev_lt hi2
      have hb3p : s3.bucketAt (s2.prevBucket i) = s2.bucketAt (s2.prevBucket i) := by
        rw [hs3def, bucketAt_setBucket_ne hpij]
      have hd3p : s3.dist_from_initial_bucket (s2.prevBucket i) =
          s2.dist_from_initial_bucket (s2.prevBucket i) := by
        rw [hs3def, dist_setBucket_ne hpij]
      rw [hb3i] at hne7
      rw [hd3i] at hpos7
      obtain ⟨ha, hb⟩ := hsupp2 i (show i < s2.bucket_count from hi2) hne7 hpos7
      rw [hpi, hb3p, hd3i, hd3p]
      exact ⟨ha, hb⟩
  have hghost : (s3.bucketAt (s3.next_bucket j)).empty = false →
      1 < s3.dist_from_initial_bucket (s3.next_bucket j) →
      (s3.bucketAt (s3.prevBucket j)).empty = false ∧
        s3.dist_from_initial_bucket (s3.next_bucket j) ≤
          s3.dist_from_initial_bucket (s3.prevBucket j) + 2 := by
    intro hne8 hd8
    have hnj3 : s3.next_bucket j = s2.next_bucket j := by
      rw [hs3def, next_bucket_setBucket]
    have hpj3 : s3.prevBucket j = s2.prevBucket j := by
      rw [hs3def, prevBucket_setBucket]
    have hnjN : s2.next_bucket j < s2.m_buckets.length := next_lt (by omega) j
    have hnjj : s2.next_bucket j ≠ j := next_ne_self (by omega) hj2
    have hpjj : s2.prevBucket j ≠ j := prev_ne_self (by omega) hj2
    have hb3nj : s3.bucketAt (s2.next_bucket j) = s2.bucketAt (s2.next_bucket j) := by
      rw [hs3def, bucketAt_setBucket_ne hnjj]
    have hd3nj : s3.dist_from_initial_bucket (s2.next_bucket j) =
        s2.dist_from_initial_bucket (s2.next_bucket j) := by
      rw [hs3def, dist_setBucket_ne hnjj]
    have hb3pj : s3.bucketAt (s2.prevBucket j) = s2.bucketAt (s2.prevBucket j) := by
      rw [hs3def, bucketAt_setBucket_ne hpjj]
    have hd3pj : s3.dist_from_initial_bucket (s2.prevBucket j) =
        s2.dist_from_initial_bucket (s2.prevBucket j) := by
      rw [hs3def, dist_setBucket_ne hpjj]
    rw [hnj3, hb3nj] at hne8
    rw [hnj3, hd3nj] at hd8
    rw [hnj3, hpj3, hb3pj, hd3nj, hd3pj]
    obtain ⟨_, hble⟩ := hsupp2 (s2.next_bucket j)
      (show s2.next_bucket j < s2.bucket_count from hnjN) hne8 (by omega)
    rw [prev_next (by omega) hj2] at hble
    have hdj2 : 0 < s2.dist_from_initial_bucket j := by
      by_contra hz
      push_neg at hz
      omega
    obtain ⟨hpne, hple⟩ := hsupp2 j (show j < s2.bucket_count from hj2)
      (by rw [hs2j]; exact hne) hdj2
    exact ⟨hpne, by omega⟩
  have hTsupp : robinHoodSupport (backward_shiftLoop s3 j
      (2 * s3.bucket_count * s3.bucket_count + 1)) :=
    backward_shiftLoop_support (2 * s3.bucket_count * s3.bucket_count + 1) s3 j E
      hg3 hj3 hs3e hE3' hE3 hEj hbud hsupp3 hghost
  refine ⟨geom_of_frame hTlen hTmask w.geom, ?_, ?_, ?_, hTsupp, ?_, ?_, ?_, ?_⟩
  · -- size strictly below bucket count
    rw [hTval, List.length_eraseIdx_of_lt hp, hTlen]
    have := w.sizeLt
    omega
  · -- store consistency
    intro b hb hbe
    have hbm : b ∈ cellsM (backward_shiftLoop s3 j
        (2 * s3.bucket_count * s3.bucket_count + 1)) := by
      unfold cellsM nonEmptyCells
      rw [Multiset.mem_coe]
      exact List.mem_filter.mpr ⟨hb, by simpa using hbe⟩
    rw [hkey] at hbm
    obtain ⟨c, hc, hcb⟩ := Multiset.mem_map.mp hbm
    have hcmem : c ∈ cellsM s := Multiset.mem_of_mem_erase hc
    have hcl : c ∈ s.m_buckets := by
      unfold cellsM nonEmptyCells at hcmem
      rw [Multiset.mem_coe] at hcmem
      exact (List.mem_filter.mp hcmem).1
    have hcne : c.empty = false := by
      unfold cellsM nonEmptyCells at hcmem
      rw [Multiset.mem_coe] at hcmem
      simpa using (List.mem_filter.mp hcmem).2
    have hcok := w.store c hcl hcne
    obtain ⟨kv, hkv, hhash⟩ := cellOK_iff.mp hcok
    have hcidx : c.m_index < s.m_values.length := cellOK_idx_lt hcok
    have hcnep : c.m_index ≠ (s.bucketAt j).m_index :=
      erase_cells_index_ne w.pos hj hne c hc
    by_cases hgt : (s.bucketAt j).m_index < c.m_index
    · have hfc : decIdxB (s.bucketAt j).m_index s.m_values.length c =
          ⟨c.m_index - 1, c.m_hash⟩ := by
        unfold decIdxB
        rw [if_pos ⟨hgt, hcidx⟩]
      have hbidx : b.m_index = c.m_index - 1 := by
        rw [← hcb, hfc]
      have hbh : b.m_hash = c.m_hash := by
        rw [← hcb, decIdxB_hash]
      refine cellOK_iff.mpr ⟨kv, ?_, ?_⟩
      · rw [hbidx, hTval, List.get?_eq_getElem?,
          List.getElem?_eraseIdx_of_ge _ _ _ (by omega),
          show c.m_index - 1 + 1 = c.m_index from by omega, ← List.get?_eq_getElem?]
        exact hkv
      · rw [hbh, hhash]
    · have hfc : decIdxB (s.bucketAt j).m_index s.m_values.length c = c := by
        unfold decIdxB
        rw [if_neg (by omega)]
      have hbc2 : b = c := by rw [← hcb, hfc]
      subst hbc2
      refine cellOK_iff.mpr ⟨kv, ?_, hhash⟩
      rw [hTval, List.get?_eq_getElem?,
        List.getElem?_eraseIdx_of_lt _ _ _ (by omega), ← List.get?_eq_getElem?]
      exact hkv
  · -- positions are exactly the renumbered range
    rw [positionsExact_iff, hkey, hTval, List.length_eraseIdx_of_lt hp,
      Multiset.map_map]
    have hmapeq : Multiset.map
        (BucketEntry.m_index ∘ decIdxB (s.bucketAt j).m_index s.m_values.length)
        ((cellsM s).erase (s.bucketAt j)) =
        Multiset.map
          ((fun q => if (s.bucketAt j).m_index < q then q - 1 else q) ∘
            BucketEntry.m_index)
          ((cellsM s).erase (s.bucketAt j)) := by
      refine Multiset.map_congr rfl ?_
      intro c hc
      have hlt := erase_cells_index_lt w.pos hj hne c hc
      show (decIdxB (s.bucketAt j).m_index s.m_values.length c).m_index =
        (if (s.bucketAt j).m_index < c.m_index then c.m_index - 1 else c.m_index)
      unfold decIdxB
      by_cases hg : (s.bucketAt j).m_index < c.m_index
      · rw [if_pos ⟨hg, hlt⟩, if_pos hg]
      · rw [if_neg (by omega), if_neg hg]
    rw [hmapeq, ← Multiset.map_map]
    have hmap := (positionsExact_iff s).mp w.pos
    rw [hdec, Multiset.map_cons] at hmap
    have h6 := congrArg
      (Multiset.map (fun q => if (s.bucketAt j).m_index < q then q - 1 else q)) hmap
    rw [Multiset.map_cons] at h6
    rw [if_neg (by omega), range_dec_map _ _ hp] at h6
    exact (Multiset.cons_inj_right _).mp h6
  · -- key nodup
    rw [hTval]
    exact List.Nodup.sublist
      ((List.eraseIdx_sublist s.m_values (s.bucketAt j).m_index).map Prod.fst) w.nodup
  · rw [hTmlf]
    exact w.mlfPos
  · rw [hTmlf]
    exact w.mlfLtOne
  · rw [hTth, hTmlf, hTlen]
    exact w.threshold

/-- `erase_value_from_bucket` under `WF`: it terminates with the store entry
at the bucket's position removed and the later entries shifted left, every
scalar field preserved, exactly the decremented remaining bucket cells, and
a well-formed result. -/
theorem erase_value_from_bucket_spec {H : ℕ → ℕ} {s : OrderedHash α} (w : WF H s)
    {j : ℕ} (hj : j < s.m_buckets.length) (hne : (s.bucketAt j).empty = false) :
    ∃ t, erase_value_from_bucket H s j = some t ∧
      t.m_values = s.m_values.eraseIdx ((s.bucketAt j).m_index) ∧
      t.m_mask = s.m_mask ∧ t.m_max_load_factor = s.m_max_load_factor ∧
      t.m_load_threshold = s.m_load_threshold ∧
      t.m_min_load_factor_rehash_threshold = s.m_min_load_factor_rehash_threshold ∧
      t.m_grow_on_next_insert = s.m_grow_on_next_insert ∧
      t.m_buckets.length = s.m_buckets.length ∧
      cellsM t = Multiset.map (decIdxB (s.bucketAt j).m_index s.m_values.length)
        ((cellsM s).erase (s.bucketAt j)) ∧
      WF H t := by
  have hcellj := w.store (s.bucketAt j) (bucketAt_mem hj) hne
  have hp : (s.bucketAt j).m_index < s.m_values.length := cellOK_idx_lt hcellj
  have hn32 : s.m_values.length < 2 ^ 32 := by
    have h1 := w.sizeLt
    have h2 := w.geom.countLe
    omega
  by_cases hlast : (s.bucketAt j).m_index =
      (s.m_values.eraseIdx (s.bucketAt j).m_index).length
  · -- erasing the last store entry: no shift of bucket positions is needed
    have hlasteq : (s.bucketAt j).m_index = s.m_values.length - 1 := by
      rw [List.length_eraseIdx_of_lt hp] at hlast
      omega
    have hpt : ∀ i, i < s.m_buckets.length →
        ({ s with m_values := s.m_values.eraseIdx (s.bucketAt j).m_index } :
          OrderedHash α).bucketAt i =
        decIdxB (s.bucketAt j).m_index s.m_values.length (s.bucketAt i) := by
      intro i hi
      unfold decIdxB
      rw [if_neg (by omega)]
      rfl
    have hval0 : ({ s with m_values := s.m_values.eraseIdx (s.bucketAt j).m_index } :
        OrderedHash α).m_values = s.m_values.eraseIdx (s.bucketAt j).m_index := rfl
    obtain ⟨hsf, hcells, hwf⟩ := erase_finish_spec w hj hne hval0 rfl rfl rfl rfl hpt
    obtain ⟨t1, t2, t3, t4, t5, t6, t7⟩ := hsf
    refine ⟨_, ?_, t1.trans rfl, t2.trans rfl, t3.trans rfl, t4.trans rfl,
      t5.trans rfl, t6.trans rfl, t7.trans rfl, hcells, hwf⟩
    unfold erase_value_from_bucket
    simp only []
    rw [if_neg (by exact fun h => h hlast)]
  · -- interior erase: positions above the erased one are shifted left first
    obtain ⟨v, hloop, hvval, hvmask, hvmlf, hvth, hvmth, hvgrow, hvlen, hvpt⟩ :=
      shift_indexes_spec (H := H) w.geom w.pos hp hn32
    obtain ⟨hsf, hcells, hwf⟩ := erase_finish_spec w hj hne
      hvval hvmask hvmlf hvth hvlen hvpt
    obtain ⟨t1, t2, t3, t4, t5, t6, t7⟩ := hsf
    refine ⟨_, ?_, t1.trans hvval, t2.trans hvmask, t3.trans hvmlf, t4.trans hvth,
      t5.trans hvmth, t6.trans hvgrow, t7.trans hvlen, hcells, hwf⟩
    unfold erase_value_from_bucket
    simp only []
    rw [if_pos hlast, hloop]

/-- `erase(key)` on a present key under `WF`: the erased count is 1, the
store loses exactly the key's position, every scalar field is kept, the
remaining occupied buckets are the old ones with positions above the erased
one decremented, and the result is well-formed. -/
theorem eraseOp_found {H : ℕ → ℕ} {s : OrderedHash α} (w : WF H s)
    {p k : ℕ} {v : α} (hkv : s.m_values.get? p = some (k, v)) :
    ∃ t, eraseOp H s k = some (1, t) ∧
      t.m_values = s.m_values.eraseIdx p ∧
      t.m_mask = s.m_mask ∧ t.m_max_load_factor = s.m_max_load_factor ∧
      t.m_load_threshold = s.m_load_threshold ∧
      t.m_min_load_factor_rehash_threshold = s.m_min_load_factor_rehash_threshold ∧
      t.m_grow_on_next_insert = s.m_grow_on_next_insert ∧
      t.m_buckets.length = s.m_buckets.length ∧
      (∃ c ∈ cellsM s, c.m_index = p ∧
        cellsM t = Multiset.map (decIdxB p s.m_values.length) ((cellsM s).erase c)) ∧
      WF H t := by
  obtain ⟨j, hfind, hjN, hjne, hjp⟩ := find_key_finds w hkv
  obtain ⟨t, heq, hval, hmask, hmlf, hth, hmth, hgrow, hlen, hcells, hwf⟩ :=
    erase_value_from_bucket_spec w hjN hjne
  refine ⟨t, ?_, by rw [hval, hjp], hmask, hmlf, hth, hmth, hgrow, hlen,
    ⟨s.bucketAt j, cell_mem hjN hjne, hjp, by rw [hcells, hjp]⟩, hwf⟩
  unfold eraseOp erase_impl
  rw [hfind]
  simp only []
  rw [heq]
  rfl

/-- `erase(key)` on an absent key returns 0 and keeps the state. -/
theorem eraseOp_absent {H : ℕ → ℕ} {s : OrderedHash α} {k : ℕ}
    (hk : k ∉ s.m_values.map Prod.fst) :
    eraseOp H s k = some (0, s) := by
  unfold eraseOp erase_impl
  rw [find_key_none hk]

/-- `erase(key)` preserves well-formedness. -/
theorem eraseOp_WF {H : ℕ → ℕ} {s : OrderedHash α} (w : WF H s) {k cnt : ℕ}
    {t : OrderedHash α} (h : eraseOp H s k = some (cnt, t)) : WF H t := by
  by_cases hmem : k ∈ s.m_values.map Prod.fst
  · obtain ⟨p, v0, hkv⟩ := mem_keys_get hmem
    obtain ⟨t2, heq, _, _, _, _, _, _, _, _, hwf⟩ := eraseOp_found w hkv
    rw [heq] at h
    obtain h2 := Option.some.inj h
    obtain rfl : t2 = t := congrArg Prod.snd h2
    exact hwf
  · rw [eraseOp_absent hmem] at h
    obtain h2 := Option.some.inj h
    obtain rfl : s = t := congrArg Prod.snd h2
    exact w

/-- Erasing the index that was just overwritten ignores the write. -/
theorem eraseIdx_set_self {X : Type} (l : List X) (i : ℕ) (a : X) :
    (l.set i a).eraseIdx i = l.eraseIdx i := by
  apply List.ext_getElem?
  intro j
  by_cases hj : j < i
  · rw [List.getElem?_eraseIdx_of_lt _ _ _ hj, List.getElem?_eraseIdx_of_lt _ _ _ hj,
      List.getElem?_set_ne (by omega)]
  · rw [List.getElem?_eraseIdx_of_ge _ _ _ (by omega),
      List.getElem?_eraseIdx_of_ge _ _ _ (by omega),
      List.getElem?_set_ne (by omega)]

/-- Swapping two distinct in-range entries keeps the multiset of entries. -/
theorem multiset_swap {X : Type} {l : List X} {p q : ℕ} {a b : X}
    (hpq : p ≠ q) (hp : l.get? p = some a) (hq : l.get? q = some b) :
    Multiset.ofList ((l.set p b).set q a) = Multiset.ofList l := by
  have hpl : p < l.length := (List.get?_eq_some.mp hp).1
  have hql : q < l.length := (List.get?_eq_some.mp hq).1
  have h1 := multiset_set l p hpl b a
  have h2 := multiset_set (l.set p b) q (by simpa using hql) a b
  have hgd1 : l.getD p a = a := by
    rw [List.getD_eq_getElem?_getD, ← List.get?_eq_getElem?, hp]
    rfl
  have hgd2 : (l.set p b).getD q b = b := by
    rw [getD_set_ne _ _ _ (fun h => hpq h.symm), List.getD_eq_getElem?_getD,
      ← List.get?_eq_getElem?, hq]
    rfl
  rw [hgd1] at h1
  rw [hgd2] at h2
  exact add_right_cancel (h2.trans h1)

/-- The swap state built by `unordered_erase` on a non-last entry: the two
store entries and the position fields of their two buckets are exchanged;
the result is still well-formed. -/
theorem swap_state_WF {H : ℕ → ℕ} {s : OrderedHash α} (w : WF H s)
    {jb jL p q : ℕ} {vp vq : ℕ × α}
    (hjb : jb < s.m_buckets.length) (hjL : jL < s.m_buckets.length)
    (hbne : (s.bucketAt jb).empty = false) (hLne : (s.bucketAt jL).empty = false)
    (hpi : (s.bucketAt jb).m_index = p) (hqi : (s.bucketAt jL).m_index = q)
    (hpq : p ≠ q)
    (hvp : s.m_values.get? p = some vp) (hvq : s.m_values.get? q = some vq) :
    WF H (setBucket (setBucket
      ({ s with m_values := (s.m_values.set p vq).set q vp } : OrderedHash α)
      jb ⟨q, (s.bucketAt jb).m_hash⟩) jL ⟨p, (s.bucketAt jL).m_hash⟩) := by
  have hjbL : jb ≠ jL := by
    intro h
    rw [h, hqi] at hpi
    exact hpq hpi.symm
  have hpl : p < s.m_values.length := (List.get?_eq_some.mp hvp).1
  have hql : q < s.m_values.length := (List.get?_eq_some.mp hvq).1
  have hn32 : s.m_values.length < 2 ^ 32 := by
    have h1 := w.sizeLt
    have h2 := w.geom.countLe
    omega
  set s1 : OrderedHash α := { s with m_values := (s.m_values.set p vq).set q vp }
    with hs1def
  set s2 := setBucket s1 jb (⟨q, (s.bucketAt jb).m_hash⟩ : BucketEntry) with hs2def
  set s3 := setBucket s2 jL (⟨p, (s.bucketAt jL).m_hash⟩ : BucketEntry) with hs3def
  have h1b : s1.m_buckets = s.m_buckets := rfl
  have h1m : s1.m_mask = s.m_mask := rfl
  have hlen1 : s1.m_buckets.length = s.m_buckets.length := by rw [h1b]
  have hlen2 : s2.m_buckets.length = s.m_buckets.length := by
    rw [hs2def, setBucket_length, hlen1]
  have hlen3 : s3.m_buckets.length = s.m_buckets.length := by
    rw [hs3def, setBucket_length, hlen2]
  have hmask3 : s3.m_mask = s.m_mask := by
    rw [hs3def, setBucket_mask, hs2def, setBucket_mask, h1m]
  have hval3 : s3.m_values = (s.m_values.set p vq).set q vp := by
    rw [hs3def, setBucket_values, hs2def, setBucket_values]
  have hb1 : ∀ i, s1.bucketAt i = s.bucketAt i := bucketAt_congr h1b
  have hb3L : s3.bucketAt jL = ⟨p, (s.bucketAt jL).m_hash⟩ := by
    rw [hs3def, bucketAt_setBucket_self (by omega)]
  have hb3b : s3.bucketAt jb = ⟨q, (s.bucketAt jb).m_hash⟩ := by
    rw [hs3def, bucketAt_setBucket_ne hjbL, hs2def, bucketAt_setBucket_self (by omega)]
  have hb3o : ∀ i, i ≠ jb → i ≠ jL → s3.bucketAt i = s.bucketAt i := by
    intro i hib hiL
    rw [hs3def, bucketAt_setBucket_ne hiL, hs2def, bucketAt_setBucket_ne hib, hb1]
  have hokb := w.store (s.bucketAt jb) (bucketAt_mem hjb) hbne
  obtain ⟨kvb, hkvb, hhb⟩ := cellOK_iff.mp hokb
  rw [hpi] at hkvb
  obtain rfl : vp = kvb := Option.some.inj (hvp.symm.trans hkvb)
  have hokL := w.store (s.bucketAt jL) (bucketAt_mem hjL) hLne
  obtain ⟨kvL, hkvL, hhL⟩ := cellOK_iff.mp hokL
  rw [hqi] at hkvL
  obtain rfl : vq = kvL := Option.some.inj (hvq.symm.trans hkvL)
  have hv3q : s3.m_values.get? q = some vp := by
    rw [hval3]
    exact List.get?_set_eq_of_lt _ (by rw [List.length_set]; omega)
  have hv3p : s3.m_values.get? p = some vq := by
    rw [hval3, List.get?_set_ne _ _ (fun h => hpq h.symm)]
    exact List.get?_set_eq_of_lt _ hpl
  have hv3o : ∀ i, i ≠ p → i ≠ q → s3.m_values.get? i = s.m_values.get? i := by
    intro i h1 h2
    rw [hval3, List.get?_set_ne _ _ (fun h => h2 h.symm),
      List.get?_set_ne _ _ (fun h => h1 h.symm)]
  refine ⟨geom_of_frame hlen3 hmask3 w.geom, ?_, ?_, ?_, ?_, ?_, ?_, ?_, ?_⟩
  · rw [hval3, List.length_set, List.length_set, hlen3]
    exact w.sizeLt
  · -- store consistency of the swapped state
    intro b hbmem hbe
    obtain ⟨i, hi, hgeti⟩ := List.getElem_of_mem hbmem
    have hbi : s3.bucketAt i = b := by
      rw [bucketAt, List.getD_eq_getElem?_getD, List.getElem?_eq_getElem hi]
      simpa using hgeti
    have hiN : i < s.m_buckets.length := by omega
    by_cases hib : i = jb
    · subst hib
      rw [hb3b] at hbi
      refine cellOK_iff.mpr ⟨vp, ?_, ?_⟩
      · rw [← hbi]
        exact hv3q
      · rw [← hbi]
        exact hhb
    · by_cases hiL : i = jL
      · subst hiL
        rw [hb3L] at hbi
        refine cellOK_iff.mpr ⟨vq, ?_, ?_⟩
        · rw [← hbi]
          exact hv3p
        · rw [← hbi]
          exact hhL
      · rw [hb3o i hib hiL] at hbi
        subst hbi
        have hok := w.store (s.bucketAt i) (bucketAt_mem hiN) hbe
        obtain ⟨kv, hkv, hh⟩ := cellOK_iff.mp hok
        have hip : (s.bucketAt i).m_index ≠ p := by
          intro h
          exact hib (bucket_index_unique w.pos hiN hjb hbe hbne (by rw [h, hpi]))
        have hiq : (s.bucketAt i).m_index ≠ q := by
          intro h
          exact hiL (bucket_index_unique w.pos hiN hjL hbe hLne (by rw [h, hqi]))
        exact cellOK_iff.mpr ⟨kv, by rw [hv3o _ hip hiq]; exact hkv, hh⟩
  · -- exchanged positions leave the position multiset unchanged
    rw [positionsExact_iff]
    have hc1 : cellsM s1 = cellsM s := cellsM_congr h1b
    have hstep1 := cellsM_set (s := s1) (i := jb) (by omega)
      (⟨q, (s.bucketAt jb).m_hash⟩ : BucketEntry)
    rw [hb1 jb, if_pos hbne, if_pos (nonempty_mk (by omega)), ← hs2def, hc1] at hstep1
    have hstep2 := cellsM_set (s := s2) (i := jL) (by omega)
      (⟨p, (s.bucketAt jL).m_hash⟩ : BucketEntry)
    have hb2L : s2.bucketAt jL = s.bucketAt jL := by
      rw [hs2def, bucketAt_setBucket_ne (fun h => hjbL h.symm), hb1]
    rw [hb2L, if_pos hLne, if_pos (nonempty_mk (by omega)), ← hs3def] at hstep2
    have m1 := congrArg (Multiset.map BucketEntry.m_index) hstep1
    have m2 := congrArg (Multiset.map BucketEntry.m_index) hstep2
    rw [Multiset.map_add, Multiset.map_add, Multiset.map_singleton,
      Multiset.map_singleton] at m1 m2
    simp only [] at m1 m2
    rw [hpi] at m1
    rw [hqi] at m2
    have m4 := add_right_cancel (m2.trans m1)
    rw [m4, (positionsExact_iff s).mp w.pos]
    congr 1
    rw [hval3, List.length_set, List.length_set]
  · -- hashes and emptiness are slotwise unchanged, so support transfers
    refine support_transfer hlen3 hmask3 ?_ ?_ w.support
    · intro i hi
      by_cases hib : i = jb
      · subst hib
        rw [hb3b]
      · by_cases hiL : i = jL
        · subst hiL
          rw [hb3L]
        · rw [hb3o i hib hiL]
    · intro i hi
      by_cases hib : i = jb
      · subst hib
        rw [hb3b, nonempty_mk (by omega), hbne]
      · by_cases hiL : i = jL
        · subst hiL
          rw [hb3L, nonempty_mk (by omega), hLne]
        · rw [hb3o i hib hiL]
  · -- the key multiset is only permuted
    show ((s3.m_values).map Prod.fst).Nodup
    rw [hval3]
    have hml := multiset_swap hpq hvp hvq
    have hmap : Multiset.map Prod.fst
        (Multiset.ofList ((s.m_values.set p vq).set q vp)) =
        Multiset.map Prod.fst (Multiset.ofList s.m_values) := by rw [hml]
    rw [Multiset.map_coe, Multiset.map_coe] at hmap
    have hnd := w.nodup
    rw [← Multiset.coe_nodup] at hnd ⊢
    rw [hmap]
    exact hnd
  · have hmlf3 : s3.m_max_load_factor = s.m_max_load_factor := by
      rw [hs3def, setBucket_mlf, hs2def, setBucket_mlf]
    rw [hmlf3]
    exact w.mlfPos
  · have hmlf3 : s3.m_max_load_factor = s.m_max_load_factor := by
      rw [hs3def, setBucket_mlf, hs2def, setBucket_mlf]
    rw [hmlf3]
    exact w.mlfLtOne
  · have hmlf3 : s3.m_max_load_factor = s.m_max_load_factor := by
      rw [hs3def, setBucket_mlf, hs2def, setBucket_mlf]
    have hth3 : s3.m_load_threshold = s.m_load_threshold := by
      rw [hs3def, setBucket_threshold, hs2def, setBucket_threshold]
    rw [hmlf3, hth3, hlen3]
    exact w.threshold

/-- `unordered_erase(key)` on a present key under `WF`: the key's entry is
exchanged with the last store entry (a no-op when it is the last) and the
last position is popped, so the store becomes
`(set p back).eraseIdx (n−1)`; scalar fields are kept and the result is
well-formed. -/
theorem unordered_eraseOp_found {H : ℕ → ℕ} {s : OrderedHash α} (w : WF H s)
    {p k : ℕ} {v : α} (hkv : s.m_values.get? p = some (k, v)) :
    ∃ t back, s.m_values.getLast? = some back ∧
      unordered_eraseOp H s k = some (1, t) ∧
      t.m_values = (s.m_values.set p back).eraseIdx (s.m_values.length - 1) ∧
      t.m_mask = s.m_mask ∧ t.m_buckets.length = s.m_buckets.length ∧
      t.m_max_load_factor = s.m_max_load_factor ∧
      WF H t := by
  have hpl : p < s.m_values.length := (List.get?_eq_some.mp hkv).1
  have hlastg : s.m_values.getLast? = s.m_values.get? (s.m_values.length - 1) := by
    rw [List.getLast?_eq_getElem?, List.get?_eq_getElem?]
  cases hget : s.m_values.get? (s.m_values.length - 1) with
  | none =>
    have := List.get?_eq_none.mp hget
    omega
  | some back =>
    have hback : s.m_values.getLast? = some back := by rw [hlastg, hget]
    obtain ⟨jb, hfind, hjbN, hjbne, hjbp⟩ := find_key_finds w hkv
    by_cases hkb : k = back.1
    · -- the key's entry is the last one: plain ordered erase of the last slot
      have hpn : p = s.m_values.length - 1 :=
        nodup_pos_eq w.nodup hkv (show s.m_values.get? (s.m_values.length - 1) =
          some (back.1, back.2) from hget) hkb
      obtain ⟨t, heq, hval, hmask, hmlf, hth, hmth, hgrow, hlen, hcells, hwf⟩ :=
        erase_value_from_bucket_spec w hjbN hjbne
      refine ⟨t, back, hback, ?_, ?_, hmask, hlen, hmlf, hwf⟩
      · unfold unordered_eraseOp
        simp only []
        rw [hfind]
        simp only []
        rw [hback]
        simp only []
        rw [if_pos hkb, heq]
        rfl
      · rw [hval, hjbp, hpn, eraseIdx_set_self]
    · -- general case: swap with the last entry, then erase the last position
      have hpn : p ≠ s.m_values.length - 1 := by
        intro h
        rw [h, hget] at hkv
        exact hkb (congrArg Prod.fst (Option.some.inj hkv)).symm
      obtain ⟨jL, hfindL, hjLN, hjLne, hjLq⟩ := find_key_finds w
        (show s.m_values.get? (s.m_values.length - 1) = some (back.1, back.2) from hget)
      have hjLb : jL ≠ jb := by
        intro h
        rw [h, hjbp] at hjLq
        exact hpn hjLq
      have hw3 := swap_state_WF w hjbN hjLN hjbne hjLne hjbp hjLq hpn hkv hget
      -- name the swap state
      set s3 : OrderedHash α := setBucket (setBucket
        ({ s with m_values := (s.m_values.set p back).set (s.m_values.length - 1) (k, v) }
          : OrderedHash α)
        jb ⟨s.m_values.length - 1, (s.bucketAt jb).m_hash⟩) jL
        ⟨p, (s.bucketAt jL).m_hash⟩ with hs3def
      have hlen3 : s3.m_buckets.length = s.m_buckets.length := by
        rw [hs3def, setBucket_length, setBucket_length]
      have hjb3 : jb < s3.m_buckets.length := by omega
      have hb3b : s3.bucketAt jb =
          ⟨s.m_values.length - 1, (s.bucketAt jb).m_hash⟩ := by
        rw [hs3def, bucketAt_setBucket_ne (fun h => hjLb h.symm),
          bucketAt_setBucket_self (by show jb < s.m_buckets.length; omega)]
      have hn32 : s.m_values.length < 2 ^ 32 := by
        have h1 := w.sizeLt
        have h2 := w.geom.countLe
        omega
      have hb3ne : (s3.bucketAt jb).empty = false := by
        rw [hb3b]
        exact nonempty_mk (by omega)
      obtain ⟨t, heq, hval, hmask, hmlf, hth, hmth, hgrow, hlen, hcells, hwf⟩ :=
        erase_value_from_bucket_spec hw3 hjb3 hb3ne
      have hidx3 : (s3.bucketAt jb).m_index = s.m_values.length - 1 := by
        rw [hb3b]
      refine ⟨t, back, hback, ?_, ?_, hmask.trans (by rw [hs3def]; rfl),
        hlen.trans hlen3, hmlf.trans (by rw [hs3def]; rfl), hwf⟩
      · unfold unordered_eraseOp
        simp only []
        rw [hfind]
        simp only []
        rw [hback]
        simp only []
        rw [if_neg hkb, hfindL]
        simp only []
        rw [hjbp, hjLq, hkv, hget]
        simp only []
        have e1 : ({ s with
              m_values := (s.m_values.set p back).set (s.m_values.length - 1) (k, v) } :
              OrderedHash α).bucketAt jb =
            s.bucketAt jb := bucketAt_congr rfl jb
        rw [e1]
        have e2 : (setBucket
            ({ s with
              m_values := (s.m_values.set p back).set (s.m_values.length - 1) (k, v) } :
              OrderedHash α)
            jb ⟨s.m_values.length - 1, (s.bucketAt jb).m_hash⟩).bucketAt jL =
            s.bucketAt jL := by
          rw [bucketAt_setBucket_ne hjLb]
          exact bucketAt_congr rfl jL
        rw [e2, ← hs3def, heq]
        rfl
      · have hv3 : s3.m_values =
            (s.m_values.set p back).set (s.m_values.length - 1) (k, v) := by
          rw [hs3def]
          rfl
        rw [hval, hidx3, hv3, eraseIdx_set_self]

/-- `unordered_erase(key)` on an absent key returns 0 and keeps the state. -/
theorem unordered_eraseOp_absent {H : ℕ → ℕ} {s : OrderedHash α} {k : ℕ}
    (hk : k ∉ s.m_values.map Prod.fst) :
    unordered_eraseOp H s k = some (0, s) := by
  unfold unordered_eraseOp
  simp only []
  rw [find_key_none hk]

/-- `unordered_erase(key)` preserves well-formedness. -/
theorem unordered_eraseOp_WF {H : ℕ → ℕ} {s : OrderedHash α} (w : WF H s)
    {k cnt : ℕ} {t : OrderedHash α}
    (h : unordered_eraseOp H s k = some (cnt, t)) : WF H t := by
  by_cases hmem : k ∈ s.m_values.map Prod.fst
  · obtain ⟨p, v0, hkv⟩ := mem_keys_get hmem
    obtain ⟨t2, back, hback, heq, _, _, _, _, hwf⟩ := unordered_eraseOp_found w hkv
    rw [heq] at h
    obtain rfl : t2 = t := congrArg Prod.snd (Option.some.inj h)
    exact hwf
  · rw [unordered_eraseOp_absent hmem] at h
    obtain rfl : s = t := congrArg Prod.snd (Option.some.inj h)
    exact w

/-- `clear()` preserves well-formedness: the store is emptied and every
bucket cell is cleared. -/
theorem clearOp_WF {H : ℕ → ℕ} {s : OrderedHash α} (w : WF H s) :
    WF H (clearOp s) := by
  have hb : (clearOp s).m_buckets = s.m_buckets.map BucketEntry.clear := rfl
  have hlen : (clearOp s).m_buckets.length = s.m_buckets.length := by
    rw [hb, List.length_map]
  have hv : (clearOp s).m_values = ([] : List (ℕ × α)) := rfl
  have hall : ∀ b ∈ (clearOp s).m_buckets, b.empty = true := by
    intro b hbm
    rw [hb] at hbm
    obtain ⟨c, _, hcb⟩ := List.mem_map.mp hbm
    rw [← hcb]
    exact clear_empty c
  have hcells0 : cellsM (clearOp s) = 0 := by
    unfold cellsM nonEmptyCells
    rw [List.filter_eq_nil_iff.mpr (by
      intro a ha
      rw [hall a ha]
      simp)]
    rfl
  refine ⟨⟨?_, ?_, ?_⟩, ?_, ?_, ?_, ?_, ?_, w.mlfPos, w.mlfLtOne, ?_⟩
  · rw [hlen]
    exact w.geom.pow2
  · rw [hlen]
    exact w.geom.maskEq
  · rw [hlen]
    exact w.geom.countLe
  · rw [hv, hlen]
    have := w.geom.countPos
    simpa using this
  · intro b hbm hbe
    rw [hall b hbm] at hbe
    exact absurd hbe (by simp)
  · rw [positionsExact_iff, hcells0, hv]
    simp
  · intro i hi hne
    rw [hall _ (bucketAt_mem hi)] at hne
    exact absurd hne (by simp)
  · rw [hv]
    simp
  · rw [hlen]
    exact w.threshold

/-- The constructor builds a well-formed table for any in-range maximum load
factor. -/
theorem mkTable_WF {H : ℕ → ℕ} {n : ℕ} {ml : ℚ} {t0 : OrderedHash α}
    (hml0 : 0 < ml.num) (hml1 : ml.num < (ml.den : ℤ))
    (h : mkTable n ml = some t0) : WF H t0 := by
  rw [mkTable] at h
  by_cases hbig : round_up_to_power_of_two n > MAX_BUCKET_COUNT
  · rw [if_pos hbig] at h
    exact absurd h (by simp)
  · rw [if_neg hbig] at h
    obtain rfl := Option.some.inj h
    have hle : round_up_to_power_of_two n ≤ 2 ^ 32 := by
      unfold MAX_BUCKET_COUNT at hbig
      omega
    obtain ⟨kk, hkk⟩ := round_up_spec_of_le hle
    have hpos := round_up_pos n
    set T := max_load_factorOp
      (⟨List.replicate (round_up_to_power_of_two n) BucketEntry.mk0,
        round_up_to_power_of_two n - 1, [], false, ml, 0, 0⟩ : OrderedHash α) ml
      with hTdef
    have hTb : T.m_buckets =
        List.replicate (round_up_to_power_of_two n) BucketEntry.mk0 := rfl
    have hTlen : T.m_buckets.length = round_up_to_power_of_two n := by
      rw [hTb, List.length_replicate]
    have hTv : T.m_values = ([] : List (ℕ × α)) := rfl
    have hTmask : T.m_mask = round_up_to_power_of_two n - 1 := rfl
    have hTmlf : T.m_max_load_factor = ml := rfl
    have hTth : T.m_load_threshold = ratFloorMul (round_up_to_power_of_two n) ml := by
      show ratFloorMul
        (List.replicate (round_up_to_power_of_two n) BucketEntry.mk0).length ml =
        ratFloorMul (round_up_to_power_of_two n) ml
      rw [List.length_replicate]
    have hcells0 : cellsM T = 0 := cellsM_of_replicate hTb
    refine ⟨⟨?_, ?_, ?_⟩, ?_, ?_, ?_, ?_, ?_, ?_, ?_, ?_⟩
    · rw [hTlen]
      exact (is_power_of_two_iff _).mpr ⟨kk, hkk⟩
    · rw [hTlen]
      exact hTmask
    · rw [hTlen]
      exact hle
    · rw [hTv, hTlen]
      simpa using hpos
    · intro b hbm hbe
      rw [hTb] at hbm
      rw [List.eq_of_mem_replicate hbm, mk0_empty] at hbe
      exact absurd hbe (by simp)
    · rw [positionsExact_iff, hcells0, hTv]
      simp
    · intro i hi hne
      rw [bucketAt_of_buckets_replicate hTb (by
        unfold bucket_count at hi
        omega), mk0_empty] at hne
      exact absurd hne (by simp)
    · rw [hTv]
      simp
    · rw [hTmlf]
      exact hml0
    · rw [hTmlf]
      exact hml1
    · rw [hTth, hTlen, hTmlf]

/-- Every state reachable by the claim-C2 operations from a freshly built
table is well-formed. -/
theorem reachable_WF {H : ℕ → ℕ} {s : OrderedHash α}
    (h : Reachable H s) : WF H s := by
  induction h with
  | init n s hmk =>
    exact mkTable_WF (by norm_num [DEFAULT_MAX_LOAD_FACTOR])
      (by norm_num [DEFAULT_MAX_LOAD_FACTOR]) hmk
  | insert s s2 k v p b _ hop ih => exact insertOp_WF ih hop
  | erase s s2 k n _ hop ih => exact eraseOp_WF ih hop
  | unordered s s2 k n _ hop ih => exact unordered_eraseOp_WF ih hop
  | rehash s s2 n _ hop ih => exact (rehashOp_spec ih hop).1
  | reserve s s2 n _ hop ih => exact (reserveOp_spec ih hop).1
  | clear s _ ih => exact clearOp_WF ih

/-- A table built by `mkTable` has an empty store. -/
theorem mkTable_values {n : ℕ} {ml : ℚ} {t0 : OrderedHash α}
    (h : mkTable n ml = some t0) : t0.m_values = [] := by
  rw [mkTable] at h
  by_cases hbig : round_up_to_power_of_two n > MAX_BUCKET_COUNT
  · rw [if_pos hbig] at h
    exact absurd h (by simp)
  · rw [if_neg hbig] at h
    obtain rfl := Option.some.inj h
    rfl

end OrderedHash

/-- Exact value of the float literal `0.5f`, used to build a table with a
non-default load factor. -/
def halfQ : ℚ := ⟨1, 2, by norm_num, by norm_num⟩

/-- A table built with 64 buckets and maximum load factor `0.5`. -/
def c10Init : OrderedHash ℕ :=
  ⟨List.replicate 64 BucketEntry.mk0, 63, [], false, halfQ, 32, 9⟩

/-- `c10Init` with the single entry `(1, 5)`. -/
def c10B : OrderedHash ℕ := okState (insertOp idHash c10Init 1 5) c10Init

/-- C10: `operator==` compares the two value stores as sequences and nothing
else; in particular tables with different bucket counts, load factors or
deferred-grow flags compare equal whenever their ordered contents agree
(here: `(1, 10)`-tables built over 16 buckets at load factor `0.9` and over
64 buckets at load factor `0.5`). -/
theorem claim10_equality :
    (∀ (β : Type) (inst : DecidableEq β) (s t : OrderedHash β),
      @tableEq β inst s t = true ↔ s.m_values = t.m_values) ∧
      mkTable 64 halfQ = some c10Init ∧
      tableEq (okState (insertOp idHash c10Init 1 10) c10Init) c8Table = true ∧
      c10Init.bucket_count ≠ initDefaultN.bucket_count ∧
      c10Init.m_max_load_factor ≠ initDefaultN.m_max_load_factor ∧
      tableEq { c8Table with m_grow_on_next_insert := true } c8Table = true := by
  refine ⟨?_, by decide, by decide, by decide, by decide, by decide⟩
  intro β inst s t
  simp [tableEq]

/-- The table obtained by inserting `(1,"a"), (2,"b"), (3,"c")` into a
default-constructed table. -/
def c1T : OrderedHash String :=
  (OrderedHash.insertSeq idHash [(1, "a"), (2, "b"), (3, "c")] initDefaultS).getD initDefaultS

/-- C1: a successful sequence of inserts with pairwise-distinct keys into a
freshly constructed table yields a store — the iteration sequence — equal to
the input sequence, in first-insertion order; concretely, inserting
`(1,"a"), (2,"b"), (3,"c")` makes iteration yield exactly those entries. -/
theorem claim1_insert_preserves_order :
    (∀ (β : Type) (H : ℕ → ℕ) (n : ℕ) (t0 : OrderedHash β) (l : List (ℕ × β))
      (t : OrderedHash β),
      OrderedHash.mkTable n DEFAULT_MAX_LOAD_FACTOR = some t0 →
      (l.map Prod.fst).Nodup →
      OrderedHash.insertSeq H l t0 = some t →
      t.m_values = l) ∧
    OrderedHash.insertSeq idHash [(1, "a"), (2, "b"), (3, "c")] initDefaultS = some c1T ∧
    c1T.m_values = [(1, "a"), (2, "b"), (3, "c")] := by
  refine ⟨?_, by decide, by decide⟩
  intro β H n t0 l t hmk hnd hseq
  have hv0 : t0.m_values = [] := OrderedHash.mkTable_values hmk
  have := OrderedHash.insertSeq_values l t0 t (by rw [hv0]; simpa using hnd) hseq
  rw [this, hv0]
  simp

/-- C1 — witness: the general statement applied to the concrete three-insert
run of the claim. -/
theorem claim1_witness :
    c1T.m_values = [(1, "a"), (2, "b"), (3, "c")] :=
  claim1_insert_preserves_order.1 String idHash 16 initDefaultS
    [(1, "a"), (2, "b"), (3, "c")] c1T (by decide) (by decide) (by decide)

/-- `ratLtB` decides the rational order. -/
theorem Chunked.ratLtB_iff {q r : ℚ} : Chunked.ratLtB q r = true ↔ q < r := by
  unfold Chunked.ratLtB
  rw [decide_eq_true_eq]
  exact Rat.lt_def.symm

/-- C5 — amended: the capacity bound the code enforces is
`max_size() = 2^32 - 2` (not `2^W - 1`), and it stops exactly the inserts
of fresh keys: on any table with sound bucket geometry, the Robin Hood
support invariant and a free bucket — all consequences of well-formedness,
which every reachable table enjoys — an insert of a key not yet stored,
attempted when the store has reached `max_size()`, throws the capacity
`length_error` deterministically before modifying anything.  (An insert of
an already-present key still succeeds at maximal size: the probe returns the
existing entry before the capacity check, see the counterexample.) -/
theorem claim5_capacity_amended :
    (∀ (β : Type) (H : ℕ → ℕ) (s : OrderedHash β) (k : ℕ) (v : β),
      Geom s → robinHoodSupport s →
      (∃ e, e < s.m_buckets.length ∧ (s.bucketAt e).empty = true) →
      k ∉ s.m_values.map Prod.fst →
      s.max_size ≤ s.m_values.length →
      insertOp H s k v = .capacityError) ∧
    BucketEntry.max_size = 2 ^ 32 - 2 := by
  refine ⟨?_, by decide⟩
  intro β H s k v hg hsupp hEx hk hcap
  obtain ⟨E, hEN, hEe⟩ := hEx
  obtain ⟨i2, d2, hloop, -, -, -⟩ := insertProbeLoop_fresh_exits hg hsupp hk (H k)
    hEN hEe (s.bucket_count + 1) (s.bucket_for_hash (H k)) 0 (bfh_lt hg _)
    (circDist_self (bfh_lt hg (H k))).symm
    (fun h => absurd h (by omega))
    (by
      have := circDist_lt (bfh_lt hg (H k)) hEN
      unfold bucket_count
      omega)
  rw [insertOp, insert_impl]
  rw [hloop]
  simp only []
  rw [if_pos (show s.size ≥ s.max_size from hcap)]

/-- The concrete table for C5's witness: a default bucket frame over a store
of `2^32 - 2` entries. -/
def c5S : OrderedHash ℕ :=
  ⟨List.replicate 16 BucketEntry.mk0, 15, List.replicate (2 ^ 32 - 2) (0, 0), false,
    DEFAULT_MAX_LOAD_FACTOR, 14, 2⟩

/-- C5 — witness: the amended statement applied to the fresh key 5 on a
maximal-size table. -/
theorem claim5_witness :
    Geom c5S ∧ robinHoodSupport c5S ∧
    (∃ e, e < c5S.m_buckets.length ∧ (c5S.bucketAt e).empty = true) ∧
    (5 : ℕ) ∉ c5S.m_values.map Prod.fst ∧
    c5S.max_size ≤ c5S.m_values.length ∧
    insertOp idHash c5S 5 0 = .capacityError := by
  have hg : Geom c5S := by decide
  have hsupp : robinHoodSupport c5S := by decide
  have hEx : ∃ e, e < c5S.m_buckets.length ∧ (c5S.bucketAt e).empty = true :=
    ⟨0, by decide, by decide⟩
  have hk : (5 : ℕ) ∉ c5S.m_values.map Prod.fst := by
    intro hmem
    obtain ⟨kv, hkv, hfst⟩ := List.mem_map.mp hmem
    rw [List.eq_of_mem_replicate hkv] at hfst
    exact absurd hfst (by decide)
  have hcap : c5S.max_size ≤ c5S.m_values.length := by
    show min BucketEntry.max_size VALUES_MAX_SIZE ≤
      (List.replicate (2 ^ 32 - 2) ((0 : ℕ), (0 : ℕ))).length
    rw [List.length_replicate]
    norm_num [BucketEntry.max_size, VALUES_MAX_SIZE, NB_RESERVED_INDEXES]
  exact ⟨hg, hsupp, hEx, hk, hcap,
    claim5_capacity_amended.1 ℕ idHash c5S 5 0 hg hsupp hEx hk hcap⟩

/-- C6: on a well-formed table, inserting a fresh key appends it with
`inserted = true`; a second `insert` of the same key returns
`inserted = false` with the state — hence size, iteration order and the
stored mapped value — completely unchanged, while `insert_or_assign`
overwrites exactly the mapped part in place, preserving the key sequence and
the size. -/
theorem claim6_insert_no_overwrite :
    ∀ (β : Type) (H : ℕ → ℕ) (s : OrderedHash β) (k : ℕ) (v v' : β)
      (t : OrderedHash β) (pos : ℕ) (ins : Bool),
      OrderedHash.WF H s → k ∉ s.m_values.map Prod.fst →
      insertOp H s k v = .ok t pos ins →
      (ins = true ∧ pos = s.m_values.length ∧ t.m_values = s.m_values ++ [(k, v)]) ∧
      t.m_values.get? pos = some (k, v) ∧
      insertOp H t k v' = .ok t pos false ∧
      insert_or_assignOp H t k v' =
        .ok { t with m_values := t.m_values.set pos (k, v') } pos false ∧
      (t.m_values.set pos (k, v')).map Prod.fst = t.m_values.map Prod.fst ∧
      (t.m_values.set pos (k, v')).get? pos = some (k, v') := by
  intro β H s k v v' t pos ins w hk hins
  obtain ⟨hval, hins1, hpos1⟩ := OrderedHash.insert_fresh_values hk hins
  have hwt : OrderedHash.WF H t := OrderedHash.insertOp_WF w hins
  have hget : t.m_values.get? pos = some (k, v) := by
    rw [hval, hpos1, List.get?_concat_length]
  have hposlt : pos < t.m_values.length := (List.get?_eq_some.mp hget).1
  refine ⟨⟨hins1, hpos1, hval⟩, hget, ?_, ?_, ?_, ?_⟩
  · exact OrderedHash.insertOp_found hwt hget v'
  · exact OrderedHash.insert_or_assign_found hwt hget v'
  · exact OrderedHash.keys_set hget
  · rw [List.get?_set_eq_of_lt _ hposlt]

/-- The table holding `(1, 10)` used by the C6 witness. -/
def c6T : OrderedHash ℕ := okState (insertOp idHash initDefaultN 1 10) initDefaultN

/-- C6 — witness: the statement applied to `insert(1,10)`, `insert(1,20)`
and `insert_or_assign(1,20)` on a default table. -/
theorem claim6_witness :
    insertOp idHash c6T 1 20 = .ok c6T 0 false ∧
    insert_or_assignOp idHash c6T 1 20 =
      .ok { c6T with m_values := c6T.m_values.set 0 (1, 20) } 0 false := by
  have h := claim6_insert_no_overwrite ℕ idHash initDefaultN 1 10 20 c6T 0 true
    (by decide) (by decide) (by decide)
  exact ⟨h.2.2.1, h.2.2.2.1⟩

/-- C7 — amended: the member setter `max_load_factor(ml)` stores its argument
verbatim with no validation whatsoever; only the chunked deserialization
header path enforces the documented bounds, failing with
`invalid_max_load_factor` for an out-of-range stored factor, so a table
restored through an accepted header always carries a maximum load factor
within `[MINIMUM, MAXIMUM]`. -/
theorem claim7_mlf_amended :
    (∀ (β : Type) (s : OrderedHash β) (ml : ℚ),
      (max_load_factorOp s ml).m_max_load_factor = ml) ∧
    (∀ (β : Type) (hc : Bool) (els bc : ℕ) (ml : ℚ) (rest : List (Chunked.Atom β))
      (t : Chunked.DeTable β) (rem : ℕ),
      (ml < Chunked.MAX_LOAD_FACTOR__MINIMUM ∨ Chunked.MAX_LOAD_FACTOR__MAXIMUM < ml) →
      Chunked.deHeader hc
        (.u64 Chunked.SERIALIZATION_PROTOCOL_VERSION :: .u64 els :: .u64 bc ::
          .f32 ml :: rest) t rem = .error .invalidMaxLoadFactor) ∧
    (∀ (β : Type) (hc : Bool) (stream st2 : List (Chunked.Atom β))
      (t t2 : Chunked.DeTable β) (rem rem2 : ℕ),
      Chunked.deHeader hc stream t rem = .ok (st2, t2, rem2) →
      Chunked.MAX_LOAD_FACTOR__MINIMUM ≤ t2.maxLoadFactor ∧
        t2.maxLoadFactor ≤ Chunked.MAX_LOAD_FACTOR__MAXIMUM) := by
  refine ⟨fun β s ml => rfl, ?_, ?_⟩
  · intro β hc els bc ml rest t rem hout
    rw [Chunked.deHeader]
    simp only [Chunked.readU64, Chunked.readF32]
    rw [if_neg (by simp)]
    rw [if_pos ?cond]
    case cond =>
      rcases hout with h | h
      · exact Or.inl (Chunked.ratLtB_iff.mpr h)
      · exact Or.inr (Chunked.ratLtB_iff.mpr h)
  · intro β hc stream st2 t t2 rem rem2 h
    rw [Chunked.deHeader] at h
    cases h1 : Chunked.readU64 (α := β) stream with
    | error e => rw [h1] at h; exact absurd h (by simp)
    | ok pr1 =>
      rw [h1] at h
      simp only [] at h
      by_cases hv : pr1.1 ≠ Chunked.SERIALIZATION_PROTOCOL_VERSION
      · rw [if_pos hv] at h
        exact absurd h (by simp)
      · rw [if_neg hv] at h
        cases h2 : Chunked.readU64 (α := β) pr1.2 with
        | error e => rw [h2] at h; exact absurd h (by simp)
        | ok pr2 =>
          rw [h2] at h
          simp only [] at h
          cases h3 : Chunked.readU64 (α := β) pr2.2 with
          | error e => rw [h3] at h; exact absurd h (by simp)
          | ok pr3 =>
            rw [h3] at h
            simp only [] at h
            cases h4 : Chunked.readF32 (α := β) pr3.2 with
            | error e => rw [h4] at h; exact absurd h (by simp)
            | ok pr4 =>
              rw [h4] at h
              simp only [] at h
              by_cases hlt : Chunked.ratLtB pr4.1 Chunked.MAX_LOAD_FACTOR__MINIMUM = true ∨
                  Chunked.ratLtB Chunked.MAX_LOAD_FACTOR__MAXIMUM pr4.1 = true
              · rw [if_pos hlt] at h
                exact absurd h (by simp)
              · rw [if_neg hlt] at h
                push_neg at hlt
                have hge1 : Chunked.MAX_LOAD_FACTOR__MINIMUM ≤ pr4.1 := by
                  rcases lt_or_ge pr4.1 Chunked.MAX_LOAD_FACTOR__MINIMUM with hc1 | hc1
                  · exact absurd (Chunked.ratLtB_iff.mpr hc1) (by
                      intro hcon
                      exact absurd hcon (by simpa using hlt.1))
                  · exact hc1
                have hge2 : pr4.1 ≤ Chunked.MAX_LOAD_FACTOR__MAXIMUM := by
                  rcases lt_or_ge Chunked.MAX_LOAD_FACTOR__MAXIMUM pr4.1 with hc1 | hc1
                  · exact absurd (Chunked.ratLtB_iff.mpr hc1) (by
                      intro hcon
                      exact absurd hcon (by simpa using hlt.2))
                  · exact hc1
                by_cases hhc : ¬hc = true
                · rw [if_pos hhc] at h
                  injection h with hinj
                  injection hinj with ha hbc
                  injection hbc with hb hcx
                  rw [← hb]
                  exact ⟨hge1, hge2⟩
                · rw [if_neg hhc] at h
                  injection h with hinj
                  injection hinj with ha hbc
                  injection hbc with hb hcx
                  rw [← hb]
                  exact ⟨hge1, hge2⟩

/-- C7 — witness: the setter stores `2.0` verbatim, and a chunked header
carrying `0.05` is rejected with `invalid_max_load_factor`. -/
theorem claim7_witness :
    (max_load_factorOp initDefaultN (2 : ℚ)).m_max_load_factor = 2 ∧
    Chunked.deHeader true
      ([.u64 Chunked.SERIALIZATION_PROTOCOL_VERSION, .u64 0, .u64 16,
        .f32 (⟨1, 20, by norm_num, by norm_num⟩ : ℚ)] : List (Chunked.Atom ℕ))
      Chunked.DeTable.mk0 0 = .error .invalidMaxLoadFactor := by
  refine ⟨claim7_mlf_amended.1 ℕ initDefaultN 2, ?_⟩
  exact claim7_mlf_amended.2.1 ℕ true 0 16 (⟨1, 20, by norm_num, by norm_num⟩ : ℚ) []
    Chunked.DeTable.mk0 0 (Or.inl (Chunked.ratLtB_iff.mp (by decide)))

/-- C9 — amended: a successful `rehash` leaves the store — hence the
iteration sequence — and the stored maximum load factor untouched and keeps
the multiset of occupied bucket cells (each cell re-placed from its stored
truncated hash; the hasher is never consulted: `rehashOp` takes no hash
function), and, unless it was a no-op, clears the deferred-grow flag; the
bucket array, mask, load threshold and the min-load-factor rehash threshold
are rebuilt. -/
theorem claim9_rehash_frame_amended :
    ∀ (β : Type) (H : ℕ → ℕ) (s : OrderedHash β) (count : ℕ) (t : OrderedHash β),
      OrderedHash.WF H s → rehashOp s count = .ok t →
      t.m_values = s.m_values ∧ OrderedHash.cellsM t = OrderedHash.cellsM s ∧
      t.m_max_load_factor = s.m_max_load_factor ∧
      (t = s ∨ t.m_grow_on_next_insert = false) := by
  intro β H s count t w h
  obtain ⟨_, hv, hc, hm⟩ := OrderedHash.rehashOp_spec w h
  rw [rehashOp] at h
  obtain ⟨-, -, hor⟩ := OrderedHash.rehash_impl_frame h
  refine ⟨hv, hc, hm, ?_⟩
  rcases hor with heq | ⟨hg, -, -, -⟩
  · exact Or.inl heq
  · exact Or.inr hg

/-- The rehashed default table used by the C9 witness. -/
def c9W : OrderedHash ℕ := okOp (rehashOp initDefaultN 32) initDefaultN

/-- C9 — witness: the amended statement applied to `rehash(32)` on a default
table. -/
theorem claim9_witness :
    rehashOp initDefaultN 32 = .ok c9W ∧ c9W.m_values = initDefaultN.m_values ∧
      OrderedHash.cellsM c9W = OrderedHash.cellsM initDefaultN := by
  have h := claim9_rehash_frame_amended ℕ idHash initDefaultN 32 c9W
    (by decide) (by decide)
  exact ⟨by decide, h.1, h.2.1⟩

/-- C2 — amended invariants: every state reachable from a freshly
constructed table by `insert`, `erase`, `unordered_erase`, `rehash`,
`reserve` and `clear` satisfies the first two claimed invariants verbatim
(store consistency and exact positions) together with the Robin Hood
invariant that the code actually maintains — every non-empty bucket with
positive probe distance follows a non-empty predecessor whose probe
distance is at least its own minus one.  The literal third invariant
("probe distance is non-decreasing along any probe chain") fails on a
reachable state, see the counterexample. -/
theorem claim2_invariants_amended :
    ∀ (β : Type) (H : ℕ → ℕ) (s : OrderedHash β), Reachable H s →
      storeConsistent H s ∧ positionsExact s ∧ robinHoodSupport s := by
  intro β H s h
  have w := reachable_WF h
  exact ⟨w.store, w.pos, w.support⟩

/-- C2 — witness: the amended invariants evaluated on the four-insert
reachable state of the counterexample. -/
theorem claim2_witness :
    storeConsistent idHash c2T4 ∧ positionsExact c2T4 ∧ robinHoodSupport c2T4 :=
  claim2_invariants_amended ℕ idHash c2T4 c2T4_reachable

/-- The table holding `[(1,"a"),(2,"b"),(3,"c"),(4,"d")]`, built by four
inserts into a default-constructed table. -/
def c3S : OrderedHash String :=
  (OrderedHash.insertSeq idHash [(1, "a"), (2, "b"), (3, "c"), (4, "d")]
    initDefaultS).getD initDefaultS

/-- The result of `erase(2)` on `c3S`. -/
def c3T : OrderedHash String := ((eraseOp idHash c3S 2).getD (0, c3S)).2

/-- C3: erasing a present key at store position `p` under well-formedness
returns count 1, removes exactly store entry `p` (shifting all later
entries left one place, so the relative iteration order of the survivors is
preserved), and replaces the occupied buckets by the same cells with every
position above `p` decremented by one (the cell that carried `p` is
dropped); erase of an absent key returns 0 and leaves the table unchanged.
Concretely, erasing key 2 from `[(1,"a"),(2,"b"),(3,"c"),(4,"d")]` yields
iteration `[(1,"a"),(3,"c"),(4,"d")]` and `nth 1 = (3,"c")`. -/
theorem claim3_ordered_erase :
    (∀ (β : Type) (H : ℕ → ℕ) (s : OrderedHash β), WF H s →
      ∀ (p k : ℕ) (v : β), s.m_values.get? p = some (k, v) →
      ∃ t, eraseOp H s k = some (1, t) ∧
        t.m_values = s.m_values.eraseIdx p ∧
        (∃ c ∈ cellsM s, c.m_index = p ∧
          cellsM t = Multiset.map (decIdxB p s.m_values.length)
            ((cellsM s).erase c)) ∧
        WF H t) ∧
    (∀ (β : Type) (H : ℕ → ℕ) (s : OrderedHash β) (k : ℕ),
      k ∉ s.m_values.map Prod.fst → eraseOp H s k = some (0, s)) ∧
    eraseOp idHash c3S 2 = some (1, c3T) ∧
    c3T.m_values = [(1, "a"), (3, "c"), (4, "d")] ∧
    nthOp c3T 1 = some (3, "c") := by
  refine ⟨?_, ?_, by decide, by decide, by decide⟩
  · intro β H s w p k v hkv
    obtain ⟨t, heq, hval, _, _, _, _, _, _, hcells, hwf⟩ := eraseOp_found w hkv
    exact ⟨t, heq, hval, hcells, hwf⟩
  · intro β H s k hk
    exact eraseOp_absent hk

/-- C3 — witness: the general erase statement applied to key 2 at position 1
of the concrete four-entry table. -/
theorem claim3_witness :
    ∃ t, eraseOp idHash c3S 2 = some (1, t) ∧
      t.m_values = c3S.m_values.eraseIdx 1 ∧
      (∃ c ∈ cellsM c3S, c.m_index = 1 ∧
        cellsM t = Multiset.map (decIdxB 1 c3S.m_values.length)
          ((cellsM c3S).erase c)) ∧
      WF idHash t :=
  claim3_ordered_erase.1 String idHash c3S (by decide) 1 2 "b" (by decide)

/-- The result of `unordered_erase(2)` on `c3S`. -/
def c4T : OrderedHash String := ((unordered_eraseOp idHash c3S 2).getD (0, c3S)).2

/-- The result of `unordered_erase(4)` on `c3S`. -/
def c4U : OrderedHash String := ((unordered_eraseOp idHash c3S 4).getD (0, c3S)).2

/-- C4: unordered erase of a present key at store position `p` under
well-formedness swaps that entry with the last store entry (swapping the two
bucket position fields) and pops the store: the new store is
`(set p back).eraseIdx (n−1)`, so the previously-last element takes the
erased element's place; when the key's entry is the last one this is exactly
`pop_back`. Concretely, `unordered_erase(2)` on
`[(1,"a"),(2,"b"),(3,"c"),(4,"d")]` yields `[(1,"a"),(4,"d"),(3,"c")]`, and
`unordered_erase(4)` yields the `pop_back` result
`[(1,"a"),(2,"b"),(3,"c")]`. -/
theorem claim4_unordered_erase :
    (∀ (β : Type) (H : ℕ → ℕ) (s : OrderedHash β), WF H s →
      ∀ (p k : ℕ) (v : β), s.m_values.get? p = some (k, v) →
      ∃ t back, s.m_values.getLast? = some back ∧
        unordered_eraseOp H s k = some (1, t) ∧
        t.m_values = (s.m_values.set p back).eraseIdx (s.m_values.length - 1) ∧
        (p + 1 = s.m_values.length → t.m_values = s.m_values.dropLast) ∧
        WF H t) ∧
    unordered_eraseOp idHash c3S 2 = some (1, c4T) ∧
    c4T.m_values = [(1, "a"), (4, "d"), (3, "c")] ∧
    unordered_eraseOp idHash c3S 4 = some (1, c4U) ∧
    c4U.m_values = [(1, "a"), (2, "b"), (3, "c")] ∧
    c4U.m_values = c3S.m_values.dropLast := by
  refine ⟨?_, by decide, by decide, by decide, by decide, by decide⟩
  intro β H s w p k v hkv
  obtain ⟨t, back, hback, heq, hval, _, _, _, hwf⟩ := unordered_eraseOp_found w hkv
  refine ⟨t, back, hback, heq, hval, ?_, hwf⟩
  intro hpn
  have hlast : p = s.m_values.length - 1 := by omega
  rw [hval, hlast, eraseIdx_set_self,
    List.dropLast_eq_eraseIdx (show (s.m_values.length - 1) + 1 = s.m_values.length
      from by omega)]

/-- C4 — witness: the general unordered-erase statement applied to key 2 at
position 1 of the concrete four-entry table. -/
theorem claim4_witness :
    ∃ t back, c3S.m_values.getLast? = some back ∧
      unordered_eraseOp idHash c3S 2 = some (1, t) ∧
      t.m_values = (c3S.m_values.set 1 back).eraseIdx (c3S.m_values.length - 1) ∧
      (1 + 1 = c3S.m_values.length → t.m_values = c3S.m_values.dropLast) ∧
      WF idHash t :=
  claim4_unordered_erase.1 String idHash c3S (by decide) 1 2 "b" (by decide)

end OrderedMapSpec
